import Mathlib

/-!
# NewtonSolver: Newton iteration with a finite-difference Jacobian and a
full-pivoting Gaussian solver

Shallow embedding of `src/NewtonSolver.cpp`.

* `double` is modelled by `ℚ` (exact arithmetic); `fabs` is `|·|`.
* `std::vector<double>` is `List ℚ`, `std::vector<std::vector<double>>` is
  `List (List ℚ)`; reads are `List.getD`, writes are `List.set`.
* `for` loops are `forLoop lo hi body`, a left fold over `lo, lo+1, …, hi-1`.
* The `while` loop of the restore pass has no syntactic bound, so it takes
  fuel and returns `none` when the fuel runs out; `none` has no other meaning.
* `solve_newton` additionally reports the number of loop bodies it executed
  (a ghost counter, not present in the source).
* Ghost logs (`restoreLog`, `solve_newton_calls`) record the slots marked by
  the restore pass and the points at which `F` is evaluated.
* `solveC` is a second embedding of `solve` in which every subscript is
  checked against the size of its container; it is proved to agree with
  `solve` on well-shaped inputs.
-/

namespace NewtonSolver

/-- Numerical tolerances carried by the solver (`m_context`). -/
structure Context where
  newton_precision : ℚ
  newton_derive_step : ℚ

/-- The loop `for (i = lo; i < hi; i++) s = body i s`. -/
def forLoop {σ : Type} (lo hi : Nat) (body : Nat → σ → σ) (s : σ) : σ :=
  (List.range' lo (hi - lo)).foldl (fun acc i => body i acc) s

/-- The loop `for (int i = hi - 1; i >= 0; i--) s = body i s`. -/
def forLoopDown {σ : Type} (hi : Nat) (body : Nat → σ → σ) (s : σ) : σ :=
  (List.range hi).reverse.foldl (fun acc i => body i acc) s

/-- The read `mx[i][k]`. -/
def mget (mx : List (List ℚ)) (i k : Nat) : ℚ :=
  (mx.getD i []).getD k 0

/-- The write `mx[i][k] = v`. -/
def mset (mx : List (List ℚ)) (i k : Nat) (v : ℚ) : List (List ℚ) :=
  mx.set i ((mx.getD i []).set k v)

/-! ## Helpers whose bodies are not in `NewtonSolver.cpp` -/

/-- Modelled from the spec: `create(m, rows, cols)` is declared outside
`NewtonSolver.cpp`; the spec says it allocates the `n × (n+1)` augmented
matrix.  Every entry is overwritten before it is read, the model fills it
with zeros. -/
def create (rows cols : Nat) : List (List ℚ) :=
  List.replicate rows (List.replicate cols 0)

/-- Modelled from the spec: `subtract(a, b)` is declared outside
`NewtonSolver.cpp`; the spec uses it as the componentwise difference. -/
def subtract (a b : List ℚ) : List ℚ :=
  List.zipWith (fun p q => p - q) a b

/-- Modelled from the spec: `divide(a, c)` is declared outside
`NewtonSolver.cpp`; the spec uses it as division of every component by `c`. -/
def divide (a : List ℚ) (c : ℚ) : List ℚ :=
  a.map (fun p => p / c)

/-- Modelled from the spec: `multiply(m, x)` is declared outside
`NewtonSolver.cpp`; the spec uses it as the product `J · x` of the Jacobian
block (the columns matched by `x`) with the vector `x`. -/
def multiply (m : List (List ℚ)) (x : List ℚ) : List ℚ :=
  m.map (fun row => (List.zipWith (fun p q => p * q) row x).sum)

/-- Modelled from the spec: `plug_vector(m, v)` is declared outside
`NewtonSolver.cpp`; the spec says the right-hand side is stored in
column `n` of the `n`-row matrix. -/
def plug_vector (m : List (List ℚ)) (v : List ℚ) : List (List ℚ) :=
  forLoop 0 m.length (fun i acc => mset acc i m.length (v.getD i 0)) m

/-! ## `NewtonSolver::residual` -/

/-- Sum of squared componentwise differences. -/
def residual (a b : List ℚ) : ℚ :=
  forLoop 0 a.length
    (fun i res => res + (a.getD i 0 - b.getD i 0) * (a.getD i 0 - b.getD i 0)) 0

/-! ## `NewtonSolver::derive` -/

/-- The central-difference vector `d` of one column. -/
def deriveColumn (ctx : Context) (f : List ℚ → List ℚ) (x : List ℚ) (column : Nat) : List ℚ :=
  let l := x.set column (x.getD column 0 + ctx.newton_derive_step)
  let r := x.set column (x.getD column 0 - ctx.newton_derive_step)
  divide (subtract (f l) (f r)) (2 * ctx.newton_derive_step)

/-- Fills the left `n × n` block of `m` with central differences of `f` at `x`. -/
def derive (ctx : Context) (m : List (List ℚ)) (f : List ℚ → List ℚ) (x : List ℚ) :
    List (List ℚ) :=
  let n := m.length
  forLoop 0 n (fun column acc =>
    let d := deriveColumn ctx f x column
    forLoop 0 n (fun row acc2 => mset acc2 row column (d.getD row 0)) acc) m

/-! ## `NewtonSolver::solve` -/

/-- State of the pivot search: `(max_i, max_j, max)`. -/
abbrev PivotState := Nat × Nat × ℚ

/-- The scan of rows `j..n-1` and columns `j..n-1` for the largest magnitude. -/
def pivotSearch (mx : List (List ℚ)) (n j : Nat) : PivotState :=
  forLoop j n (fun z s =>
    forLoop j n (fun t s2 =>
      if |mget mx z t| > s2.2.2 then (z, t, |mget mx z t|) else s2) s) (0, 0, 0)

/-- The loop `for i < n: std::swap(mx[i][max_j], mx[i][j])`. -/
def swapColumns (mx : List (List ℚ)) (n max_j j : Nat) : List (List ℚ) :=
  forLoop 0 n (fun i acc =>
    mset (mset acc i max_j (mget acc i j)) i j (mget acc i max_j)) mx

/-- The statement `std::swap(mx[max_i], mx[j])`. -/
def swapRows (mx : List (List ℚ)) (max_i j : Nat) : List (List ℚ) :=
  (mx.set max_i (mx.getD j [])).set j (mx.getD max_i [])

/-- The statement `std::swap(x_order[j], x_order[max_j])`. -/
def swapOrder (x_order : List Nat) (j max_j : Nat) : List Nat :=
  (x_order.set j (x_order.getD max_j 0)).set max_j (x_order.getD j 0)

/-- The loop over the rows `i = j+1..n-1` that clears column `j`. -/
def eliminate (mx : List (List ℚ)) (n j : Nat) : List (List ℚ) :=
  forLoop (j + 1) n (fun i acc =>
    let div := mget acc i j / mget acc j j
    forLoop 0 (n + 1) (fun k acc2 =>
      mset acc2 i k (mget acc2 i k - div * mget acc2 j k)) acc) mx

/-- One pass of the outer loop of `solve` for pivot step `j`. -/
def pivotStep (n j : Nat) (s : List (List ℚ) × List Nat) : List (List ℚ) × List Nat :=
  let p := pivotSearch s.1 n j
  let max_i := p.1
  let max_j := p.2.1
  let mx1 := swapColumns s.1 n max_j j
  let mx2 := swapRows mx1 max_i j
  let x_order := swapOrder s.2 j max_j
  (eliminate mx2 n j, x_order)

/-- The elimination phase: `x_order` initialised to the identity, then the
pivot steps `j = 0..n-1`. -/
def elimination (mx : List (List ℚ)) (n : Nat) : List (List ℚ) × List Nat :=
  forLoop 0 n (pivotStep n) (mx, List.range n)

/-- Back-substitution on the reduced matrix, writing into `res`:
`res[n-1]` first, then `for (int i = n - 2; i >= 0; i--)`. -/
def backSubstitute (mx : List (List ℚ)) (n : Nat) (res : List ℚ) : List ℚ :=
  let res0 := res.set (n - 1) (mget mx (n - 1) n / mget mx (n - 1) (n - 1))
  forLoopDown (n - 1) (fun i acc =>
    let sum := forLoop (i + 1) n (fun j sm => sm + mget mx i j * acc.getD j 0) 0
    acc.set i ((mget mx i n - sum) / mget mx i i)) res0

/-- The statement `std::swap(res[i], res[q])`. -/
def swapRes (res : List ℚ) (i q : Nat) : List ℚ :=
  (res.set i (res.getD q 0)).set q (res.getD i 0)

/-- The loop `while (x_order[next] != n) { … }` of the restore pass for the
outer index `i`; `none` when the fuel is used up. -/
def restoreWhile (n i : Nat) : Nat → Nat → List ℚ × List Nat → Option (List ℚ × List Nat)
  | 0, _, _ => none
  | fuel + 1, next, s =>
    if s.2.getD next 0 ≠ n then
      let res := swapRes s.1 i (s.2.getD next 0)
      let temp := s.2.getD next 0
      restoreWhile n i fuel temp (res, s.2.set next n)
    else some s

/-- The restore pass: the loop over `i = 0..n-1` around `restoreWhile`. -/
def restore (n fuel : Nat) (res : List ℚ) (x_order : List Nat) : Option (List ℚ × List Nat) :=
  forLoop 0 n (fun i acc => acc.bind (restoreWhile n i fuel i)) (some (res, x_order))

/-- The function `NewtonSolver::solve(mx, res)`: the final content of `res`. -/
def solve (fuel : Nat) (mx : List (List ℚ)) (res : List ℚ) : Option (List ℚ) :=
  let n := mx.length
  let e := elimination mx n
  (restore n fuel (backSubstitute e.1 n res) e.2).map Prod.fst

/-! ## `NewtonSolver::solve_newton` -/

/-- Lines 26–35 of the loop body: build the augmented system at `previous`
and solve it into `next`. -/
def newtonStep (ctx : Context) (fuel : Nat) (f : List ℚ → List ℚ)
    (previous next : List ℚ) : Option (List ℚ) :=
  let n := previous.length
  let m := create n (n + 1)
  let m1 := derive ctx m f previous
  let m2 := plug_vector m1 (subtract (multiply m1 previous) (f previous))
  solve fuel m2 next

/-- Result of a run: the returned vector and the number of loop bodies that
were executed. -/
structure Run where
  output : List ℚ
  iterations : Nat
deriving DecidableEq

/-- The `for` loop of `solve_newton` with `remaining` passes left, `done`
passes executed so far, and the current `previous` and `next`. -/
def newtonLoop (ctx : Context) (fuel : Nat) (f : List ℚ → List ℚ) :
    Nat → Nat → List ℚ → List ℚ → Option Run
  | 0, done, _, next => some ⟨next, done⟩
  | remaining + 1, done, previous, next =>
    match newtonStep ctx fuel f previous next with
    | none => none
    | some next1 =>
      if residual previous next1 < ctx.newton_precision then
        some ⟨next1, done + 1⟩
      else
        newtonLoop ctx fuel f remaining (done + 1) next1 previous

/-- The function `NewtonSolver::solve_newton(f, initial_guess, max_iterations)`. -/
def solve_newton (ctx : Context) (fuel : Nat) (f : List ℚ → List ℚ)
    (initial_guess : List ℚ) (max_iterations : Nat) : Option Run :=
  newtonLoop ctx fuel f max_iterations 0 initial_guess
    (List.replicate initial_guess.length 0)


/-! ## Vocabulary of the statements -/

/-- The matrix has `n` rows of `n + 1` entries each. -/
def Shape (n : Nat) (mx : List (List ℚ)) : Prop :=
  mx.length = n ∧ ∀ r, r < n → (mx.getD r []).length = n + 1

/-- The leading `n × n` block of `mx`. -/
def blockMatrix (n : Nat) (mx : List (List ℚ)) : Matrix (Fin n) (Fin n) ℚ :=
  Matrix.of (fun i k => mget mx i.val k.val)

/-- The list `x_order` holds a permutation of `0..n-1`, stated on its reads. -/
def ValidOrder (n : Nat) (x_order : List Nat) : Prop :=
  x_order.length = n ∧ (∀ k, k < n → x_order.getD k 0 < n) ∧
    ∀ a b, a < n → b < n → x_order.getD a 0 = x_order.getD b 0 → a = b

/-- Position `(z, t)` is scanned before `(z2, t2)` (rows outer, columns inner). -/
def ScanBefore (z t z2 t2 : Nat) : Prop :=
  z < z2 ∨ (z = z2 ∧ t < t2)

/-- What the pivot-search state records: either nothing was selected yet, or
a position of the trailing submatrix with its positive magnitude, strictly
larger than every trailing entry scanned before it. -/
def PivotGood (mx : List (List ℚ)) (n j : Nat) (s : PivotState) : Prop :=
  s = (0, 0, 0) ∨
    (j ≤ s.1 ∧ s.1 < n ∧ j ≤ s.2.1 ∧ s.2.1 < n ∧ s.2.2 = |mget mx s.1 s.2.1| ∧ 0 < s.2.2 ∧
      ∀ z t, j ≤ z → j ≤ t → t < n → ScanBefore z t s.1 s.2.1 → |mget mx z t| < s.2.2)

/-- The recorded magnitude bounds every trailing entry scanned before `(z, t)`. -/
def PivotDom (mx : List (List ℚ)) (n j z t : Nat) (s : PivotState) : Prop :=
  ∀ z2 t2, j ≤ z2 → j ≤ t2 → t2 < n → ScanBefore z2 t2 z t → |mget mx z2 t2| ≤ s.2.2

/-- Invariant of the elimination loop of `solve` on a non-singular system
whose input matrix is `A`, before pivot step `j`. -/
structure ElimInv (n : Nat) (A : List (List ℚ)) (j : Nat)
    (s : List (List ℚ) × List Nat) : Prop where
  shape : Shape n s.1
  order : ValidOrder n s.2
  det : (blockMatrix n s.1).det ≠ 0
  lower : ∀ i k, k < j → k < i → i < n → mget s.1 i k = 0
  diag : ∀ k, k < j → mget s.1 k k ≠ 0
  sol : ∀ x : Nat → ℚ,
    (∀ i, i < n → ∑ k ∈ Finset.range n, mget A i k * x k = mget A i n) →
    ∀ i, i < n → ∑ k ∈ Finset.range n, mget s.1 i k * x (s.2.getD k 0) = mget s.1 i n

/-- Number of slots of `x_order` not yet overwritten by the sentinel `n`. -/
def unmarkedCount (n : Nat) (x_order : List Nat) : Nat :=
  ((Finset.range n).filter (fun k => x_order.getD k 0 ≠ n)).card

/-- Invariant of the restore pass between two cycles: `p` and `r` are the
initial `x_order` and `res`; slot `k` is marked when `x_order[k] = n`. -/
structure RestoreOuter (n : Nat) (p : List Nat) (r : List ℚ) (s : List ℚ × List Nat) : Prop where
  lenRes : s.1.length = n
  lenOrd : s.2.length = n
  entries : ∀ k, k < n → s.2.getD k 0 = n ∨ s.2.getD k 0 = p.getD k 0
  closed : ∀ k, k < n → s.2.getD k 0 = n → s.2.getD (p.getD k 0) 0 = n
  pred : ∀ k, k < n → s.2.getD k 0 = n → ∃ k2, k2 < n ∧ s.2.getD k2 0 = n ∧ p.getD k2 0 = k
  placed : ∀ k, k < n → s.2.getD k 0 = n → s.1.getD (p.getD k 0) 0 = r.getD k 0
  untouched : ∀ k, k < n → s.2.getD k 0 ≠ n → s.1.getD k 0 = r.getD k 0

/-- Invariant of the restore pass inside the cycle started at `i`, before
the slot `next` is processed. -/
structure RestoreOpen (n : Nat) (p : List Nat) (r : List ℚ) (i next : Nat)
    (s : List ℚ × List Nat) : Prop where
  lenRes : s.1.length = n
  lenOrd : s.2.length = n
  entries : ∀ k, k < n → s.2.getD k 0 = n ∨ s.2.getD k 0 = p.getD k 0
  hi : i < n
  hnext : next < n
  unmarked : s.2.getD next 0 ≠ n
  start : s.2.getD i 0 = n ∨ next = i
  predNext : next ≠ i → ∃ k2, k2 < n ∧ s.2.getD k2 0 = n ∧ p.getD k2 0 = next
  closed : ∀ k, k < n → s.2.getD k 0 = n → s.2.getD (p.getD k 0) 0 = n ∨ p.getD k 0 = next
  pred : ∀ k, k < n → s.2.getD k 0 = n → k ≠ i →
    ∃ k2, k2 < n ∧ s.2.getD k2 0 = n ∧ p.getD k2 0 = k
  placed : ∀ k, k < n → s.2.getD k 0 = n → p.getD k 0 ≠ i → s.1.getD (p.getD k 0) 0 = r.getD k 0
  untouched : ∀ k, k < n → s.2.getD k 0 ≠ n → k ≠ i → k ≠ next → s.1.getD k 0 = r.getD k 0
  held : s.1.getD i 0 = r.getD next 0

/-- The Newton iterates `x_0, x_1, …`: `x_0` is the initial guess and
`x_(k+1)` is the solution of the augmented system built at `x_k`. -/
def newtonIterate (ctx : Context) (fuel : Nat) (f : List ℚ → List ℚ) (x0 : List ℚ) :
    Nat → Option (List ℚ)
  | 0 => some x0
  | k + 1 => (newtonIterate ctx fuel f x0 k).bind
      (fun x => newtonStep ctx fuel f x (List.replicate x.length 0))

/-- The affine system `F(x) = [x0 + x1 - 3, x0 - x1 - 1]` of the spec, root `[2, 1]`. -/
def affineExample (x : List ℚ) : List ℚ :=
  [x.getD 0 0 + x.getD 1 0 - 3, x.getD 0 0 - x.getD 1 0 - 1]

/-- The system `F(x) = [x0 + x1 - 2, x0 + x1 - 2]` of the spec, whose Jacobian is
singular everywhere. -/
def singularExample (x : List ℚ) : List ℚ :=
  [x.getD 0 0 + x.getD 1 0 - 2, x.getD 0 0 + x.getD 1 0 - 2]

/-- The system `F(x) = [x0² - 2]` of the spec, root `√2`. -/
def squareExample (x : List ℚ) : List ℚ :=
  [x.getD 0 0 * x.getD 0 0 - 2]

/-- The pair `(mx, x_order)` of `solve` when pivot step `j` starts, i.e.
after the steps `0..j-1` of the elimination loop. -/
def stateBefore (mx : List (List ℚ)) (n j : Nat) : List (List ℚ) × List Nat :=
  forLoop 0 j (pivotStep n) (mx, List.range n)

/-- Invariant of the elimination loop on an arbitrary system whose pivots
so far were nonzero: the leading block is triangular up to column `j`, and
it is singular exactly when the input block `A` is. -/
structure TriInv (n : Nat) (A : List (List ℚ)) (j : Nat)
    (s : List (List ℚ) × List Nat) : Prop where
  shape : Shape n s.1
  detIff : (blockMatrix n s.1).det = 0 ↔ (blockMatrix n A).det = 0
  lower : ∀ i k, k < j → k < i → i < n → mget s.1 i k = 0
  diag : ∀ k, k < j → mget s.1 k k ≠ 0

/-- The affine system `F(x) = A·x - b` on vectors of length `n`, with the
matrix `A` and the vector `b` given by their entries. -/
def affineSystem (n : Nat) (A : Nat → Nat → ℚ) (b : Nat → ℚ) (x : List ℚ) : List ℚ :=
  (List.range n).map (fun r => (∑ k ∈ Finset.range n, A r k * x.getD k 0) - b r)

/-- Entries of the matrix of the spec's affine example `[x0 + x1 - 3, x0 - x1 - 1]`. -/
def affineExampleMatrix (r k : Nat) : ℚ :=
  if r = 0 then 1 else if k = 0 then 1 else -1

/-- Right-hand side of the spec's affine example. -/
def affineExampleRhs (r : Nat) : ℚ :=
  if r = 0 then 3 else 1

/-- The loop `restoreWhile` with a ghost log: every execution of the loop
body appends the slot `next` it marks. -/
def restoreWhileLog (n i : Nat) :
    Nat → Nat → (List ℚ × List Nat) × List Nat → Option ((List ℚ × List Nat) × List Nat)
  | 0, _, _ => none
  | fuel + 1, next, s =>
    if s.1.2.getD next 0 ≠ n then
      let res := swapRes s.1.1 i (s.1.2.getD next 0)
      let temp := s.1.2.getD next 0
      restoreWhileLog n i fuel temp ((res, s.1.2.set next n), s.2 ++ [next])
    else some s

/-- The restore pass with the ghost log of marked slots, in execution order. -/
def restoreLog (n fuel : Nat) (res : List ℚ) (x_order : List Nat) :
    Option ((List ℚ × List Nat) × List Nat) :=
  forLoop 0 n (fun i acc => acc.bind (restoreWhileLog n i fuel i)) (some ((res, x_order), []))

/-- The log holds exactly the marked slots, each once. -/
def LogInv (n : Nat) (x_order : List Nat) (log : List Nat) : Prop :=
  log.Nodup ∧ ∀ k, k ∈ log ↔ (k < n ∧ x_order.getD k 0 = n)

/-! ## The solver with checked accesses

A second embedding of `NewtonSolver::solve` in which every subscript is
checked against the size of the container it indexes: an access outside the
bounds stops the run with `Fault.outOfBounds`. -/

/-- The ways a checked run can stop early. -/
inductive Fault where
  | outOfBounds
  | outOfFuel
deriving DecidableEq

/-- Result of a checked run. -/
abbrev Checked (α : Type) := Except Fault α

/-- The checked read `v[i]`. -/
def readVec {α : Type} (v : List α) (i : Nat) (d : α) : Checked α :=
  if i < v.length then Except.ok (v.getD i d) else Except.error Fault.outOfBounds

/-- The checked write `v[i] = a`. -/
def writeVec {α : Type} (v : List α) (i : Nat) (a : α) : Checked (List α) :=
  if i < v.length then Except.ok (v.set i a) else Except.error Fault.outOfBounds

/-- The checked read `mx[i][k]`. -/
def readMx (mx : List (List ℚ)) (i k : Nat) : Checked ℚ :=
  if i < mx.length ∧ k < (mx.getD i []).length then Except.ok (mget mx i k)
  else Except.error Fault.outOfBounds

/-- The checked write `mx[i][k] = v`. -/
def writeMx (mx : List (List ℚ)) (i k : Nat) (v : ℚ) : Checked (List (List ℚ)) :=
  if i < mx.length ∧ k < (mx.getD i []).length then Except.ok (mset mx i k v)
  else Except.error Fault.outOfBounds

/-- The loop `for (i = lo; i < hi; i++)` over a checked body. -/
def forLoopC {σ : Type} (lo hi : Nat) (body : Nat → σ → Checked σ) (s : σ) : Checked σ :=
  forLoop lo hi (fun i acc => acc.bind (body i)) (Except.ok s)

/-- The loop `for (int i = hi - 1; i >= 0; i--)` over a checked body. -/
def forLoopDownC {σ : Type} (hi : Nat) (body : Nat → σ → Checked σ) (s : σ) : Checked σ :=
  forLoopDown hi (fun i acc => acc.bind (body i)) (Except.ok s)

/-- The pivot scan with checked reads of `mx[z][t]`. -/
def pivotSearchC (mx : List (List ℚ)) (n j : Nat) : Checked PivotState :=
  forLoopC j n (fun z s =>
    forLoopC j n (fun t s2 =>
      (readMx mx z t).bind (fun v =>
        if |v| > s2.2.2 then
          (readMx mx z t).bind (fun w => Except.ok (z, t, |w|))
        else Except.ok s2)) s) (0, 0, 0)

/-- The column swap loop with checked accesses. -/
def swapColumnsC (mx : List (List ℚ)) (n max_j j : Nat) : Checked (List (List ℚ)) :=
  forLoopC 0 n (fun i acc =>
    (readMx acc i max_j).bind (fun a =>
      (readMx acc i j).bind (fun b =>
        (writeMx acc i max_j b).bind (fun acc1 => writeMx acc1 i j a)))) mx

/-- The row swap `std::swap(mx[max_i], mx[j])` with checked accesses. -/
def swapRowsC (mx : List (List ℚ)) (max_i j : Nat) : Checked (List (List ℚ)) :=
  (readVec mx max_i []).bind (fun a =>
    (readVec mx j []).bind (fun b =>
      (writeVec mx max_i b).bind (fun m1 => writeVec m1 j a)))

/-- The swap `std::swap(x_order[j], x_order[max_j])` with checked accesses. -/
def swapOrderC (x_order : List Nat) (j max_j : Nat) : Checked (List Nat) :=
  (readVec x_order j 0).bind (fun a =>
    (readVec x_order max_j 0).bind (fun b =>
      (writeVec x_order j b).bind (fun x1 => writeVec x1 max_j a)))

/-- The elimination loop of one pivot step with checked accesses. -/
def eliminateC (mx : List (List ℚ)) (n j : Nat) : Checked (List (List ℚ)) :=
  forLoopC (j + 1) n (fun i acc =>
    (readMx acc i j).bind (fun a =>
      (readMx acc j j).bind (fun p =>
        forLoopC 0 (n + 1) (fun k acc2 =>
          (readMx acc2 i k).bind (fun u =>
            (readMx acc2 j k).bind (fun w =>
              writeMx acc2 i k (u - a / p * w)))) acc))) mx

/-- One pivot step with checked accesses. -/
def pivotStepC (n j : Nat) (s : List (List ℚ) × List Nat) :
    Checked (List (List ℚ) × List Nat) :=
  (pivotSearchC s.1 n j).bind (fun p =>
    (swapColumnsC s.1 n p.2.1 j).bind (fun mx1 =>
      (swapRowsC mx1 p.1 j).bind (fun mx2 =>
        (swapOrderC s.2 j p.2.1).bind (fun x_order =>
          (eliminateC mx2 n j).bind (fun mx3 => Except.ok (mx3, x_order))))))

/-- The elimination phase with checked accesses; the initialisation
`x_order[i] = i` for `i < n` writes a vector of size `n`. -/
def eliminationC (mx : List (List ℚ)) (n : Nat) : Checked (List (List ℚ) × List Nat) :=
  forLoopC 0 n (pivotStepC n) (mx, List.range n)

/-- Back-substitution with checked accesses. -/
def backSubstituteC (mx : List (List ℚ)) (n : Nat) (res : List ℚ) : Checked (List ℚ) :=
  (readMx mx (n - 1) n).bind (fun b =>
    (readMx mx (n - 1) (n - 1)).bind (fun d =>
      (writeVec res (n - 1) (b / d)).bind (fun res0 =>
        forLoopDownC (n - 1) (fun i acc =>
          (forLoopC (i + 1) n (fun j sm =>
            (readMx mx i j).bind (fun a =>
              (readVec acc j 0).bind (fun y => Except.ok (sm + a * y)))) 0).bind (fun sum =>
            (readMx mx i n).bind (fun b2 =>
              (readMx mx i i).bind (fun d2 =>
                writeVec acc i ((b2 - sum) / d2))))) res0)))

/-- The swap `std::swap(res[i], res[q])` with checked accesses. -/
def swapResC (res : List ℚ) (i q : Nat) : Checked (List ℚ) :=
  (readVec res i 0).bind (fun a =>
    (readVec res q 0).bind (fun b =>
      (writeVec res i b).bind (fun r1 => writeVec r1 q a)))

/-- The `while` loop of the restore pass with checked accesses. -/
def restoreWhileC (n i : Nat) : Nat → Nat → List ℚ × List Nat → Checked (List ℚ × List Nat)
  | 0, _, _ => Except.error Fault.outOfFuel
  | fuel + 1, next, s =>
    (readVec s.2 next 0).bind (fun q =>
      if q ≠ n then
        (swapResC s.1 i q).bind (fun res =>
          (writeVec s.2 next n).bind (fun x_order =>
            restoreWhileC n i fuel q (res, x_order)))
      else Except.ok s)

/-- The restore pass with checked accesses. -/
def restoreC (n fuel : Nat) (res : List ℚ) (x_order : List Nat) :
    Checked (List ℚ × List Nat) :=
  forLoopC 0 n (fun i s => restoreWhileC n i fuel i s) (res, x_order)

/-- The function `solve` with checked accesses. -/
def solveC (fuel : Nat) (mx : List (List ℚ)) (res : List ℚ) : Checked (List ℚ) :=
  (eliminationC mx mx.length).bind (fun e =>
    (backSubstituteC e.1 mx.length res).bind (fun y =>
      (restoreC mx.length fuel y e.2).bind (fun s => Except.ok s.1)))

/-- What the bounds of the restore pass rest on: both vectors have length
`n` and every entry of `x_order` is an index below `n` or the sentinel `n`. -/
def RestoreBounds (n : Nat) (s : List ℚ × List Nat) : Prop :=
  s.1.length = n ∧ s.2.length = n ∧ ∀ k, k < n → s.2.getD k 0 ≤ n

/-! ## Ghost log of the evaluations of `F` -/

/-- The points at which `derive` evaluates `f`, in order: for every column
the perturbed vectors `l` and `r`. -/
def deriveCalls (ctx : Context) (n : Nat) (x : List ℚ) : List (List ℚ) :=
  forLoop 0 n (fun column acc =>
    acc ++ [x.set column (x.getD column 0 + ctx.newton_derive_step),
      x.set column (x.getD column 0 - ctx.newton_derive_step)]) []

/-- The points at which the loop of `solve_newton` evaluates `f`, in order:
in every executed loop body the calls of `derive` and then `f(previous)`. -/
def newtonLoopCalls (ctx : Context) (fuel : Nat) (f : List ℚ → List ℚ) :
    Nat → List ℚ → List ℚ → List (List ℚ)
  | 0, _, _ => []
  | remaining + 1, previous, next =>
    deriveCalls ctx previous.length previous ++ [previous] ++
      match newtonStep ctx fuel f previous next with
      | none => []
      | some next1 =>
        if residual previous next1 < ctx.newton_precision then []
        else newtonLoopCalls ctx fuel f remaining next1 previous

/-- The points at which `solve_newton` evaluates `f`, in order. -/
def solve_newton_calls (ctx : Context) (fuel : Nat) (f : List ℚ → List ℚ)
    (initial_guess : List ℚ) (max_iterations : Nat) : List (List ℚ) :=
  newtonLoopCalls ctx fuel f max_iterations initial_guess
    (List.replicate initial_guess.length 0)

/-! ## Loops -/

theorem forLoop_of_le {σ : Type} {lo hi : Nat} (h : hi ≤ lo) (body : Nat → σ → σ) (s : σ) :
    forLoop lo hi body s = s := by
  simp [forLoop, Nat.sub_eq_zero_of_le h]

theorem forLoop_succ_right {σ : Type} {lo hi : Nat} (h : lo ≤ hi) (body : Nat → σ → σ) (s : σ) :
    forLoop lo (hi + 1) body s = body hi (forLoop lo hi body s) := by
  unfold forLoop
  have e : hi + 1 - lo = (hi - lo) + 1 := by omega
  rw [e, List.range'_concat, List.foldl_append]
  have e2 : lo + (hi - lo) = hi := by omega
  simp [e2]

theorem forLoop_succ_left {σ : Type} {lo hi : Nat} (h : lo < hi) (body : Nat → σ → σ) (s : σ) :
    forLoop lo hi body s = forLoop (lo + 1) hi body (body lo s) := by
  unfold forLoop
  have e : hi - lo = (hi - (lo + 1)) + 1 := by omega
  rw [e, List.range'_succ]
  simp

/-- Invariant rule for `forLoop`. -/
theorem forLoop_inv {σ : Type} {lo hi : Nat} (P : Nat → σ → Prop) (body : Nat → σ → σ) (s : σ)
    (hle : lo ≤ hi) (h0 : P lo s)
    (hstep : ∀ i t, lo ≤ i → i < hi → P i t → P (i + 1) (body i t)) :
    P hi (forLoop lo hi body s) := by
  induction hi, hle using Nat.le_induction with
  | base => rw [forLoop_of_le (le_refl _)]; exact h0
  | succ m hm ih =>
    rw [forLoop_succ_right hm]
    exact hstep m _ hm (Nat.lt_succ_self m)
      (ih (fun i t h1 h2 h3 => hstep i t h1 (Nat.lt_succ_of_lt h2) h3))

theorem forLoopDown_zero {σ : Type} (body : Nat → σ → σ) (s : σ) :
    forLoopDown 0 body s = s := by
  simp [forLoopDown]

theorem forLoopDown_succ {σ : Type} (hi : Nat) (body : Nat → σ → σ) (s : σ) :
    forLoopDown (hi + 1) body s = forLoopDown hi body (body hi s) := by
  simp [forLoopDown, List.range_succ]

/-- Invariant rule for `forLoopDown`. -/
theorem forLoopDown_inv {σ : Type} (P : Nat → σ → Prop) (body : Nat → σ → σ) (hi : Nat) (s : σ)
    (h0 : P hi s) (hstep : ∀ i t, i < hi → P (i + 1) t → P i (body i t)) :
    P 0 (forLoopDown hi body s) := by
  induction hi generalizing s with
  | zero => rw [forLoopDown_zero]; exact h0
  | succ m ih =>
    rw [forLoopDown_succ]
    exact ih _ (hstep m s (Nat.lt_succ_self m) h0)
      (fun i t h1 h2 => hstep i t (Nat.lt_succ_of_lt h1) h2)

theorem forLoop_sum (lo hi : Nat) (g : Nat → ℚ) (hle : lo ≤ hi) :
    forLoop lo hi (fun j sm => sm + g j) 0 = ∑ k ∈ Finset.Ico lo hi, g k := by
  induction hi, hle using Nat.le_induction with
  | base => simp [forLoop_of_le]
  | succ m hm ih =>
    rw [forLoop_succ_right hm, ih, Finset.sum_Ico_succ_top hm]

/-! ## Reads and writes -/

theorem getD_set {α : Type} (l : List α) (i k : Nat) (v d : α) :
    (l.set i v).getD k d = if i = k ∧ i < l.length then v else l.getD k d := by
  simp only [List.getD_eq_getElem?_getD, List.getElem?_set]
  by_cases h : i = k
  · subst h
    by_cases h2 : i < l.length
    · simp [h2]
    · simp [h2, List.getElem?_eq_none (not_lt.mp h2)]
  · simp [h]

theorem getD_of_length_le {α : Type} (l : List α) (k : Nat) (d : α) (h : l.length ≤ k) :
    l.getD k d = d := by
  simp [List.getD_eq_getElem?_getD, List.getElem?_eq_none h]

theorem mget_mset (mx : List (List ℚ)) (i k r c : Nat) (v : ℚ) :
    mget (mset mx i k v) r c =
      if i = r ∧ k = c ∧ i < mx.length ∧ k < (mx.getD i []).length then v else mget mx r c := by
  unfold mget mset
  rw [getD_set]
  by_cases h1 : i = r ∧ i < mx.length
  · rw [if_pos h1, getD_set]
    obtain ⟨rfl, h2⟩ := h1
    by_cases h3 : k = c ∧ k < (mx.getD i []).length
    · rw [if_pos h3, if_pos ⟨rfl, h3.1, h2, h3.2⟩]
    · rw [if_neg h3, if_neg (fun h => h3 ⟨h.2.1, h.2.2.2⟩)]
  · rw [if_neg h1, if_neg (fun h => h1 ⟨h.1, h.2.2.1⟩)]

theorem length_mset (mx : List (List ℚ)) (i k : Nat) (v : ℚ) :
    (mset mx i k v).length = mx.length := by
  simp [mset]

theorem rowLength_mset (mx : List (List ℚ)) (i k r : Nat) (v : ℚ) :
    ((mset mx i k v).getD r []).length = (mx.getD r []).length := by
  unfold mset
  rw [getD_set]
  by_cases h1 : i = r ∧ i < mx.length
  · rw [if_pos h1, List.length_set, h1.1]
  · rw [if_neg h1]

theorem shape_mset {n : Nat} {mx : List (List ℚ)} (h : Shape n mx) (i k : Nat) (v : ℚ) :
    Shape n (mset mx i k v) :=
  ⟨by rw [length_mset]; exact h.1, fun r hr => by rw [rowLength_mset]; exact h.2 r hr⟩

theorem mget_mset_of_shape {n : Nat} {mx : List (List ℚ)} (h : Shape n mx) (i k r c : Nat) (v : ℚ)
    (hi : i < n) (hk : k ≤ n) :
    mget (mset mx i k v) r c = if i = r ∧ k = c then v else mget mx r c := by
  rw [mget_mset]
  have h1 : i < mx.length := by rw [h.1]; exact hi
  have h2 : k < (mx.getD i []).length := by rw [h.2 i hi]; omega
  by_cases hc : i = r ∧ k = c
  · rw [if_pos hc, if_pos ⟨hc.1, hc.2, h1, h2⟩]
  · rw [if_neg hc, if_neg (fun hh => hc ⟨hh.1, hh.2.1⟩)]

theorem mget_of_le_rows {n : Nat} {mx : List (List ℚ)} (h : Shape n mx) (r c : Nat) (hr : n ≤ r) :
    mget mx r c = 0 := by
  unfold mget
  rw [getD_of_length_le mx r [] (by rw [h.1]; exact hr)]
  rfl

theorem mget_of_lt_cols {n : Nat} {mx : List (List ℚ)} (h : Shape n mx) (r c : Nat) (hc : n < c) :
    mget mx r c = 0 := by
  by_cases hr : r < n
  · unfold mget
    exact getD_of_length_le _ c 0 (by rw [h.2 r hr]; omega)
  · exact mget_of_le_rows h r c (not_lt.mp hr)

/-! ## Column swap, row swap, order swap -/

theorem swapColumns_spec {n : Nat} {mx : List (List ℚ)} (h : Shape n mx) (a b : Nat)
    (ha : a ≤ n) (hb : b ≤ n) :
    Shape n (swapColumns mx n a b) ∧
      ∀ r c, mget (swapColumns mx n a b) r c = mget mx r (Equiv.swap a b c) := by
  have key := forLoop_inv
    (fun i acc => Shape n acc ∧
      ∀ r c, mget acc r c = if r < i then mget mx r (Equiv.swap a b c) else mget mx r c)
    (fun i acc => mset (mset acc i a (mget acc i b)) i b (mget acc i a)) mx (Nat.zero_le n)
    ⟨h, fun r c => by simp⟩
    (by
      rintro i acc - hi ⟨hs, hacc⟩
      refine ⟨shape_mset (shape_mset hs _ _ _) _ _ _, fun r c => ?_⟩
      rw [mget_mset_of_shape (shape_mset hs _ _ _) _ _ _ _ _ hi hb,
        mget_mset_of_shape hs _ _ _ _ _ hi ha, hacc i b, hacc i a, hacc r c]
      simp only [lt_irrefl, if_false]
      by_cases hri : i = r
      · subst hri
        by_cases hcb : b = c
        · subst hcb; simp
        · by_cases hca : a = c
          · subst hca; simp [hcb]
          · simp [hcb, hca, Equiv.swap_apply_of_ne_of_ne (Ne.symm hca) (Ne.symm hcb)]
      · have : (r < i + 1) = (r < i) := by
          apply propext; constructor <;> intro hh <;> omega
        simp [hri, this])
  refine ⟨key.1, fun r c => ?_⟩
  have := key.2 r c
  unfold swapColumns
  rw [this]
  by_cases hr : r < n
  · simp [hr]
  · simp [hr, mget_of_le_rows h r _ (not_lt.mp hr)]

theorem swapRows_spec {n : Nat} {mx : List (List ℚ)} (h : Shape n mx) (a b : Nat)
    (ha : a < n) (hb : b < n) :
    Shape n (swapRows mx a b) ∧
      ∀ r c, mget (swapRows mx a b) r c = mget mx (Equiv.swap a b r) c := by
  have hrow : ∀ r, (swapRows mx a b).getD r [] = mx.getD (Equiv.swap a b r) [] := by
    intro r
    unfold swapRows
    rw [getD_set, getD_set, List.length_set, h.1]
    by_cases hbr : b = r
    · subst hbr; simp [hb]
    · by_cases har : a = r
      · subst har; simp [hbr, ha]
      · simp [hbr, har, Equiv.swap_apply_of_ne_of_ne (Ne.symm har) (Ne.symm hbr)]
  refine ⟨⟨by simp [swapRows, h.1], fun r hr => ?_⟩, fun r c => ?_⟩
  · rw [hrow]
    apply h.2
    rw [Equiv.swap_apply_def]
    split_ifs <;> assumption
  · unfold mget
    rw [hrow]

theorem swapOrder_getD (x_order : List Nat) (a b k : Nat) (ha : a < x_order.length)
    (hb : b < x_order.length) :
    (swapOrder x_order a b).getD k 0 = x_order.getD (Equiv.swap a b k) 0 := by
  unfold swapOrder
  rw [getD_set, getD_set, List.length_set]
  by_cases hbk : b = k
  · subst hbk; simp [hb]
  · by_cases hak : a = k
    · subst hak; simp [hbk, ha]
    · simp [hbk, hak, Equiv.swap_apply_of_ne_of_ne (Ne.symm hak) (Ne.symm hbk)]

theorem swapOrder_length (x_order : List Nat) (a b : Nat) :
    (swapOrder x_order a b).length = x_order.length := by
  simp [swapOrder]

theorem swap_lt {n a b k : Nat} (ha : a < n) (hb : b < n) (hk : k < n) :
    Equiv.swap a b k < n := by
  rw [Equiv.swap_apply_def]
  split_ifs <;> assumption

theorem validOrder_swapOrder {n : Nat} {x_order : List Nat} (h : ValidOrder n x_order)
    (a b : Nat) (ha : a < n) (hb : b < n) : ValidOrder n (swapOrder x_order a b) := by
  obtain ⟨hl, hlt, hinj⟩ := h
  have ha2 : a < x_order.length := by rw [hl]; exact ha
  have hb2 : b < x_order.length := by rw [hl]; exact hb
  refine ⟨by rw [swapOrder_length, hl], fun k hk => ?_, fun u v hu hv huv => ?_⟩
  · rw [swapOrder_getD _ _ _ _ ha2 hb2]
    exact hlt _ (swap_lt ha hb hk)
  · rw [swapOrder_getD _ _ _ _ ha2 hb2, swapOrder_getD _ _ _ _ ha2 hb2] at huv
    exact (Equiv.swap a b).injective (hinj _ _ (swap_lt ha hb hu) (swap_lt ha hb hv) huv)

theorem validOrder_range (n : Nat) : ValidOrder n (List.range n) := by
  have hg : ∀ k, k < n → (List.range n).getD k 0 = k := by
    intro k hk
    simp [List.getD_eq_getElem?_getD, List.getElem?_range hk]
  refine ⟨List.length_range n, fun k hk => by rw [hg k hk]; exact hk, fun a b ha hb hab => ?_⟩
  rwa [hg a ha, hg b hb] at hab

/-! ## Row elimination -/

theorem eliminateRow_spec {n : Nat} {mx : List (List ℚ)} (h : Shape n mx) (i j : Nat) (d : ℚ)
    (hi : i < n) (hij : j ≠ i) :
    Shape n (forLoop 0 (n + 1)
        (fun k acc2 => mset acc2 i k (mget acc2 i k - d * mget acc2 j k)) mx) ∧
      ∀ r c, mget (forLoop 0 (n + 1)
        (fun k acc2 => mset acc2 i k (mget acc2 i k - d * mget acc2 j k)) mx) r c =
        if r = i then mget mx r c - d * mget mx j c else mget mx r c := by
  have key := forLoop_inv
    (fun k acc => Shape n acc ∧
      ∀ r c, mget acc r c = if r = i ∧ c < k then mget mx r c - d * mget mx j c else mget mx r c)
    (fun k acc2 => mset acc2 i k (mget acc2 i k - d * mget acc2 j k)) mx (Nat.zero_le (n + 1))
    ⟨h, fun r c => by simp⟩
    (by
      rintro k acc - hk ⟨hs, hacc⟩
      refine ⟨shape_mset hs _ _ _, fun r c => ?_⟩
      rw [mget_mset_of_shape hs _ _ _ _ _ hi (Nat.lt_succ_iff.mp hk), hacc i k, hacc j k, hacc r c]
      by_cases hri : i = r
      · subst hri
        by_cases hkc : k = c
        · subst hkc; simp [hij]
        · have : (c < k + 1) = (c < k) := by
            apply propext; constructor <;> intro hh <;> omega
          simp [hkc, this]
      · simp [hri, Ne.symm hri])
  refine ⟨key.1, fun r c => ?_⟩
  rw [key.2 r c]
  by_cases hr : r = i
  · by_cases hc : c < n + 1
    · simp [hr, hc]
    · have hc2 : n < c := by omega
      simp [hr, hc, mget_of_lt_cols h _ c hc2]
  · simp [hr]

theorem eliminate_spec {n : Nat} {mx : List (List ℚ)} (h : Shape n mx) (j : Nat) :
    Shape n (eliminate mx n j) ∧
      ∀ r c, mget (eliminate mx n j) r c =
        if j < r ∧ r < n then mget mx r c - mget mx r j / mget mx j j * mget mx j c
        else mget mx r c := by
  by_cases hjn : j + 1 ≤ n
  · have key := forLoop_inv
      (fun i acc => Shape n acc ∧
        ∀ r c, mget acc r c =
          if j < r ∧ r < i then mget mx r c - mget mx r j / mget mx j j * mget mx j c
          else mget mx r c)
      (fun i acc =>
        let div := mget acc i j / mget acc j j
        forLoop 0 (n + 1) (fun k acc2 =>
          mset acc2 i k (mget acc2 i k - div * mget acc2 j k)) acc) mx hjn
      ⟨h, fun r c => by
        have : ¬ (j < r ∧ r < j + 1) := by omega
        simp [this]⟩
      (by
        rintro i acc hji hi ⟨hs, hacc⟩
        have hne : j ≠ i := by omega
        obtain ⟨hs2, hrow⟩ := eliminateRow_spec hs i j (mget acc i j / mget acc j j) hi hne
        refine ⟨hs2, fun r c => ?_⟩
        show mget (forLoop 0 (n + 1) _ acc) r c = _
        rw [hrow r c]
        by_cases hri : r = i
        · subst hri
          have h1 : ¬ (j < r ∧ r < r) := by omega
          have h2 : ¬ (j < j ∧ j < r) := by omega
          have h3 : j < r ∧ r < r + 1 := by omega
          simp only [if_true, hacc r c, hacc r j, hacc j j, hacc j c, if_neg h1, if_neg h2, if_pos h3]
        · have : (j < r ∧ r < i + 1) = (j < r ∧ r < i) := by
            apply propext; constructor <;> intro hh <;> omega
          simp only [if_neg hri, hacc r c, this])
    exact key
  · have hle : n ≤ j + 1 := by omega
    unfold eliminate
    rw [forLoop_of_le hle]
    refine ⟨h, fun r c => ?_⟩
    have : ¬ (j < r ∧ r < n) := by omega
    rw [if_neg this]

/-! ## Pivot search -/

theorem pivotCompare_inv (mx : List (List ℚ)) (n j z t : Nat) (s : PivotState)
    (hz : j ≤ z) (hzn : z < n) (ht : j ≤ t) (htn : t < n)
    (hg : PivotGood mx n j s) (hd : PivotDom mx n j z t s) :
    PivotGood mx n j (if |mget mx z t| > s.2.2 then (z, t, |mget mx z t|) else s) ∧
      PivotDom mx n j z (t + 1) (if |mget mx z t| > s.2.2 then (z, t, |mget mx z t|) else s) := by
  have hnn : 0 ≤ s.2.2 := by
    rcases hg with h | h
    · rw [h]
    · exact le_of_lt h.2.2.2.2.2.1
  by_cases hc : |mget mx z t| > s.2.2
  · rw [if_pos hc]
    constructor
    · right
      refine ⟨hz, hzn, ht, htn, rfl, lt_of_le_of_lt hnn hc, fun z2 t2 h1 h2 h3 h4 => ?_⟩
      exact lt_of_le_of_lt (hd z2 t2 h1 h2 h3 h4) hc
    · intro z2 t2 h1 h2 h3 h4
      show |mget mx z2 t2| ≤ |mget mx z t|
      rcases h4 with h4 | ⟨h4, h5⟩
      · exact le_trans (hd z2 t2 h1 h2 h3 (Or.inl h4)) (le_of_lt hc)
      · subst h4
        by_cases h6 : t2 = t
        · subst h6; exact le_refl _
        · exact le_trans (hd z2 t2 h1 h2 h3 (Or.inr ⟨rfl, by omega⟩)) (le_of_lt hc)
  · rw [if_neg hc]
    refine ⟨hg, fun z2 t2 h1 h2 h3 h4 => ?_⟩
    rcases h4 with h4 | ⟨h4, h5⟩
    · exact hd z2 t2 h1 h2 h3 (Or.inl h4)
    · subst h4
      by_cases h6 : t2 = t
      · subst h6; exact not_lt.mp hc
      · exact hd z2 t2 h1 h2 h3 (Or.inr ⟨rfl, by omega⟩)

theorem pivotRow_inv (mx : List (List ℚ)) (n j z : Nat) (s : PivotState)
    (hjn : j ≤ n) (hz : j ≤ z) (hzn : z < n)
    (hg : PivotGood mx n j s) (hd : PivotDom mx n j z j s) :
    PivotGood mx n j (forLoop j n (fun t s2 =>
        if |mget mx z t| > s2.2.2 then (z, t, |mget mx z t|) else s2) s) ∧
      PivotDom mx n j (z + 1) j (forLoop j n (fun t s2 =>
        if |mget mx z t| > s2.2.2 then (z, t, |mget mx z t|) else s2) s) := by
  have key := forLoop_inv (fun t s2 => PivotGood mx n j s2 ∧ PivotDom mx n j z t s2)
    (fun t s2 => if |mget mx z t| > s2.2.2 then (z, t, |mget mx z t|) else s2) s hjn ⟨hg, hd⟩
    (fun t s2 h1 h2 h3 => pivotCompare_inv mx n j z t s2 hz hzn h1 h2 h3.1 h3.2)
  refine ⟨key.1, fun z2 t2 h1 h2 h3 h4 => ?_⟩
  rcases h4 with h4 | ⟨h4, h5⟩
  · by_cases h6 : z2 = z
    · exact key.2 z2 t2 h1 h2 h3 (Or.inr ⟨h6, h3⟩)
    · exact key.2 z2 t2 h1 h2 h3 (Or.inl (by omega))
  · omega

/-- The pivot search returns either the untouched initial state, when every
trailing entry is zero, or the first position of largest magnitude. -/
theorem pivotSearch_spec (mx : List (List ℚ)) (n j : Nat) (hjn : j ≤ n) :
    PivotGood mx n j (pivotSearch mx n j) ∧
      ∀ z t, j ≤ z → z < n → j ≤ t → t < n → |mget mx z t| ≤ (pivotSearch mx n j).2.2 := by
  have key := forLoop_inv (fun z s => PivotGood mx n j s ∧ PivotDom mx n j z j s)
    (fun z s => forLoop j n (fun t s2 =>
        if |mget mx z t| > s2.2.2 then (z, t, |mget mx z t|) else s2) s) (0, 0, 0) hjn
    ⟨Or.inl rfl, fun z2 t2 h1 h2 _ h4 => by
      rcases h4 with h4 | ⟨_, h5⟩ <;> omega⟩
    (fun z s h1 h2 h3 => pivotRow_inv mx n j z s hjn h1 h2 h3.1 h3.2)
  refine ⟨key.1, fun z t h1 h2 h3 h4 => ?_⟩
  exact key.2 z t h1 h3 h4 (Or.inl h2)

theorem pivotSearch_lt (mx : List (List ℚ)) (n j : Nat) (hjn : j < n) :
    (pivotSearch mx n j).1 < n ∧ (pivotSearch mx n j).2.1 < n := by
  rcases (pivotSearch_spec mx n j (le_of_lt hjn)).1 with h | h
  · rw [h]; exact ⟨Nat.lt_of_le_of_lt (Nat.zero_le j) hjn, Nat.lt_of_le_of_lt (Nat.zero_le j) hjn⟩
  · exact ⟨h.2.1, h.2.2.2.1⟩

/-- When the trailing submatrix has a nonzero entry, the selected entry is
nonzero and lies in the trailing submatrix. -/
theorem pivotSearch_nonzero (mx : List (List ℚ)) (n j : Nat) (hjn : j ≤ n)
    (hex : ∃ z t, j ≤ z ∧ z < n ∧ j ≤ t ∧ t < n ∧ mget mx z t ≠ 0) :
    j ≤ (pivotSearch mx n j).1 ∧ (pivotSearch mx n j).1 < n ∧
      j ≤ (pivotSearch mx n j).2.1 ∧ (pivotSearch mx n j).2.1 < n ∧
      mget mx (pivotSearch mx n j).1 (pivotSearch mx n j).2.1 ≠ 0 := by
  obtain ⟨hg, hd⟩ := pivotSearch_spec mx n j hjn
  obtain ⟨z, t, h1, h2, h3, h4, h5⟩ := hex
  have hpos : 0 < (pivotSearch mx n j).2.2 :=
    lt_of_lt_of_le (abs_pos.mpr h5) (hd z t h1 h2 h3 h4)
  rcases hg with h | h
  · rw [h] at hpos; exact absurd hpos (lt_irrefl _)
  · refine ⟨h.1, h.2.1, h.2.2.1, h.2.2.2.1, ?_⟩
    have := h.2.2.2.2.1
    rw [this] at hpos
    exact abs_pos.mp hpos

/-! ## Determinants and sums under the elementary operations -/

theorem fin_swap_val {n : Nat} (a b : Nat) (ha : a < n) (hb : b < n) (k : Fin n) :
    ((Equiv.swap (⟨a, ha⟩ : Fin n) ⟨b, hb⟩) k).val = Equiv.swap a b k.val := by
  simp only [Equiv.swap_apply_def, Fin.ext_iff]
  split_ifs <;> rfl

theorem sign_cast_ne_zero {n : Nat} (σ : Equiv.Perm (Fin n)) :
    (((Equiv.Perm.sign σ : ℤˣ) : ℤ) : ℚ) ≠ 0 :=
  Int.cast_ne_zero.mpr (Units.ne_zero _)

theorem det_ne_zero_of_colSwap {n : Nat} {mx mx2 : List (List ℚ)} (a b : Nat)
    (ha : a < n) (hb : b < n)
    (h : ∀ r c, mget mx2 r c = mget mx r (Equiv.swap a b c))
    (hdet : (blockMatrix n mx).det ≠ 0) : (blockMatrix n mx2).det ≠ 0 := by
  have e : blockMatrix n mx2 =
      (blockMatrix n mx).submatrix id (Equiv.swap (⟨a, ha⟩ : Fin n) ⟨b, hb⟩) := by
    ext r c
    simp only [blockMatrix, Matrix.of_apply, Matrix.submatrix_apply, id]
    rw [h, fin_swap_val]
  rw [e, Matrix.det_permute']
  exact mul_ne_zero (sign_cast_ne_zero _) hdet

theorem det_ne_zero_of_rowSwap {n : Nat} {mx mx2 : List (List ℚ)} (a b : Nat)
    (ha : a < n) (hb : b < n)
    (h : ∀ r c, mget mx2 r c = mget mx (Equiv.swap a b r) c)
    (hdet : (blockMatrix n mx).det ≠ 0) : (blockMatrix n mx2).det ≠ 0 := by
  have e : blockMatrix n mx2 =
      (blockMatrix n mx).submatrix (Equiv.swap (⟨a, ha⟩ : Fin n) ⟨b, hb⟩) id := by
    ext r c
    simp only [blockMatrix, Matrix.of_apply, Matrix.submatrix_apply, id]
    rw [h, fin_swap_val]
  rw [e, Matrix.det_permute]
  exact mul_ne_zero (sign_cast_ne_zero _) hdet

theorem det_eq_of_rowCombination {n : Nat} {mx mx2 : List (List ℚ)} (j : Nat) (hj : j < n)
    (h : ∀ r c, mget mx2 r c =
      if j < r ∧ r < n then mget mx r c - mget mx r j / mget mx j j * mget mx j c
      else mget mx r c) :
    (blockMatrix n mx2).det = (blockMatrix n mx).det := by
  apply Matrix.det_eq_of_forall_row_eq_smul_add_const
    (fun r : Fin n => if j < r.val then -(mget mx r.val j / mget mx j j) else 0) ⟨j, hj⟩
  · simp
  · intro r c
    simp only [blockMatrix, Matrix.of_apply]
    rw [h]
    by_cases hr : j < r.val
    · rw [if_pos ⟨hr, r.isLt⟩, if_pos hr]; ring
    · rw [if_neg (fun hh => hr hh.1), if_neg hr]; ring

theorem det_eq_zero_of_zeroRow {n : Nat} {mx : List (List ℚ)} (j : Nat) (hj : j < n)
    (h : ∀ c, c < n → mget mx j c = 0) : (blockMatrix n mx).det = 0 := by
  apply Matrix.det_eq_zero_of_row_eq_zero (⟨j, hj⟩ : Fin n)
  intro c
  simp only [blockMatrix, Matrix.of_apply]
  exact h c.val c.isLt

theorem sum_range_swap (n a b : Nat) (ha : a < n) (hb : b < n) (g : Nat → ℚ) :
    ∑ k ∈ Finset.range n, g (Equiv.swap a b k) = ∑ k ∈ Finset.range n, g k := by
  apply Finset.sum_equiv (Equiv.swap a b)
  · intro k
    simp only [Finset.mem_range]
    constructor
    · exact swap_lt ha hb
    · intro hk
      have := swap_lt ha hb hk
      rwa [Equiv.swap_apply_self] at this
  · intro k _
    rfl

/-- From a nonzero determinant, a solution of the system in the leading block. -/
theorem exists_solution_of_det_ne_zero (n : Nat) (mx : List (List ℚ))
    (hdet : (blockMatrix n mx).det ≠ 0) :
    ∃ x : Nat → ℚ, ∀ i, i < n → ∑ k ∈ Finset.range n, mget mx i k * x k = mget mx i n := by
  let A := blockMatrix n mx
  let b : Fin n → ℚ := fun i => mget mx i.val n
  let y : Fin n → ℚ := A⁻¹.mulVec b
  have hy : A.mulVec y = b := by
    show A.mulVec (A⁻¹.mulVec b) = b
    rw [Matrix.mulVec_mulVec, Matrix.mul_nonsing_inv A (isUnit_iff_ne_zero.mpr hdet),
      Matrix.one_mulVec]
  refine ⟨fun k => if hk : k < n then y ⟨k, hk⟩ else 0, fun i hi => ?_⟩
  have := congrFun hy ⟨i, hi⟩
  simp only [Matrix.mulVec, Matrix.dotProduct] at this
  rw [Finset.sum_range]
  simp only [Fin.is_lt, dite_true]
  exact this

/-! ## The elimination loop -/

theorem pivotStep_order (n j : Nat) (s : List (List ℚ) × List Nat) :
    (pivotStep n j s).2 = swapOrder s.2 j (pivotSearch s.1 n j).2.1 := rfl

theorem pivotStep_matrix (n j : Nat) (s : List (List ℚ) × List Nat) :
    (pivotStep n j s).1 =
      eliminate (swapRows (swapColumns s.1 n (pivotSearch s.1 n j).2.1 j)
        (pivotSearch s.1 n j).1 j) n j := rfl

/-- Shape of the matrix and validity of `x_order` survive a pivot step,
whatever the entries are. -/
theorem pivotStep_shape {n j : Nat} {s : List (List ℚ) × List Nat} (hj : j < n)
    (hs : Shape n s.1) : Shape n (pivotStep n j s).1 := by
  obtain ⟨hmi, hmj⟩ := pivotSearch_lt s.1 n j hj
  rw [pivotStep_matrix]
  exact (eliminate_spec
    (swapRows_spec (swapColumns_spec hs _ j (le_of_lt hmj) (le_of_lt hj)).1 _ j hmi hj).1 j).1

theorem pivotStep_validOrder {n j : Nat} {s : List (List ℚ) × List Nat} (hj : j < n)
    (ho : ValidOrder n s.2) : ValidOrder n (pivotStep n j s).2 := by
  rw [pivotStep_order]
  exact validOrder_swapOrder ho j _ hj (pivotSearch_lt s.1 n j hj).2

theorem exists_trailing_nonzero {n j : Nat} {A : List (List ℚ)}
    {s : List (List ℚ) × List Nat} (hj : j < n) (inv : ElimInv n A j s) :
    ∃ z t, j ≤ z ∧ z < n ∧ j ≤ t ∧ t < n ∧ mget s.1 z t ≠ 0 := by
  by_contra hcon
  apply inv.det
  apply det_eq_zero_of_zeroRow j hj
  intro c hc
  by_cases hcj : c < j
  · exact inv.lower j c hcj hcj hj
  · by_contra hne
    exact hcon ⟨j, c, le_refl j, hj, not_lt.mp hcj, hc, hne⟩

theorem pivotStep_inv {n j : Nat} {A : List (List ℚ)} {s : List (List ℚ) × List Nat}
    (hj : j < n) (inv : ElimInv n A j s) : ElimInv n A (j + 1) (pivotStep n j s) := by
  obtain ⟨hmi1, hmi2, hmj1, hmj2, hpiv⟩ :=
    pivotSearch_nonzero s.1 n j (le_of_lt hj) (exists_trailing_nonzero hj inv)
  obtain ⟨hs1, hc1⟩ := swapColumns_spec inv.shape (pivotSearch s.1 n j).2.1 j
    (le_of_lt hmj2) (le_of_lt hj)
  obtain ⟨hs2, hc2⟩ := swapRows_spec hs1 (pivotSearch s.1 n j).1 j hmi2 hj
  obtain ⟨hs3, hc3⟩ := eliminate_spec hs2 j
  have hxo : ∀ k, (pivotStep n j s).2.getD k 0 =
      s.2.getD (Equiv.swap (pivotSearch s.1 n j).2.1 j k) 0 := by
    intro k
    rw [pivotStep_order, swapOrder_getD _ _ _ _ (by rw [inv.order.1]; exact hj)
      (by rw [inv.order.1]; exact hmj2), Equiv.swap_comm]
  generalize hmi : (pivotSearch s.1 n j).1 = mi at *
  generalize hmj : (pivotSearch s.1 n j).2.1 = mj at *
  generalize hm1 : swapColumns s.1 n mj j = mx1 at *
  generalize hm2 : swapRows mx1 mi j = mx2 at *
  have hm3 : (pivotStep n j s).1 = eliminate mx2 n j := by
    rw [pivotStep_matrix, hmi, hmj, hm1, hm2]
  generalize hm3' : eliminate mx2 n j = mx3 at *
  -- the entries of the row-swapped matrix, read from the original
  have e2 : ∀ r c, mget mx2 r c = mget s.1 (Equiv.swap mi j r) (Equiv.swap mj j c) := by
    intro r c; rw [hc2, hc1]
  have hpiv2 : mget mx2 j j ≠ 0 := by
    rw [e2, Equiv.swap_apply_right, Equiv.swap_apply_right]; exact hpiv
  have low2 : ∀ r k, k < j → k < r → r < n → mget mx2 r k = 0 := by
    intro r k hk hr hrn
    rw [e2, Equiv.swap_apply_of_ne_of_ne (a := mj) (b := j) (by omega) (by omega)]
    apply inv.lower _ _ hk _ (swap_lt hmi2 hj hrn)
    rw [Equiv.swap_apply_def]
    split_ifs <;> omega
  refine ⟨?_, ?_, ?_, ?_, ?_, ?_⟩
  · rw [hm3]; exact hs3
  · exact pivotStep_validOrder hj inv.order
  · rw [hm3, det_eq_of_rowCombination j hj hc3]
    exact det_ne_zero_of_rowSwap mi j hmi2 hj hc2
      (det_ne_zero_of_colSwap mj j hmj2 hj hc1 inv.det)
  · intro i k hk hki hin
    rw [hm3, hc3]
    by_cases hkj : k < j
    · have h1 : mget mx2 i k = 0 := low2 i k hkj hki hin
      have h2 : mget mx2 j k = 0 := low2 j k hkj hkj hj
      split_ifs <;> simp [h1, h2]
    · have hkj2 : k = j := by omega
      subst hkj2
      rw [if_pos ⟨hki, hin⟩, div_mul_cancel₀ _ hpiv2, sub_self]
  · intro k hk
    rw [hm3, hc3]
    by_cases hkj : k < j
    · rw [if_neg (by omega), e2,
        Equiv.swap_apply_of_ne_of_ne (a := mi) (b := j) (by omega) (by omega),
        Equiv.swap_apply_of_ne_of_ne (a := mj) (b := j) (by omega) (by omega)]
      exact inv.diag k hkj
    · have hkj2 : k = j := by omega
      subst hkj2
      rw [if_neg (by omega)]
      exact hpiv2
  · intro x hx i hi
    have S0 := inv.sol x hx
    have S1 : ∀ r, r < n →
        ∑ k ∈ Finset.range n, mget mx1 r k * x ((pivotStep n j s).2.getD k 0) = mget mx1 r n := by
      intro r hr
      have := sum_range_swap n mj j hmj2 hj (fun k => mget s.1 r k * x (s.2.getD k 0))
      simp only [hc1, hxo]
      rw [this, S0 r hr,
        Equiv.swap_apply_of_ne_of_ne (a := mj) (b := j) (by omega) (by omega)]
    have S2 : ∀ r, r < n →
        ∑ k ∈ Finset.range n, mget mx2 r k * x ((pivotStep n j s).2.getD k 0) = mget mx2 r n := by
      intro r hr
      simp only [hc2]
      exact S1 _ (swap_lt hmi2 hj hr)
    rw [hm3]
    simp only [hc3]
    by_cases hji : j < i ∧ i < n
    · simp only [if_pos hji, sub_mul, Finset.sum_sub_distrib, mul_assoc, ← Finset.mul_sum]
      rw [S2 i hi, S2 j hj]
    · simp only [if_neg hji]
      exact S2 i hi

theorem elimInv_init {n : Nat} {A : List (List ℚ)} (hs : Shape n A)
    (hdet : (blockMatrix n A).det ≠ 0) : ElimInv n A 0 (A, List.range n) where
  shape := hs
  order := validOrder_range n
  det := hdet
  lower := fun i k hk => absurd hk (Nat.not_lt_zero k)
  diag := fun k hk => absurd hk (Nat.not_lt_zero k)
  sol := by
    intro x hx i hi
    have hg : ∀ k ∈ Finset.range n, mget A i k * x ((List.range n).getD k 0) = mget A i k * x k := by
      intro k hk
      rw [Finset.mem_range] at hk
      simp [List.getD_eq_getElem?_getD, List.getElem?_range hk]
    show ∑ k ∈ Finset.range n, mget A i k * x ((List.range n).getD k 0) = mget A i n
    rw [Finset.sum_congr rfl hg]
    exact hx i hi

theorem elimination_inv {n : Nat} {A : List (List ℚ)} (hs : Shape n A)
    (hdet : (blockMatrix n A).det ≠ 0) : ElimInv n A n (elimination A n) :=
  forLoop_inv (fun j s => ElimInv n A j s) (pivotStep n) (A, List.range n) (Nat.zero_le n)
    (elimInv_init hs hdet) (fun _ _ _ hj inv => pivotStep_inv hj inv)

theorem elimination_general {n : Nat} (A : List (List ℚ)) (hs : Shape n A) :
    Shape n (elimination A n).1 ∧ ValidOrder n (elimination A n).2 :=
  forLoop_inv (fun _ s => Shape n s.1 ∧ ValidOrder n s.2) (pivotStep n) (A, List.range n)
    (Nat.zero_le n) ⟨hs, validOrder_range n⟩
    (fun _ _ _ hj h => ⟨pivotStep_shape hj h.1, pivotStep_validOrder hj h.2⟩)

/-! ## Back-substitution -/

theorem backSubstitute_spec (mx : List (List ℚ)) (n : Nat) (res : List ℚ) (hn : 1 ≤ n)
    (hres : res.length = n) :
    (backSubstitute mx n res).length = n ∧
      ∀ i, i < n → (backSubstitute mx n res).getD i 0 =
        (mget mx i n - ∑ k ∈ Finset.Ico (i + 1) n,
          mget mx i k * (backSubstitute mx n res).getD k 0) / mget mx i i := by
  have key := forLoopDown_inv (fun i acc => acc.length = n ∧
      ∀ r, i ≤ r → r < n → acc.getD r 0 =
        (mget mx r n - ∑ k ∈ Finset.Ico (r + 1) n, mget mx r k * acc.getD k 0) / mget mx r r)
    (fun i acc =>
      let sum := forLoop (i + 1) n (fun j sm => sm + mget mx i j * acc.getD j 0) 0
      acc.set i ((mget mx i n - sum) / mget mx i i)) (n - 1)
    (res.set (n - 1) (mget mx (n - 1) n / mget mx (n - 1) (n - 1)))
    (by
      refine ⟨by rw [List.length_set, hres], fun r h1 h2 => ?_⟩
      have hr : r = n - 1 := by omega
      have he : Finset.Ico (r + 1) n = ∅ := Finset.Ico_eq_empty (by omega)
      rw [he, Finset.sum_empty, sub_zero, getD_set, hr, if_pos ⟨rfl, by rw [hres]; omega⟩])
    (by
      rintro i t hi ⟨hl, ht⟩
      refine ⟨by rw [List.length_set, hl], fun r h1 h2 => ?_⟩
      have hsum : ∀ r, i ≤ r →
          ∑ k ∈ Finset.Ico (r + 1) n, mget mx r k *
            (t.set i ((mget mx i n - forLoop (i + 1) n
              (fun j sm => sm + mget mx i j * t.getD j 0) 0) / mget mx i i)).getD k 0 =
          ∑ k ∈ Finset.Ico (r + 1) n, mget mx r k * t.getD k 0 := by
        intro r hr
        apply Finset.sum_congr rfl
        intro k hk
        rw [Finset.mem_Ico] at hk
        rw [getD_set, if_neg (by omega)]
      show (t.set i _).getD r 0 = _
      rw [hsum r h1, getD_set]
      by_cases hir : i = r
      · subst hir
        rw [if_pos ⟨rfl, by rw [hl]; omega⟩, forLoop_sum (i + 1) n _ (by omega)]
      · rw [if_neg (fun hh => hir hh.1)]
        exact ht r (by omega) h2)
  exact ⟨key.1, fun i hi => key.2 i (Nat.zero_le i) hi⟩

/-- An upper-triangular system with nonzero diagonal has at most one
solution, the one back-substitution computes. -/
theorem upper_unique (mx : List (List ℚ)) (n : Nat)
    (lower : ∀ i k, k < i → i < n → mget mx i k = 0)
    (diag : ∀ k, k < n → mget mx k k ≠ 0) (y z : Nat → ℚ)
    (hy : ∀ i, i < n →
      y i = (mget mx i n - ∑ k ∈ Finset.Ico (i + 1) n, mget mx i k * y k) / mget mx i i)
    (hz : ∀ i, i < n → ∑ k ∈ Finset.range n, mget mx i k * z k = mget mx i n) :
    ∀ i, i < n → z i = y i := by
  have main : ∀ m, ∀ i, n - m ≤ i → i < n → z i = y i := by
    intro m
    induction m with
    | zero => intro i h1 h2; omega
    | succ m ih =>
      intro i h1 h2
      by_cases h3 : n - m ≤ i
      · exact ih i h3 h2
      · have hrest : ∑ k ∈ Finset.Ico (i + 1) n, mget mx i k * z k =
            ∑ k ∈ Finset.Ico (i + 1) n, mget mx i k * y k := by
          apply Finset.sum_congr rfl
          intro k hk
          rw [Finset.mem_Ico] at hk
          rw [ih k (by omega) hk.2]
        have hlow : ∑ k ∈ Finset.Ico 0 i, mget mx i k * z k = 0 := by
          apply Finset.sum_eq_zero
          intro k hk
          rw [Finset.mem_Ico] at hk
          rw [lower i k hk.2 h2, zero_mul]
        have hsplit := Finset.sum_Ico_consecutive (fun k => mget mx i k * z k)
          (Nat.zero_le i) (le_of_lt h2)
        rw [hlow, zero_add, Finset.sum_eq_sum_Ico_succ_bot h2, hrest, ← Finset.range_eq_Ico,
          hz i h2] at hsplit
        rw [hy i h2, ← hsplit]
        field_simp [diag i h2]
  intro i hi
  exact main n i (by omega) hi

/-! ## The restore pass -/

theorem swapRes_getD (res : List ℚ) (a b k : Nat) (ha : a < res.length) (hb : b < res.length) :
    (swapRes res a b).getD k 0 = res.getD (Equiv.swap a b k) 0 := by
  unfold swapRes
  rw [getD_set, getD_set, List.length_set]
  by_cases hbk : b = k
  · subst hbk; simp [hb]
  · by_cases hak : a = k
    · subst hak; simp [hbk, ha]
    · simp [hbk, hak, Equiv.swap_apply_of_ne_of_ne (Ne.symm hak) (Ne.symm hbk)]

theorem swapRes_length (res : List ℚ) (a b : Nat) : (swapRes res a b).length = res.length := by
  simp [swapRes]

theorem unmarkedCount_set {n : Nat} (x_order : List Nat) (k0 : Nat) (hk : k0 < n)
    (hl : x_order.length = n) (hu : x_order.getD k0 0 ≠ n) :
    unmarkedCount n (x_order.set k0 n) + 1 = unmarkedCount n x_order := by
  unfold unmarkedCount
  have e : (Finset.range n).filter (fun k => (x_order.set k0 n).getD k 0 ≠ n) =
      ((Finset.range n).filter (fun k => x_order.getD k 0 ≠ n)).erase k0 := by
    ext k
    simp only [Finset.mem_filter, Finset.mem_range, Finset.mem_erase, getD_set, hl]
    by_cases hkk : k0 = k
    · subst hkk; simp [hk]
    · simp [hkk, Ne.symm hkk]
  have hmem : k0 ∈ (Finset.range n).filter (fun k => x_order.getD k 0 ≠ n) :=
    Finset.mem_filter.mpr ⟨Finset.mem_range.mpr hk, hu⟩
  rw [e, Finset.card_erase_of_mem hmem]
  have : 0 < ((Finset.range n).filter (fun k => x_order.getD k 0 ≠ n)).card :=
    Finset.card_pos.mpr ⟨k0, hmem⟩
  omega

theorem unmarkedCount_le (n : Nat) (x_order : List Nat) : unmarkedCount n x_order ≤ n := by
  unfold unmarkedCount
  calc _ ≤ (Finset.range n).card := Finset.card_filter_le _ _
    _ = n := Finset.card_range n

theorem restoreWhile_marked (n i fuel next : Nat) (s : List ℚ × List Nat)
    (h : s.2.getD next 0 = n) : restoreWhile n i (fuel + 1) next s = some s := by
  show (if s.2.getD next 0 ≠ n then _ else some s) = some s
  rw [if_neg (not_not.mpr h)]

theorem restoreWhile_unmarked (n i fuel next : Nat) (s : List ℚ × List Nat)
    (h : s.2.getD next 0 ≠ n) :
    restoreWhile n i (fuel + 1) next s =
      restoreWhile n i fuel (s.2.getD next 0)
        (swapRes s.1 i (s.2.getD next 0), s.2.set next n) := by
  show (if s.2.getD next 0 ≠ n then _ else some s) = _
  rw [if_pos h]

/-- One execution of the body of the `while` loop inside a cycle: either the
cycle closes (the new `next` is marked) and the between-cycles invariant
holds again, or the cycle stays open at the new `next`. -/
theorem restoreOpen_step {n : Nat} {p : List Nat} {r : List ℚ} {i next : Nat}
    {s : List ℚ × List Nat} (hp : ValidOrder n p) (h : RestoreOpen n p r i next s) :
    s.2.getD next 0 < n ∧
    unmarkedCount n (s.2.set next n) + 1 = unmarkedCount n s.2 ∧
    (∀ k, s.2.getD k 0 = n → (s.2.set next n).getD k 0 = n) ∧
    (((s.2.set next n).getD (s.2.getD next 0) 0 = n ∧
        RestoreOuter n p r (swapRes s.1 i (s.2.getD next 0), s.2.set next n) ∧
        (s.2.set next n).getD i 0 = n) ∨
      RestoreOpen n p r i (s.2.getD next 0)
        (swapRes s.1 i (s.2.getD next 0), s.2.set next n)) := by
  have hq : s.2.getD next 0 = p.getD next 0 := (h.entries next h.hnext).resolve_left h.unmarked
  have hqn : p.getD next 0 < n := hp.2.1 next h.hnext
  have hset : ∀ k, (s.2.set next n).getD k 0 = if next = k then n else s.2.getD k 0 := by
    intro k
    rw [getD_set]
    by_cases hk : next = k
    · rw [if_pos ⟨hk, by rw [h.lenOrd]; exact h.hnext⟩, if_pos hk]
    · rw [if_neg (fun hh => hk hh.1), if_neg hk]
  have hres : ∀ k, (swapRes s.1 i (p.getD next 0)).getD k 0 =
      s.1.getD (Equiv.swap i (p.getD next 0) k) 0 := fun k =>
    swapRes_getD s.1 i _ k (by rw [h.lenRes]; exact h.hi) (by rw [h.lenRes]; exact hqn)
  have inj := hp.2.2
  -- a marked slot never points at the successor of `next`
  have F1 : ∀ k, k < n → s.2.getD k 0 = n → p.getD k 0 ≠ p.getD next 0 := by
    intro k hk hm he
    have := inj k next hk h.hnext he
    subst this
    exact h.unmarked hm
  have hmono : ∀ k, s.2.getD k 0 = n → (s.2.set next n).getD k 0 = n := by
    intro k hk
    rw [hset]
    split_ifs
    · rfl
    · exact hk
  rw [hq]
  refine ⟨hqn, unmarkedCount_set s.2 next h.hnext h.lenOrd h.unmarked, hmono, ?_⟩
  by_cases hcl : (s.2.set next n).getD (p.getD next 0) 0 = n
  · left
    -- the cycle closes: the successor of `next` is the start `i`
    have hQi : p.getD next 0 = i := by
      by_contra hne
      rw [hset] at hcl
      by_cases hnq : next = p.getD next 0
      · have hni : next ≠ i := fun hh => hne (hnq ▸ hh)
        obtain ⟨k2, hk2, hm2, he2⟩ := h.predNext hni
        exact F1 k2 hk2 hm2 (he2.trans hnq)
      · rw [if_neg hnq] at hcl
        obtain ⟨k2, hk2, hm2, he2⟩ := h.pred _ hqn hcl hne
        exact F1 k2 hk2 hm2 he2
    have hmi : (s.2.set next n).getD i 0 = n := hQi ▸ hcl
    have hres2 : ∀ k, (swapRes s.1 i (p.getD next 0)).getD k 0 = s.1.getD k 0 := by
      intro k
      rw [hres, hQi, Equiv.swap_self]
      rfl
    refine ⟨hcl, ?_, hmi⟩
    refine ⟨by rw [swapRes_length]; exact h.lenRes, by rw [List.length_set]; exact h.lenOrd,
      ?_, ?_, ?_, ?_, ?_⟩
    · intro k hk
      show (s.2.set next n).getD k 0 = n ∨ (s.2.set next n).getD k 0 = p.getD k 0
      rw [hset]
      split_ifs
      · exact Or.inl rfl
      · exact h.entries k hk
    · intro k hk hm
      change (s.2.set next n).getD k 0 = n at hm
      show (s.2.set next n).getD (p.getD k 0) 0 = n
      rw [hset] at hm
      by_cases hnk : next = k
      · subst hnk; exact hcl
      · rw [if_neg hnk] at hm
        rcases h.closed k hk hm with h1 | h1
        · exact hmono _ h1
        · rw [h1, hset, if_pos rfl]
    · intro k hk hm
      change (s.2.set next n).getD k 0 = n at hm
      show ∃ k2, k2 < n ∧ (s.2.set next n).getD k2 0 = n ∧ p.getD k2 0 = k
      by_cases hki : k = i
      · exact ⟨next, h.hnext, by rw [hset, if_pos rfl], by rw [hQi, hki]⟩
      · rw [hset] at hm
        by_cases hnk : next = k
        · obtain ⟨k2, hk2, hm2, he2⟩ := h.predNext (hnk ▸ hki)
          exact ⟨k2, hk2, hmono _ hm2, he2.trans hnk⟩
        · rw [if_neg hnk] at hm
          obtain ⟨k2, hk2, hm2, he2⟩ := h.pred k hk hm hki
          exact ⟨k2, hk2, hmono _ hm2, he2⟩
    · intro k hk hm
      change (s.2.set next n).getD k 0 = n at hm
      show (swapRes s.1 i (p.getD next 0)).getD (p.getD k 0) 0 = r.getD k 0
      rw [hres2]
      rw [hset] at hm
      by_cases hnk : next = k
      · subst hnk
        rw [hQi]
        exact h.held
      · rw [if_neg hnk] at hm
        apply h.placed k hk hm
        intro he
        exact F1 k hk hm (he.trans hQi.symm)
    · intro k hk hm
      change (s.2.set next n).getD k 0 ≠ n at hm
      show (swapRes s.1 i (p.getD next 0)).getD k 0 = r.getD k 0
      rw [hres2]
      have hnk : next ≠ k := by
        intro hh; apply hm; rw [hset, if_pos hh]
      have hm2 : s.2.getD k 0 ≠ n := by
        intro hh; exact hm (hmono k hh)
      have hki : k ≠ i := by
        intro hh; exact hm (hh ▸ hmi)
      exact h.untouched k hk hm2 hki (Ne.symm hnk)
  · right
    have hnq : next ≠ p.getD next 0 := by
      intro hh; apply hcl; rw [hset, if_pos hh]
    have hqu : s.2.getD (p.getD next 0) 0 ≠ n := by
      intro hh; exact hcl (hmono _ hh)
    have hQi : p.getD next 0 ≠ i := by
      intro hh
      rcases h.start with h1 | h1
      · exact hqu (hh ▸ h1)
      · exact hnq (h1.trans hh.symm)
    refine ⟨by rw [swapRes_length]; exact h.lenRes, by rw [List.length_set]; exact h.lenOrd,
      ?_, h.hi, hqn, hcl, ?_, ?_, ?_, ?_, ?_, ?_, ?_⟩
    · intro k hk
      show (s.2.set next n).getD k 0 = n ∨ (s.2.set next n).getD k 0 = p.getD k 0
      rw [hset]
      split_ifs
      · exact Or.inl rfl
      · exact h.entries k hk
    · show (s.2.set next n).getD i 0 = n ∨ p.getD next 0 = i
      rcases h.start with h1 | h1
      · exact Or.inl (hmono _ h1)
      · left; rw [hset, if_pos h1]
    · intro _
      exact ⟨next, h.hnext, by rw [hset, if_pos rfl], rfl⟩
    · intro k hk hm
      change (s.2.set next n).getD k 0 = n at hm
      show (s.2.set next n).getD (p.getD k 0) 0 = n ∨ p.getD k 0 = p.getD next 0
      rw [hset] at hm
      by_cases hnk : next = k
      · subst hnk; exact Or.inr rfl
      · rw [if_neg hnk] at hm
        rcases h.closed k hk hm with h1 | h1
        · exact Or.inl (hmono _ h1)
        · left; rw [h1, hset, if_pos rfl]
    · intro k hk hm hki
      change (s.2.set next n).getD k 0 = n at hm
      show ∃ k2, k2 < n ∧ (s.2.set next n).getD k2 0 = n ∧ p.getD k2 0 = k
      rw [hset] at hm
      by_cases hnk : next = k
      · obtain ⟨k2, hk2, hm2, he2⟩ := h.predNext (hnk ▸ hki)
        exact ⟨k2, hk2, hmono _ hm2, he2.trans hnk⟩
      · rw [if_neg hnk] at hm
        obtain ⟨k2, hk2, hm2, he2⟩ := h.pred k hk hm hki
        exact ⟨k2, hk2, hmono _ hm2, he2⟩
    · intro k hk hm hpi
      change (s.2.set next n).getD k 0 = n at hm
      show (swapRes s.1 i (p.getD next 0)).getD (p.getD k 0) 0 = r.getD k 0
      rw [hres, hset] at *
      by_cases hnk : next = k
      · subst hnk
        rw [Equiv.swap_apply_right]
        exact h.held
      · rw [if_neg hnk] at hm
        rw [Equiv.swap_apply_of_ne_of_ne hpi (F1 k hk hm)]
        exact h.placed k hk hm hpi
    · intro k hk hm hki hkq
      change (s.2.set next n).getD k 0 ≠ n at hm
      show (swapRes s.1 i (p.getD next 0)).getD k 0 = r.getD k 0
      rw [hres, Equiv.swap_apply_of_ne_of_ne hki hkq]
      have hnk : next ≠ k := by
        intro hh; apply hm; rw [hset, if_pos hh]
      have hm2 : s.2.getD k 0 ≠ n := by
        intro hh; exact hm (hmono k hh)
      exact h.untouched k hk hm2 hki (Ne.symm hnk)
    · show (swapRes s.1 i (p.getD next 0)).getD i 0 = r.getD (p.getD next 0) 0
      rw [hres, Equiv.swap_apply_left]
      exact h.untouched _ hqn hqu hQi (Ne.symm hnq)

theorem restoreWhile_open {n : Nat} {p : List Nat} {r : List ℚ} {i : Nat}
    (hp : ValidOrder n p) :
    ∀ fuel next s, RestoreOpen n p r i next s → unmarkedCount n s.2 < fuel →
      ∃ s2, restoreWhile n i fuel next s = some s2 ∧ RestoreOuter n p r s2 ∧
        s2.2.getD i 0 = n ∧ ∀ k, s.2.getD k 0 = n → s2.2.getD k 0 = n := by
  intro fuel
  induction fuel with
  | zero => intro next s _ hc; exact absurd hc (Nat.not_lt_zero _)
  | succ f ih =>
    intro next s h hc
    obtain ⟨_, hcount, hmono, hcase⟩ := restoreOpen_step hp h
    rw [restoreWhile_unmarked n i f next s h.unmarked]
    rcases hcase with ⟨hcl, hout, hmi⟩ | hopen
    · obtain ⟨f2, rfl⟩ : ∃ f2, f = f2 + 1 := ⟨f - 1, by omega⟩
      rw [restoreWhile_marked n i f2 _ _ hcl]
      exact ⟨_, rfl, hout, hmi, hmono⟩
    · obtain ⟨s2, h1, h2, h3, h4⟩ := ih _ _ hopen (by
        show unmarkedCount n (s.2.set next n) < f
        omega)
      exact ⟨s2, h1, h2, h3, fun k hk => h4 k (hmono k hk)⟩

theorem restoreOuter_init {n : Nat} {p : List Nat} {r : List ℚ} (hp : ValidOrder n p)
    (hr : r.length = n) : RestoreOuter n p r (r, p) := by
  have hun : ∀ k, k < n → p.getD k 0 ≠ n := fun k hk => Nat.ne_of_lt (hp.2.1 k hk)
  exact ⟨hr, hp.1, fun k _ => Or.inr rfl, fun k hk hm => absurd hm (hun k hk),
    fun k hk hm => absurd hm (hun k hk), fun k hk hm => absurd hm (hun k hk), fun k _ _ => rfl⟩

theorem restoreOpen_of_outer {n : Nat} {p : List Nat} {r : List ℚ} {i : Nat}
    {s : List ℚ × List Nat} (h : RestoreOuter n p r s) (hi : i < n)
    (hu : s.2.getD i 0 ≠ n) : RestoreOpen n p r i i s :=
  ⟨h.lenRes, h.lenOrd, h.entries, hi, hi, hu, Or.inr rfl, fun hh => absurd rfl hh,
    fun k hk hm => Or.inl (h.closed k hk hm), fun k hk hm _ => h.pred k hk hm,
    fun k hk hm _ => h.placed k hk hm, fun k hk hm _ _ => h.untouched k hk hm,
    h.untouched i hi hu⟩

/-- The restore pass ends, with every slot marked and every value placed. -/
theorem restore_spec {n : Nat} {p : List Nat} {r : List ℚ} {fuel : Nat}
    (hp : ValidOrder n p) (hr : r.length = n) (hf : n < fuel) :
    ∃ s2, restore n fuel r p = some s2 ∧ RestoreOuter n p r s2 ∧
      ∀ k, k < n → s2.2.getD k 0 = n := by
  have key := forLoop_inv
    (fun i (acc : Option (List ℚ × List Nat)) =>
      ∃ s, acc = some s ∧ RestoreOuter n p r s ∧ ∀ k, k < i → s.2.getD k 0 = n)
    (fun i acc => acc.bind (restoreWhile n i fuel i)) (some (r, p)) (Nat.zero_le n)
    ⟨(r, p), rfl, restoreOuter_init hp hr, fun k hk => absurd hk (Nat.not_lt_zero k)⟩
    (by
      rintro i acc - hi ⟨s, rfl, hout, hlow⟩
      show ∃ s2, restoreWhile n i fuel i s = some s2 ∧ _
      by_cases hm : s.2.getD i 0 = n
      · obtain ⟨f2, rfl⟩ : ∃ f2, fuel = f2 + 1 := ⟨fuel - 1, by omega⟩
        rw [restoreWhile_marked n i f2 i s hm]
        refine ⟨s, rfl, hout, fun k hk => ?_⟩
        by_cases hki : k = i
        · rw [hki]; exact hm
        · exact hlow k (by omega)
      · obtain ⟨s2, h1, h2, h3, h4⟩ := restoreWhile_open hp fuel i s
          (restoreOpen_of_outer hout hi hm)
          (lt_of_le_of_lt (unmarkedCount_le n s.2) hf)
        refine ⟨s2, h1, h2, fun k hk => ?_⟩
        by_cases hki : k = i
        · rw [hki]; exact h3
        · exact h4 k (hlow k (by omega)))
  obtain ⟨s2, h1, h2, h3⟩ := key
  exact ⟨s2, h1, h2, h3⟩

theorem getD_of_lt {α : Type} (l : List α) (k : Nat) (d : α) (h : k < l.length) :
    l.getD k d = l.get ⟨k, h⟩ := by
  simp [List.getD_eq_getElem?_getD, List.getElem?_eq_getElem h]

theorem validOrder_of_perm {n : Nat} {p : List Nat} (hp : p.Perm (List.range n)) :
    ValidOrder n p := by
  have hl : p.length = n := by rw [hp.length_eq, List.length_range]
  have hnd : p.Nodup := hp.nodup_iff.mpr (List.nodup_range n)
  refine ⟨hl, fun k hk => ?_, fun a b ha hb hab => ?_⟩
  · have hk2 : k < p.length := by rw [hl]; exact hk
    rw [getD_of_lt p k 0 hk2]
    exact List.mem_range.mp (hp.subset (List.get_mem p k hk2))
  · have ha2 : a < p.length := by rw [hl]; exact ha
    have hb2 : b < p.length := by rw [hl]; exact hb
    rw [getD_of_lt p a 0 ha2, getD_of_lt p b 0 hb2] at hab
    have := (List.nodup_iff_injective_get.mp hnd) hab
    exact Fin.mk.inj this

theorem perm_of_validOrder {n : Nat} {p : List Nat} (hp : ValidOrder n p) :
    p.Perm (List.range n) := by
  obtain ⟨hl, hlt, hinj⟩ := hp
  have hnd : p.Nodup := by
    rw [List.nodup_iff_injective_get]
    intro a b hab
    have ha : a.val < n := by rw [← hl]; exact a.isLt
    have hb : b.val < n := by rw [← hl]; exact b.isLt
    apply Fin.ext
    apply hinj _ _ ha hb
    rw [getD_of_lt p a.val 0 a.isLt, getD_of_lt p b.val 0 b.isLt]
    exact hab
  have hsub : p ⊆ List.range n := by
    intro x hx
    obtain ⟨k, hk⟩ := List.get_of_mem hx
    rw [List.mem_range, ← hk, ← getD_of_lt p k.val 0 k.isLt]
    exact hlt _ (by rw [← hl]; exact k.isLt)
  exact (List.subperm_of_subset hnd hsub).perm_of_length_le
    (by rw [List.length_range, hl])

theorem validOrder_surj {n : Nat} {p : List Nat} (hp : ValidOrder n p) (m : Nat) (hm : m < n) :
    ∃ k, k < n ∧ p.getD k 0 = m := by
  have hperm := perm_of_validOrder hp
  have hmem : m ∈ p := hperm.symm.subset (List.mem_range.mpr hm)
  obtain ⟨k, hk⟩ := List.get_of_mem hmem
  exact ⟨k.val, by rw [← hp.1]; exact k.isLt, by rw [getD_of_lt p k.val 0 k.isLt]; exact hk⟩

/-! ## `solve` as a whole -/

theorem shape_of_rows {n : Nat} {mx : List (List ℚ)} (hrows : mx.length = n)
    (hcols : ∀ row ∈ mx, row.length = n + 1) : Shape n mx := by
  refine ⟨hrows, fun r hr => ?_⟩
  have hr2 : r < mx.length := by rw [hrows]; exact hr
  rw [getD_of_lt mx r [] hr2]
  exact hcols _ (List.get_mem mx r hr2)

theorem backSubstitute_length (mx : List (List ℚ)) (n : Nat) (res : List ℚ) :
    (backSubstitute mx n res).length = res.length := by
  unfold backSubstitute
  exact forLoopDown_inv (fun _ (acc : List ℚ) => acc.length = res.length) _ (n - 1) _
    (by simp only [List.length_set]) (fun i t _ ht => by simp only [List.length_set]; exact ht)

/-- The function `solve` returns for every well-shaped matrix, singular or
not, as soon as the fuel exceeds `n`. -/
theorem solve_total {n : Nat} {mx : List (List ℚ)} (hs : Shape n mx) (res : List ℚ)
    (hres : res.length = n) (fuel : Nat) (hf : n < fuel) :
    ∃ out, solve fuel mx res = some out ∧ out.length = n := by
  obtain ⟨_, ho⟩ := elimination_general mx hs
  obtain ⟨s2, h1, h2, _⟩ := restore_spec (r := backSubstitute (elimination mx n).1 n res)
    ho (by rw [backSubstitute_length, hres]) hf
  refine ⟨s2.1, ?_, h2.lenRes⟩
  unfold solve
  rw [hs.1]
  show Option.map Prod.fst (restore n fuel _ _) = _
  rw [h1]
  rfl

/-! ## `derive` and the helpers of `solve_newton` -/

theorem fillColumn_spec {n : Nat} {m : List (List ℚ)} (hs : Shape n m) (c : Nat) (hc : c ≤ n)
    (d : List ℚ) :
    Shape n (forLoop 0 n (fun row acc2 => mset acc2 row c (d.getD row 0)) m) ∧
      ∀ r k, mget (forLoop 0 n (fun row acc2 => mset acc2 row c (d.getD row 0)) m) r k =
        if r < n ∧ k = c then d.getD r 0 else mget m r k := by
  exact forLoop_inv
    (fun i acc => Shape n acc ∧
      ∀ r k, mget acc r k = if r < i ∧ k = c then d.getD r 0 else mget m r k)
    (fun row acc2 => mset acc2 row c (d.getD row 0)) m (Nat.zero_le n)
    ⟨hs, fun r k => by simp⟩
    (by
      rintro i acc - hi ⟨hsa, hacc⟩
      refine ⟨shape_mset hsa _ _ _, fun r k => ?_⟩
      rw [mget_mset_of_shape hsa _ _ _ _ _ hi hc, hacc r k]
      by_cases hir : i = r
      · subst hir
        by_cases hck : c = k
        · subst hck; simp
        · simp [hck, Ne.symm hck]
      · have : (r < i + 1) = (r < i) := by
          apply propext; constructor <;> intro hh <;> omega
        simp only [hir, false_and, if_false, this])

theorem derive_spec (ctx : Context) {n : Nat} {m : List (List ℚ)} (hs : Shape n m)
    (f : List ℚ → List ℚ) (x : List ℚ) :
    Shape n (derive ctx m f x) ∧
      ∀ r k, mget (derive ctx m f x) r k =
        if r < n ∧ k < n then (deriveColumn ctx f x k).getD r 0 else mget m r k := by
  unfold derive
  rw [hs.1]
  exact forLoop_inv
    (fun c acc => Shape n acc ∧
      ∀ r k, mget acc r k =
        if r < n ∧ k < c then (deriveColumn ctx f x k).getD r 0 else mget m r k)
    (fun column acc =>
      let d := deriveColumn ctx f x column
      forLoop 0 n (fun row acc2 => mset acc2 row column (d.getD row 0)) acc) m (Nat.zero_le n)
    ⟨hs, fun r k => by simp⟩
    (by
      rintro c acc - hc ⟨hsa, hacc⟩
      obtain ⟨h1, h2⟩ := fillColumn_spec hsa c (le_of_lt hc) (deriveColumn ctx f x c)
      refine ⟨h1, fun r k => ?_⟩
      show mget (forLoop 0 n _ acc) r k = _
      rw [h2 r k, hacc r k]
      by_cases hr : r < n
      · by_cases hkc : k = c
        · subst hkc; simp [hr]
        · have : (k < c + 1) = (k < c) := by
            apply propext; constructor <;> intro hh <;> omega
          simp only [hkc, and_false, if_false, this]
      · simp [hr])

theorem plug_vector_spec {n : Nat} {m : List (List ℚ)} (hs : Shape n m) (v : List ℚ) :
    Shape n (plug_vector m v) ∧
      ∀ r k, mget (plug_vector m v) r k = if r < n ∧ k = n then v.getD r 0 else mget m r k := by
  unfold plug_vector
  rw [hs.1]
  exact fillColumn_spec hs n (le_refl n) v

theorem shape_create (n : Nat) : Shape n (create n (n + 1)) := by
  refine ⟨by simp [create], fun r hr => ?_⟩
  unfold create
  rw [getD_of_lt _ r [] (by simp [hr])]
  simp

theorem getD_divide (a : List ℚ) (c : ℚ) (r : Nat) :
    (divide a c).getD r 0 = a.getD r 0 / c := by
  unfold divide
  by_cases hr : r < a.length
  · rw [getD_of_lt _ r 0 (by simp [hr]), getD_of_lt a r 0 hr]
    simp
  · rw [getD_of_length_le _ r 0 (by simp; omega), getD_of_length_le a r 0 (by omega), zero_div]

theorem getD_subtract (a b : List ℚ) (r : Nat) (hab : a.length = b.length) :
    (subtract a b).getD r 0 = a.getD r 0 - b.getD r 0 := by
  unfold subtract
  by_cases hr : r < a.length
  · rw [getD_of_lt _ r 0 (by simp [hr, ← hab]), getD_of_lt a r 0 hr,
      getD_of_lt b r 0 (by rw [← hab]; exact hr)]
    simp
  · rw [getD_of_length_le _ r 0 (by simp; omega), getD_of_length_le a r 0 (by omega),
      getD_of_length_le b r 0 (by omega), sub_zero]

/-! ## The Newton loop -/

theorem backSubstitute_congr (mx : List (List ℚ)) (n : Nat) (res res2 : List ℚ)
    (h1 : res.length = n) (h2 : res2.length = n) :
    backSubstitute mx n res = backSubstitute mx n res2 := by
  rcases Nat.eq_zero_or_pos n with hn | hn
  · subst hn
    rw [List.length_eq_zero.mp h1, List.length_eq_zero.mp h2]
  · obtain ⟨hl, hy⟩ := backSubstitute_spec mx n res hn h1
    obtain ⟨hl2, hy2⟩ := backSubstitute_spec mx n res2 hn h2
    have main : ∀ m, ∀ i, n - m ≤ i → i < n →
        (backSubstitute mx n res).getD i 0 = (backSubstitute mx n res2).getD i 0 := by
      intro m
      induction m with
      | zero => intro i h3 h4; omega
      | succ m ih =>
        intro i h3 h4
        rw [hy i h4, hy2 i h4]
        congr 2
        apply Finset.sum_congr rfl
        intro k hk
        rw [Finset.mem_Ico] at hk
        rw [ih k (by omega) hk.2]
    apply List.ext_get (by rw [hl, hl2])
    intro i h3 h4
    rw [← getD_of_lt _ i 0 h3, ← getD_of_lt _ i 0 h4]
    exact main n i (by omega) (by rw [← hl]; exact h3)

theorem solve_congr (fuel : Nat) (mx : List (List ℚ)) (res res2 : List ℚ)
    (h1 : res.length = mx.length) (h2 : res2.length = mx.length) :
    solve fuel mx res = solve fuel mx res2 := by
  unfold solve
  simp only []
  rw [backSubstitute_congr _ _ res res2 h1 h2]

theorem newtonMatrix_shape (ctx : Context) (f : List ℚ → List ℚ) (x : List ℚ) :
    Shape x.length
      (plug_vector (derive ctx (create x.length (x.length + 1)) f x)
        (subtract (multiply (derive ctx (create x.length (x.length + 1)) f x) x) (f x))) :=
  (plug_vector_spec (derive_spec ctx (shape_create x.length) f x).1 _).1

theorem newtonStep_congr (ctx : Context) (fuel : Nat) (f : List ℚ → List ℚ)
    (x buf buf2 : List ℚ) (h1 : buf.length = x.length) (h2 : buf2.length = x.length) :
    newtonStep ctx fuel f x buf = newtonStep ctx fuel f x buf2 := by
  unfold newtonStep
  simp only []
  have hs := (newtonMatrix_shape ctx f x).1
  exact solve_congr fuel _ buf buf2 (by rw [hs, h1]) (by rw [hs, h2])

theorem newtonStep_total (ctx : Context) (fuel : Nat) (f : List ℚ → List ℚ)
    (x buf : List ℚ) (h1 : buf.length = x.length) (hf : x.length < fuel) :
    ∃ out, newtonStep ctx fuel f x buf = some out ∧ out.length = x.length :=
  solve_total (newtonMatrix_shape ctx f x) buf h1 fuel hf

theorem residual_eq_sum (a b : List ℚ) :
    residual a b = ∑ i ∈ Finset.Ico 0 a.length,
      (a.getD i 0 - b.getD i 0) * (a.getD i 0 - b.getD i 0) :=
  forLoop_sum 0 a.length _ (Nat.zero_le _)

theorem residual_nonneg (a b : List ℚ) : 0 ≤ residual a b := by
  rw [residual_eq_sum]
  exact Finset.sum_nonneg (fun i _ => mul_self_nonneg _)

theorem newtonLoop_succ (ctx : Context) (fuel : Nat) (f : List ℚ → List ℚ)
    (remaining done : Nat) (previous next next1 : List ℚ)
    (h : newtonStep ctx fuel f previous next = some next1) :
    newtonLoop ctx fuel f (remaining + 1) done previous next =
      if residual previous next1 < ctx.newton_precision then some ⟨next1, done + 1⟩
      else newtonLoop ctx fuel f remaining (done + 1) next1 previous := by
  rw [newtonLoop, h]

/-- The loop of `solve_newton` always returns a vector of the length of the
initial guess. -/
theorem newtonLoop_total (ctx : Context) (fuel : Nat) (f : List ℚ → List ℚ) (n : Nat)
    (hf : n < fuel) :
    ∀ remaining done previous next, previous.length = n → next.length = n →
      ∃ run, newtonLoop ctx fuel f remaining done previous next = some run ∧
        run.output.length = n := by
  intro remaining
  induction remaining with
  | zero =>
    intro done previous next _ h2
    exact ⟨⟨next, done⟩, rfl, h2⟩
  | succ m ih =>
    intro done previous next h1 h2
    obtain ⟨out, ho, hl⟩ := newtonStep_total ctx fuel f previous next (by rw [h1, h2])
      (by rw [h1]; exact hf)
    rw [newtonLoop_succ ctx fuel f m done previous next out ho]
    by_cases hc : residual previous out < ctx.newton_precision
    · rw [if_pos hc]
      exact ⟨_, rfl, by rw [hl, h1]⟩
    · rw [if_neg hc]
      exact ih (done + 1) out previous (by rw [hl, h1]) h1

/-- With a tolerance that is not positive the loop runs its whole budget. -/
theorem newtonLoop_full_budget (ctx : Context) (fuel : Nat) (f : List ℚ → List ℚ) (n : Nat)
    (hf : n < fuel) (hp : ctx.newton_precision ≤ 0) :
    ∀ remaining done previous next, previous.length = n → next.length = n →
      ∃ out, newtonLoop ctx fuel f remaining done previous next =
        some ⟨out, done + remaining⟩ := by
  intro remaining
  induction remaining with
  | zero =>
    intro done previous next _ _
    exact ⟨next, rfl⟩
  | succ m ih =>
    intro done previous next h1 h2
    obtain ⟨out, ho, hl⟩ := newtonStep_total ctx fuel f previous next (by rw [h1, h2])
      (by rw [h1]; exact hf)
    rw [newtonLoop_succ ctx fuel f m done previous next out ho]
    have hc : ¬ residual previous out < ctx.newton_precision :=
      not_lt.mpr (le_trans hp (residual_nonneg previous out))
    rw [if_neg hc]
    obtain ⟨o2, h3⟩ := ih (done + 1) out previous (by rw [hl, h1]) h1
    exact ⟨o2, by rw [h3]; congr 2; omega⟩

/-! ## The claims -/

/-- On a well-shaped system with nonzero determinant, `solve` returns a
vector that agrees, variable by variable, with every solution of the system
as passed in. -/
theorem solve_agrees_with_solution (n : Nat) (mx : List (List ℚ)) (res : List ℚ) (fuel : Nat)
    (hn : 1 ≤ n) (hs : Shape n mx) (hres : res.length = n)
    (hdet : (blockMatrix n mx).det ≠ 0) (hfuel : n < fuel) :
    ∃ out, solve fuel mx res = some out ∧ out.length = n ∧
      ∀ x : Nat → ℚ,
        (∀ i, i < n → ∑ k ∈ Finset.range n, mget mx i k * x k = mget mx i n) →
        ∀ m, m < n → out.getD m 0 = x m := by
  have inv := elimination_inv hs hdet
  obtain ⟨hylen, hy⟩ := backSubstitute_spec (elimination mx n).1 n res hn hres
  obtain ⟨s2, h1, h2, h3⟩ := restore_spec (r := backSubstitute (elimination mx n).1 n res)
    inv.order hylen hfuel
  refine ⟨s2.1, ?_, h2.lenRes, fun x hx m hm => ?_⟩
  · unfold solve
    rw [hs.1]
    show Option.map Prod.fst (restore n fuel _ _) = _
    rw [h1]
    rfl
  · have huniq := upper_unique (elimination mx n).1 n
      (fun i k hk hi => inv.lower i k (lt_trans hk hi) hk hi) inv.diag
      (fun k => (backSubstitute (elimination mx n).1 n res).getD k 0)
      (fun k => x ((elimination mx n).2.getD k 0)) hy (inv.sol x hx)
    obtain ⟨k, hk, hkm⟩ := validOrder_surj inv.order m hm
    rw [← hkm, h2.placed k hk (h3 k hk)]
    exact (huniq k hk).symm

/-- C1: over exact arithmetic, for every `n ≥ 1` and every `n × (n+1)`
augmented matrix `[A | b]` whose leading block `A` has a nonzero determinant,
`solve` (with fuel above `n` for its restore loop) returns a vector `out` of
length `n` with `A · out = b`, where `A`, `b` are read from the matrix as
passed in and `out` is indexed by the original variables, whatever column
swaps full pivoting performed. -/
theorem solve_correct (n : Nat) (mx : List (List ℚ)) (res : List ℚ) (fuel : Nat)
    (hn : 1 ≤ n) (hrows : mx.length = n) (hcols : ∀ row ∈ mx, row.length = n + 1)
    (hres : res.length = n) (hdet : (blockMatrix n mx).det ≠ 0) (hfuel : n < fuel) :
    ∃ out, solve fuel mx res = some out ∧ out.length = n ∧
      ∀ i, i < n → ∑ k ∈ Finset.range n, mget mx i k * out.getD k 0 = mget mx i n := by
  obtain ⟨out, h1, h2, h3⟩ := solve_agrees_with_solution n mx res fuel hn
    (shape_of_rows hrows hcols) hres hdet hfuel
  obtain ⟨x, hx⟩ := exists_solution_of_det_ne_zero n mx hdet
  refine ⟨out, h1, h2, fun i hi => ?_⟩
  rw [← hx i hi]
  apply Finset.sum_congr rfl
  intro k hk
  rw [h3 x hx k (Finset.mem_range.mp hk)]

theorem witness_det_four :
    (blockMatrix 4 [[1, 9, 0, 0, 19], [8, 1, 0, 0, 10], [0, 0, 1, 4, 19], [0, 0, 2, 1, 10]]).det
      ≠ 0 := by
  rw [Matrix.det_succ_row_zero]
  simp [Fin.sum_univ_succ, Matrix.det_fin_three, blockMatrix, mget, Fin.succAbove]
  norm_num

theorem solve_correct_witness :
    ∃ out, solve 5 [[1, 9, 0, 0, 19], [8, 1, 0, 0, 10], [0, 0, 1, 4, 19], [0, 0, 2, 1, 10]]
        [0, 0, 0, 0] = some out ∧ out.length = 4 ∧
      ∀ i, i < 4 → ∑ k ∈ Finset.range 4,
        mget [[1, 9, 0, 0, 19], [8, 1, 0, 0, 10], [0, 0, 1, 4, 19], [0, 0, 2, 1, 10]] i k *
          out.getD k 0 =
        mget [[1, 9, 0, 0, 19], [8, 1, 0, 0, 10], [0, 0, 1, 4, 19], [0, 0, 2, 1, 10]] i 4 :=
  solve_correct 4 [[1, 9, 0, 0, 19], [8, 1, 0, 0, 10], [0, 0, 1, 4, 19], [0, 0, 2, 1, 10]]
    [0, 0, 0, 0] 5 (by decide) rfl (by decide) rfl witness_det_four (by decide)

/-- C6: the restore pass un-permutes: for every `n`, every permutation `p` of
`0..n-1` held in `x_order` and every vector `r` of length `n` held in `res`,
the pass (with fuel above `n`) ends and leaves `res[p[k]] = r[k]` for every
`k < n`. -/
theorem restore_unpermutes (n : Nat) (p : List Nat) (r : List ℚ) (fuel : Nat)
    (hp : p.Perm (List.range n)) (hr : r.length = n) (hfuel : n < fuel) :
    ∃ res x_order, restore n fuel r p = some (res, x_order) ∧ res.length = n ∧
      ∀ k, k < n → res.getD (p.getD k 0) 0 = r.getD k 0 := by
  have hv := validOrder_of_perm hp
  obtain ⟨s2, h1, h2, h3⟩ := restore_spec hv hr hfuel
  exact ⟨s2.1, s2.2, h1, h2.lenRes, fun k hk => h2.placed k hk (h3 k hk)⟩

theorem restore_unpermutes_witness :
    [1, 2, 0, 4, 3].Perm (List.range 5) ∧
      ∃ res x_order, restore 5 6 [10, 20, 30, 40, 50] [1, 2, 0, 4, 3] = some (res, x_order) ∧
        res.length = 5 ∧
        ∀ k, k < 5 → res.getD ([1, 2, 0, 4, 3].getD k 0) 0 = [10, 20, 30, 40, 50].getD k 0 :=
  ⟨by decide, restore_unpermutes 5 [1, 2, 0, 4, 3] [10, 20, 30, 40, 50] 6 (by decide) rfl
    (by decide)⟩

/-- C10: for every input matrix, the permutation record `x_order` is a
permutation of `0..n-1` after initialisation and after each of the first `j`
pivot steps (`j ≤ n`); and pivot step `j < n` exchanges exactly the entries
`j` and `max_j` of `x_order`, the row swap leaving it as it is. -/
theorem x_order_is_permutation (mx : List (List ℚ)) (n j : Nat) (hj : j ≤ n) :
    (forLoop 0 j (pivotStep n) (mx, List.range n)).2.Perm (List.range n) ∧
      (j < n →
        (pivotStep n j (forLoop 0 j (pivotStep n) (mx, List.range n))).2.getD j 0 =
            (forLoop 0 j (pivotStep n) (mx, List.range n)).2.getD
              (pivotSearch (forLoop 0 j (pivotStep n) (mx, List.range n)).1 n j).2.1 0 ∧
          (pivotStep n j (forLoop 0 j (pivotStep n) (mx, List.range n))).2.getD
              (pivotSearch (forLoop 0 j (pivotStep n) (mx, List.range n)).1 n j).2.1 0 =
            (forLoop 0 j (pivotStep n) (mx, List.range n)).2.getD j 0 ∧
          ∀ k, k ≠ j →
            k ≠ (pivotSearch (forLoop 0 j (pivotStep n) (mx, List.range n)).1 n j).2.1 →
            (pivotStep n j (forLoop 0 j (pivotStep n) (mx, List.range n))).2.getD k 0 =
              (forLoop 0 j (pivotStep n) (mx, List.range n)).2.getD k 0) := by
  have hv : ValidOrder n (forLoop 0 j (pivotStep n) (mx, List.range n)).2 :=
    forLoop_inv (fun _ s => ValidOrder n s.2) (pivotStep n) (mx, List.range n) (Nat.zero_le j)
      (validOrder_range n)
      (fun i _ _ hi h => pivotStep_validOrder (lt_of_lt_of_le hi hj) h)
  refine ⟨perm_of_validOrder hv, fun hjn => ?_⟩
  generalize forLoop 0 j (pivotStep n) (mx, List.range n) = s at hv
  have hmj := (pivotSearch_lt s.1 n j hjn).2
  have hg : ∀ k, (pivotStep n j s).2.getD k 0 =
      s.2.getD (Equiv.swap j (pivotSearch s.1 n j).2.1 k) 0 := fun k => by
    rw [pivotStep_order]
    exact swapOrder_getD s.2 j _ k (by rw [hv.1]; exact hjn) (by rw [hv.1]; exact hmj)
  refine ⟨?_, ?_, fun k hk1 hk2 => ?_⟩
  · rw [hg, Equiv.swap_apply_left]
  · rw [hg, Equiv.swap_apply_right]
  · rw [hg, Equiv.swap_apply_of_ne_of_ne hk1 hk2]

theorem x_order_is_permutation_witness :
    (forLoop 0 1 (pivotStep 3) ([[0, 2, 1, 7], [1, 0, 3, 10], [4, 1, 0, 6]], List.range 3)).2.Perm
      (List.range 3) :=
  (x_order_is_permutation [[0, 2, 1, 7], [1, 0, 3, 10], [4, 1, 0, 6]] 3 1 (by decide)).1

/-- C5: for every `F` mapping vectors of length `n` to vectors of length `n`,
every `x` of length `n` and every matrix `m` with `n` rows of `n + 1` entries,
after `derive(m, F, x)` each entry `m[r][c]` with `r, c < n` is
`(F(x + h·e_c)[r] - F(x - h·e_c)[r]) / (2·h)` with `h = newton_derive_step`,
and column `n` of `m` is unchanged. -/
theorem derive_central_difference (ctx : Context) (f : List ℚ → List ℚ) (x : List ℚ)
    (m : List (List ℚ)) (n : Nat) (hrows : m.length = n)
    (hcols : ∀ row ∈ m, row.length = n + 1) (hx : x.length = n)
    (hf : ∀ v : List ℚ, v.length = n → (f v).length = n) :
    (∀ r c, r < n → c < n →
      mget (derive ctx m f x) r c =
        ((f (x.set c (x.getD c 0 + ctx.newton_derive_step))).getD r 0 -
          (f (x.set c (x.getD c 0 - ctx.newton_derive_step))).getD r 0) /
            (2 * ctx.newton_derive_step)) ∧
      ∀ r, r < n → mget (derive ctx m f x) r n = mget m r n := by
  obtain ⟨_, hd⟩ := derive_spec ctx (shape_of_rows hrows hcols) f x
  refine ⟨fun r c hr hc => ?_, fun r _ => ?_⟩
  · rw [hd r c, if_pos ⟨hr, hc⟩]
    unfold deriveColumn
    simp only []
    rw [getD_divide, getD_subtract]
    rw [hf _ (by rw [List.length_set, hx]), hf _ (by rw [List.length_set, hx])]
  · rw [hd r n, if_neg (fun hh => lt_irrefl n hh.2)]

theorem derive_central_difference_witness :
    (∀ r c, r < 2 → c < 2 →
      mget (derive ⟨1 / 1000, 1 / 2⟩ [[7, 8, 9], [4, 5, 6]] affineExample [3, 5]) r c =
        ((affineExample ([3, 5].set c (([3, 5] : List ℚ).getD c 0 + 1 / 2))).getD r 0 -
          (affineExample ([3, 5].set c (([3, 5] : List ℚ).getD c 0 - 1 / 2))).getD r 0) /
            (2 * (1 / 2))) ∧
      ∀ r, r < 2 →
        mget (derive ⟨1 / 1000, 1 / 2⟩ [[7, 8, 9], [4, 5, 6]] affineExample [3, 5]) r 2 =
          mget [[7, 8, 9], [4, 5, 6]] r 2 :=
  derive_central_difference ⟨1 / 1000, 1 / 2⟩ affineExample [3, 5] [[7, 8, 9], [4, 5, 6]] 2 rfl
    (by decide) rfl (fun _ _ => rfl)

theorem newtonIterate_succ_left (ctx : Context) (fuel : Nat) (f : List ℚ → List ℚ)
    (x0 : List ℚ) (k : Nat) :
    newtonIterate ctx fuel f x0 (k + 1) =
      (newtonStep ctx fuel f x0 (List.replicate x0.length 0)).bind
        (fun x1 => newtonIterate ctx fuel f x1 k) := by
  induction k with
  | zero =>
    show (some x0).bind _ = _
    rw [Option.some_bind]
    cases newtonStep ctx fuel f x0 (List.replicate x0.length 0) <;> rfl
  | succ k ih =>
    show (newtonIterate ctx fuel f x0 (k + 1)).bind _ = _
    rw [ih]
    cases newtonStep ctx fuel f x0 (List.replicate x0.length 0) <;> rfl

theorem newtonLoop_first_convergence (ctx : Context) (fuel : Nat) (f : List ℚ → List ℚ)
    (n : Nat) (hf : n < fuel) :
    ∀ k N done previous next xk xk1, previous.length = n → next.length = n → k < N →
      newtonIterate ctx fuel f previous k = some xk →
      newtonIterate ctx fuel f previous (k + 1) = some xk1 →
      residual xk xk1 < ctx.newton_precision →
      (∀ m, m < k → ∀ a b, newtonIterate ctx fuel f previous m = some a →
        newtonIterate ctx fuel f previous (m + 1) = some b →
        ¬ residual a b < ctx.newton_precision) →
      newtonLoop ctx fuel f N done previous next = some ⟨xk1, done + k + 1⟩ := by
  intro k
  induction k with
  | zero =>
    intro N done previous next xk xk1 h1 h2 hN hk hk1 hc _
    obtain ⟨N2, rfl⟩ : ∃ N2, N = N2 + 1 := ⟨N - 1, by omega⟩
    have hxk : xk = previous := (Option.some.inj hk).symm
    subst hxk
    have hstep : newtonStep ctx fuel f xk next = some xk1 := by
      rw [newtonStep_congr ctx fuel f xk next (List.replicate xk.length 0)
        (by rw [h2, h1]) (by simp)]
      exact hk1
    rw [newtonLoop_succ ctx fuel f N2 done xk next xk1 hstep, if_pos hc]
  | succ k ih =>
    intro N done previous next xk xk1 h1 h2 hN hk hk1 hc hfirst
    obtain ⟨N2, rfl⟩ : ∃ N2, N = N2 + 1 := ⟨N - 1, by omega⟩
    obtain ⟨x1, hx1, hl1⟩ := newtonStep_total ctx fuel f previous
      (List.replicate previous.length 0) (by simp) (by rw [h1]; exact hf)
    have hstep : newtonStep ctx fuel f previous next = some x1 := by
      rw [newtonStep_congr ctx fuel f previous next (List.replicate previous.length 0)
        (by rw [h2, h1]) (by simp)]
      exact hx1
    have hshift : ∀ m, newtonIterate ctx fuel f previous (m + 1) =
        newtonIterate ctx fuel f x1 m := by
      intro m
      rw [newtonIterate_succ_left, hx1]
      rfl
    have hnc : ¬ residual previous x1 < ctx.newton_precision :=
      hfirst 0 (Nat.succ_pos k) previous x1 rfl (by rw [hshift]; rfl)
    rw [newtonLoop_succ ctx fuel f N2 done previous next x1 hstep, if_neg hnc]
    rw [ih N2 (done + 1) x1 previous xk xk1 (by rw [hl1, h1]) h1 (by omega)
      (by rw [← hshift]; exact hk) (by rw [← hshift]; exact hk1) hc
      (fun m hm a b ha hb => hfirst (m + 1) (by omega) a b
        (by rw [hshift]; exact ha) (by rw [hshift]; exact hb))]
    congr 2
    omega

/-- C4: at the first iteration `k` at which the squared distance between
`previous = x_k` and the freshly solved `next = x_(k+1)` is strictly below
`newton_precision`, the loop of `solve_newton` stops: the function returns
exactly that `x_(k+1)` after `k + 1` loop bodies, so no later Jacobian
estimate, linear solve or evaluation of `F` happens. -/
theorem solve_newton_stops_at_first_convergence (ctx : Context) (fuel : Nat)
    (f : List ℚ → List ℚ) (x0 : List ℚ) (N k : Nat) (xk xk1 : List ℚ)
    (hfuel : x0.length < fuel) (hk : k < N)
    (hxk : newtonIterate ctx fuel f x0 k = some xk)
    (hxk1 : newtonIterate ctx fuel f x0 (k + 1) = some xk1)
    (hconv : residual xk xk1 < ctx.newton_precision)
    (hfirst : ∀ m, m < k → ∀ a b, newtonIterate ctx fuel f x0 m = some a →
      newtonIterate ctx fuel f x0 (m + 1) = some b →
      ¬ residual a b < ctx.newton_precision) :
    solve_newton ctx fuel f x0 N = some ⟨xk1, k + 1⟩ := by
  unfold solve_newton
  rw [newtonLoop_first_convergence ctx fuel f x0.length hfuel k N 0 x0
    (List.replicate x0.length 0) xk xk1 rfl (by simp) hk hxk hxk1 hconv hfirst]
  congr 2
  omega

/-- C9: when `newton_precision` is zero or negative the convergence test
never succeeds, since `residual` is a sum of squares, and the loop body of
`solve_newton` runs exactly `max_iterations` times. -/
theorem nonpositive_tolerance_runs_full_budget (ctx : Context) (fuel : Nat)
    (f : List ℚ → List ℚ) (x0 : List ℚ) (N : Nat)
    (hp : ctx.newton_precision ≤ 0) (hfuel : x0.length < fuel) :
    (∀ a b, ¬ residual a b < ctx.newton_precision) ∧
      ∃ out, solve_newton ctx fuel f x0 N = some ⟨out, N⟩ := by
  refine ⟨fun a b => not_lt.mpr (le_trans hp (residual_nonneg a b)), ?_⟩
  obtain ⟨out, h⟩ := newtonLoop_full_budget ctx fuel f x0.length hfuel hp N 0 x0
    (List.replicate x0.length 0) rfl (by simp)
  exact ⟨out, by unfold solve_newton; rw [h]; congr 2; omega⟩

theorem affine_iterate_one :
    newtonIterate ⟨1 / 1000, 1 / 100000⟩ 3 affineExample [0, 0] 1 = some [2, 1] := by
  with_unfolding_all decide

theorem affine_iterate_two :
    newtonIterate ⟨1 / 1000, 1 / 100000⟩ 3 affineExample [0, 0] 2 = some [2, 1] := by
  with_unfolding_all decide

theorem solve_newton_stops_at_first_convergence_witness :
    solve_newton ⟨1 / 1000, 1 / 100000⟩ 3 affineExample [0, 0] 5 = some ⟨[2, 1], 2⟩ :=
  solve_newton_stops_at_first_convergence ⟨1 / 1000, 1 / 100000⟩ 3 affineExample [0, 0] 5 1
    [2, 1] [2, 1] (by decide) (by decide) affine_iterate_one affine_iterate_two
    (by with_unfolding_all decide)
    (by
      intro m hm a b ha hb
      obtain rfl : m = 0 := by omega
      rw [affine_iterate_one] at hb
      obtain rfl : [0, 0] = a := Option.some.inj ha
      obtain rfl : [2, 1] = b := Option.some.inj hb
      with_unfolding_all decide)

theorem nonpositive_tolerance_runs_full_budget_witness :
    (∀ a b, ¬ residual a b < (0 : ℚ)) ∧
      ∃ out, solve_newton ⟨0, 1 / 100000⟩ 3 affineExample [0, 0] 4 = some ⟨out, 4⟩ :=
  nonpositive_tolerance_runs_full_budget ⟨0, 1 / 100000⟩ 3 affineExample [0, 0] 4
    (le_refl 0) (by decide)

/-- C2 (evaluation at the failing input): with `F(x) = [x0² - 2]`, initial
guess `[1]` and `max_iterations = 1`, the only linear solve executed produces
`[3/2]`, the convergence test fails, and `solve_newton` returns `[1]`. -/
theorem exhausted_budget_returns_stale_vector :
    newtonStep ⟨1 / 100, 1⟩ 2 squareExample [1] [0] = some [3 / 2] ∧
      ¬ residual [1] [3 / 2] < (1 / 100 : ℚ) ∧
      solve_newton ⟨1 / 100, 1⟩ 2 squareExample [1] 1 = some ⟨[1], 1⟩ := by
  refine ⟨?_, ?_, ?_⟩ <;> with_unfolding_all decide

/-- C3 (evaluation at the failing input): for the affine system
`F(x) = [x0 + x1 - 3, x0 - x1 - 1]`, initial guess `[0, 0]`, derivative step
`1e-5` and `max_iterations = 1`, the linear solve produces the root `[2, 1]`
but `solve_newton` returns the initial guess `[0, 0]`. -/
theorem affine_single_iteration_returns_guess :
    newtonStep ⟨1 / 1000, 1 / 100000⟩ 3 affineExample [0, 0] [0, 0] = some [2, 1] ∧
      solve_newton ⟨1 / 1000, 1 / 100000⟩ 3 affineExample [0, 0] 1 = some ⟨[0, 0], 1⟩ := by
  refine ⟨?_, ?_⟩ <;> with_unfolding_all decide

/-- C7 (counterexample): on the singular system `F(x) = [x0 + x1 - 2, x0 + x1 - 2]`
with initial guess `[0, 0]` and `max_iterations = 1`, `solve_newton` returns the
vector `[0, 0]`; it reports no error. -/
theorem singular_system_returns_vector :
    solve_newton ⟨1 / 1000, 1 / 100000⟩ 3 singularExample [0, 0] 1 = some ⟨[0, 0], 1⟩ := by
  with_unfolding_all decide

theorem solve_one_by_one (fuel : Nat) (a b : ℚ) (buf : List ℚ) (ha : a ≠ 0)
    (hbuf : buf.length = 1) (hf : 1 < fuel) : solve fuel [[a, b]] buf = some [b / a] := by
  have hdet : (blockMatrix 1 [[a, b]]).det ≠ 0 := by
    rw [Matrix.det_fin_one]
    exact ha
  have hs : Shape 1 [[a, b]] := shape_of_rows rfl (by simp)
  obtain ⟨out, h1, h2, h3⟩ := solve_agrees_with_solution 1 [[a, b]] buf fuel (le_refl 1)
    hs hbuf hdet hf
  have h4 := h3 (fun _ => b / a) (fun i hi => by
    obtain rfl : i = 0 := by omega
    rw [Finset.sum_range_one]
    show a * (b / a) = b
    field_simp) 0 (by decide)
  rw [h1]
  match out, h2, h4 with
  | [y], _, h4 =>
    have : y = b / a := h4
    rw [this]

theorem squareExample_matrix (ctx : Context) (x : ℚ) (hh : ctx.newton_derive_step ≠ 0) :
    plug_vector (derive ctx (create 1 2) squareExample [x])
        (subtract (multiply (derive ctx (create 1 2) squareExample [x]) [x])
          (squareExample [x])) =
      [[2 * x, x ^ 2 + 2]] := by
  have hd : derive ctx (create 1 2) squareExample [x] = [[2 * x, 0]] := by
    simp [derive, create, forLoop, mset, deriveColumn, divide, subtract, squareExample,
      List.replicate]
    field_simp
    ring
  rw [hd]
  simp [plug_vector, forLoop, mset, subtract, multiply, squareExample]
  ring

theorem squareExample_step (ctx : Context) (fuel : Nat) (x : ℚ) (buf : List ℚ)
    (hh : ctx.newton_derive_step ≠ 0) (hx : x ≠ 0) (hbuf : buf.length = 1) (hf : 1 < fuel) :
    newtonStep ctx fuel squareExample [x] buf = some [(x ^ 2 + 2) / (2 * x)] := by
  unfold newtonStep
  show solve fuel (plug_vector (derive ctx (create 1 2) squareExample [x])
    (subtract (multiply (derive ctx (create 1 2) squareExample [x]) [x])
      (squareExample [x]))) buf = _
  rw [squareExample_matrix ctx x hh]
  exact solve_one_by_one fuel (2 * x) (x ^ 2 + 2) buf (mul_ne_zero two_ne_zero hx) hbuf hf

/-- C8: for `n = 1` and `F(x) = [x0² - 2]`, over exact arithmetic with a nonzero
derivative step, one Newton step maps every iterate `x ≠ 0` to
`(x² + 2) / (2x)`; the new iterate satisfies
`x'² - 2 = (x² - 2)² / (4 x²)`, and from `1` the iterates are `3/2`, `17/12`. -/
theorem square_root_newton_step (ctx : Context) (fuel : Nat) (x : ℚ) (buf : List ℚ)
    (hh : ctx.newton_derive_step ≠ 0) (hx : x ≠ 0) (hbuf : buf.length = 1) (hf : 1 < fuel) :
    newtonStep ctx fuel squareExample [x] buf = some [(x ^ 2 + 2) / (2 * x)] ∧
      ((x ^ 2 + 2) / (2 * x)) ^ 2 - 2 = (x ^ 2 - 2) ^ 2 / (4 * x ^ 2) ∧
      newtonIterate ctx fuel squareExample [1] 1 = some [3 / 2] ∧
      newtonIterate ctx fuel squareExample [1] 2 = some [17 / 12] := by
  have h1 : newtonIterate ctx fuel squareExample [1] 1 = some [3 / 2] := by
    show (some [1]).bind _ = _
    rw [Option.some_bind, squareExample_step ctx fuel 1 _ hh one_ne_zero (by simp) hf]
    norm_num
  refine ⟨squareExample_step ctx fuel x buf hh hx hbuf hf, ?_, h1, ?_⟩
  · field_simp
    ring
  · show (newtonIterate ctx fuel squareExample [1] 1).bind _ = _
    rw [h1, Option.some_bind,
      squareExample_step ctx fuel (3 / 2) _ hh (by norm_num) (by simp) hf]
    norm_num

theorem square_root_newton_step_witness :
    newtonStep ⟨1 / 100, 1 / 10⟩ 2 squareExample [3 / 2] [0] =
        some [((3 / 2 : ℚ) ^ 2 + 2) / (2 * (3 / 2))] ∧
      (((3 / 2 : ℚ) ^ 2 + 2) / (2 * (3 / 2))) ^ 2 - 2 =
        ((3 / 2 : ℚ) ^ 2 - 2) ^ 2 / (4 * (3 / 2) ^ 2) ∧
      newtonIterate ⟨1 / 100, 1 / 10⟩ 2 squareExample [1] 1 = some [3 / 2] ∧
      newtonIterate ⟨1 / 100, 1 / 10⟩ 2 squareExample [1] 2 = some [17 / 12] :=
  square_root_newton_step ⟨1 / 100, 1 / 10⟩ 2 (3 / 2) [0] (by norm_num) (by norm_num) rfl
    (by decide)

theorem singularExample_rows_equal (ctx : Context) (x : List ℚ) (k : Nat) :
    (deriveColumn ctx singularExample x k).getD 0 0 =
      (deriveColumn ctx singularExample x k).getD 1 0 := by
  unfold deriveColumn
  simp only []
  have hl : ∀ u v : List ℚ, (singularExample u).length = (singularExample v).length :=
    fun _ _ => rfl
  rw [getD_divide, getD_divide, getD_subtract _ _ 0 (hl _ _), getD_subtract _ _ 1 (hl _ _)]
  rfl

/-- C7 (amended): on the singular system `F(x) = [x0 + x1 - 2, x0 + x1 - 2]`,
whose finite-difference Jacobian has determinant zero at every point, the
solver reports no error: for every initial guess `[a, b]` and every
`max_iterations`, `solve_newton` returns a vector of length 2. -/
theorem singular_system_no_error (ctx : Context) (fuel : Nat) (a b : ℚ) (N : Nat)
    (hfuel : 2 < fuel) :
    (blockMatrix 2 (derive ctx (create 2 3) singularExample [a, b])).det = 0 ∧
      ∃ run, solve_newton ctx fuel singularExample [a, b] N = some run ∧
        run.output.length = 2 := by
  constructor
  · obtain ⟨_, hd⟩ := derive_spec ctx (shape_create 2) singularExample [a, b]
    rw [Matrix.det_fin_two]
    simp only [blockMatrix, Matrix.of_apply, Fin.val_zero, Fin.val_one]
    rw [hd 0 0, hd 0 1, hd 1 0, hd 1 1]
    simp only [show (0 : Nat) < 2 from by decide, show (1 : Nat) < 2 from by decide,
      and_self, if_true]
    rw [singularExample_rows_equal ctx [a, b] 0, singularExample_rows_equal ctx [a, b] 1]
    ring
  · exact newtonLoop_total ctx fuel singularExample 2 hfuel N 0 [a, b]
      (List.replicate 2 0) rfl rfl

theorem singular_system_no_error_witness :
    (blockMatrix 2 (derive ⟨1 / 1000, 1 / 100000⟩ (create 2 3) singularExample [0, 0])).det = 0 ∧
      ∃ run, solve_newton ⟨1 / 1000, 1 / 100000⟩ 3 singularExample [0, 0] 7 = some run ∧
        run.output.length = 2 :=
  singular_system_no_error ⟨1 / 1000, 1 / 100000⟩ 3 0 0 7 (by decide)

/-- C12: at a pivot step `j` whose trailing submatrix (rows and columns
`j..n-1`) has a nonzero entry, the selected position `(max_i, max_j)` lies in
that submatrix, its magnitude bounds every trailing entry, no trailing
position scanned before it (rows outer, columns inner) attains that
magnitude, and after the column swap and the row swap the entry at
`mx[j][j]` is the selected entry. -/
theorem pivot_is_first_maximum (mx : List (List ℚ)) (n j : Nat) (hs : Shape n mx) (hj : j < n)
    (hex : ∃ z t, j ≤ z ∧ z < n ∧ j ≤ t ∧ t < n ∧ mget mx z t ≠ 0) :
    j ≤ (pivotSearch mx n j).1 ∧ (pivotSearch mx n j).1 < n ∧
      j ≤ (pivotSearch mx n j).2.1 ∧ (pivotSearch mx n j).2.1 < n ∧
      (pivotSearch mx n j).2.2 = |mget mx (pivotSearch mx n j).1 (pivotSearch mx n j).2.1| ∧
      (∀ z t, j ≤ z → z < n → j ≤ t → t < n →
        |mget mx z t| ≤ |mget mx (pivotSearch mx n j).1 (pivotSearch mx n j).2.1|) ∧
      (∀ z t, j ≤ z → z < n → j ≤ t → t < n →
        ScanBefore z t (pivotSearch mx n j).1 (pivotSearch mx n j).2.1 →
        |mget mx z t| < |mget mx (pivotSearch mx n j).1 (pivotSearch mx n j).2.1|) ∧
      mget (swapRows (swapColumns mx n (pivotSearch mx n j).2.1 j) (pivotSearch mx n j).1 j) j j =
        mget mx (pivotSearch mx n j).1 (pivotSearch mx n j).2.1 := by
  obtain ⟨hg, hd⟩ := pivotSearch_spec mx n j (le_of_lt hj)
  obtain ⟨h1, h2, h3, h4, _⟩ := pivotSearch_nonzero mx n j (le_of_lt hj) hex
  rcases hg with h0 | ⟨_, _, _, _, hmax, _, hfirst⟩
  · rw [h0] at h1
    obtain ⟨z, t, hz1, hz2, ht1, ht2, hne⟩ := hex
    have hle := hd z t hz1 hz2 ht1 ht2
    rw [h0] at hle
    exact absurd (le_antisymm hle (abs_nonneg _)) (abs_ne_zero.mpr hne)
  · refine ⟨h1, h2, h3, h4, hmax, ?_, ?_, ?_⟩
    · intro z t hz1 hz2 ht1 ht2
      rw [← hmax]
      exact hd z t hz1 hz2 ht1 ht2
    · intro z t hz1 _ ht1 ht2 hb
      rw [← hmax]
      exact hfirst z t hz1 ht1 ht2 hb
    · obtain ⟨hs1, hc1⟩ := swapColumns_spec hs (pivotSearch mx n j).2.1 j (le_of_lt h4)
        (le_of_lt hj)
      obtain ⟨_, hc2⟩ := swapRows_spec hs1 (pivotSearch mx n j).1 j h2 hj
      rw [hc2, hc1, Equiv.swap_apply_right, Equiv.swap_apply_right]

theorem pivot_is_first_maximum_witness :
    (pivotSearch [[0, 2, 1, 7], [1, 0, 3, 10], [4, 1, 0, 6]] 3 0).2.2 =
      |mget [[0, 2, 1, 7], [1, 0, 3, 10], [4, 1, 0, 6]]
        (pivotSearch [[0, 2, 1, 7], [1, 0, 3, 10], [4, 1, 0, 6]] 3 0).1
        (pivotSearch [[0, 2, 1, 7], [1, 0, 3, 10], [4, 1, 0, 6]] 3 0).2.1| :=
  (pivot_is_first_maximum [[0, 2, 1, 7], [1, 0, 3, 10], [4, 1, 0, 6]] 3 0
    (shape_of_rows rfl (by decide)) (by decide)
    ⟨0, 1, by decide, by decide, by decide, by decide, by with_unfolding_all decide⟩).2.2.2.2.1

/-- C17: when at pivot step `j ≥ 1` every entry of the trailing submatrix is
zero, the scan leaves `max_i = max_j = 0` (a position outside the trailing
submatrix), so the step exchanges column `j` with column `0` in every row,
row `j` with row `0`, and `x_order[j]` with `x_order[0]`. -/
theorem zero_trailing_selects_origin (mx : List (List ℚ)) (x_order : List Nat) (n j : Nat)
    (hs : Shape n mx) (ho : x_order.length = n) (hj1 : 1 ≤ j) (hjn : j < n)
    (hz : ∀ z t, j ≤ z → z < n → j ≤ t → t < n → mget mx z t = 0) :
    pivotSearch mx n j = (0, 0, 0) ∧
      ¬ (j ≤ (pivotSearch mx n j).1 ∧ j ≤ (pivotSearch mx n j).2.1) ∧
      (pivotStep n j (mx, x_order)).1 = eliminate (swapRows (swapColumns mx n 0 j) 0 j) n j ∧
      (∀ r c, mget (swapRows (swapColumns mx n 0 j) 0 j) r c =
        mget mx (Equiv.swap 0 j r) (Equiv.swap 0 j c)) ∧
      (pivotStep n j (mx, x_order)).2 = swapOrder x_order j 0 ∧
      (pivotStep n j (mx, x_order)).2.getD j 0 = x_order.getD 0 0 ∧
      (pivotStep n j (mx, x_order)).2.getD 0 0 = x_order.getD j 0 := by
  have h0 : pivotSearch mx n j = (0, 0, 0) := by
    rcases (pivotSearch_spec mx n j (le_of_lt hjn)).1 with h | ⟨h1, h2, h3, h4, h5, h6, _⟩
    · exact h
    · rw [h5, hz _ _ h1 h2 h3 h4, abs_zero] at h6
      exact absurd h6 (lt_irrefl 0)
  have h0n : 0 < n := lt_of_le_of_lt (Nat.zero_le j) hjn
  obtain ⟨hs1, hc1⟩ := swapColumns_spec hs 0 j (Nat.zero_le n) (le_of_lt hjn)
  obtain ⟨_, hc2⟩ := swapRows_spec hs1 0 j h0n hjn
  have hm : (pivotStep n j (mx, x_order)).1 =
      eliminate (swapRows (swapColumns mx n 0 j) 0 j) n j := by
    rw [pivotStep_matrix, h0]
  have hx : (pivotStep n j (mx, x_order)).2 = swapOrder x_order j 0 := by
    rw [pivotStep_order, h0]
  refine ⟨h0, ?_, hm, fun r c => by rw [hc2, hc1], hx, ?_, ?_⟩
  · rw [h0]
    intro hh
    exact absurd hh.1 (by omega)
  · rw [hx, swapOrder_getD x_order j 0 j (by rw [ho]; exact hjn) (by rw [ho]; exact h0n),
      Equiv.swap_apply_left]
  · rw [hx, swapOrder_getD x_order j 0 0 (by rw [ho]; exact hjn) (by rw [ho]; exact h0n),
      Equiv.swap_apply_right]

theorem zero_trailing_selects_origin_witness :
    pivotSearch [[0, 0, 0], [1, 0, 2]] 2 1 = (0, 0, 0) :=
  (zero_trailing_selects_origin [[0, 0, 0], [1, 0, 2]] [1, 0] 2 1
    (shape_of_rows rfl (by decide)) rfl (by decide) (by decide)
    (by
      intro z t h1 h2 h3 h4
      obtain rfl : z = 1 := by omega
      obtain rfl : t = 1 := by omega
      with_unfolding_all decide)).1

/-! ## Triangular form and pivots -/

theorem stateBefore_zero (mx : List (List ℚ)) (n : Nat) :
    stateBefore mx n 0 = (mx, List.range n) :=
  forLoop_of_le (le_refl 0) _ _

theorem stateBefore_succ (mx : List (List ℚ)) (n j : Nat) :
    stateBefore mx n (j + 1) = pivotStep n j (stateBefore mx n j) :=
  forLoop_succ_right (Nat.zero_le j) _ _

theorem stateBefore_last (mx : List (List ℚ)) (n : Nat) :
    stateBefore mx n n = elimination mx n := rfl

theorem stateBefore_inv {n : Nat} {A : List (List ℚ)} (hs : Shape n A)
    (hdet : (blockMatrix n A).det ≠ 0) (j : Nat) (hj : j ≤ n) :
    ElimInv n A j (stateBefore A n j) :=
  forLoop_inv (fun j s => ElimInv n A j s) (pivotStep n) (A, List.range n) (Nat.zero_le j)
    (elimInv_init hs hdet) (fun _ _ _ hi inv => pivotStep_inv (lt_of_lt_of_le hi hj) inv)

theorem stateBefore_shape {n : Nat} (A : List (List ℚ)) (hs : Shape n A) (j : Nat) (hj : j ≤ n) :
    Shape n (stateBefore A n j).1 ∧ ValidOrder n (stateBefore A n j).2 :=
  forLoop_inv (fun _ s => Shape n s.1 ∧ ValidOrder n s.2) (pivotStep n) (A, List.range n)
    (Nat.zero_le j) ⟨hs, validOrder_range n⟩
    (fun _ _ _ hi h => ⟨pivotStep_shape (lt_of_lt_of_le hi hj) h.1,
      pivotStep_validOrder (lt_of_lt_of_le hi hj) h.2⟩)

/-- The entries of the matrix after a pivot step whose selected position
lies in the trailing submatrix, for the rows above `j`. -/
theorem pivotStep_upper_rows {n j : Nat} {s : List (List ℚ) × List Nat} (hs : Shape n s.1)
    (hj : j < n) (hmi : j ≤ (pivotSearch s.1 n j).1) (r c : Nat) (hr : r < j) :
    mget (pivotStep n j s).1 r c = mget s.1 r (Equiv.swap (pivotSearch s.1 n j).2.1 j c) := by
  obtain ⟨hmi2, hmj2⟩ := pivotSearch_lt s.1 n j hj
  obtain ⟨hs1, hc1⟩ := swapColumns_spec hs (pivotSearch s.1 n j).2.1 j (le_of_lt hmj2)
    (le_of_lt hj)
  obtain ⟨hs2, hc2⟩ := swapRows_spec hs1 (pivotSearch s.1 n j).1 j hmi2 hj
  obtain ⟨_, hc3⟩ := eliminate_spec hs2 j
  rw [pivotStep_matrix, hc3, if_neg (by omega), hc2, hc1,
    Equiv.swap_apply_of_ne_of_ne (a := (pivotSearch s.1 n j).1) (b := j) (by omega) (by omega)]

/-- C13: over exact arithmetic, on a matrix with `n` rows of `n + 1` entries
and non-singular leading block, the elimination loop of `solve` ends with an
upper-triangular leading block with nonzero diagonal, and pivot step `j`
changes the rows above `j` only by the column swap. -/
theorem elimination_upper_triangular (n : Nat) (mx : List (List ℚ)) (hrows : mx.length = n)
    (hcols : ∀ row ∈ mx, row.length = n + 1) (hdet : (blockMatrix n mx).det ≠ 0) :
    (∀ i k, k < i → i < n → mget (elimination mx n).1 i k = 0) ∧
      (∀ i, i < n → mget (elimination mx n).1 i i ≠ 0) ∧
      ∀ j r c, j < n → r < j →
        mget (pivotStep n j (stateBefore mx n j)).1 r c =
          mget (stateBefore mx n j).1 r
            (Equiv.swap (pivotSearch (stateBefore mx n j).1 n j).2.1 j c) := by
  have hs := shape_of_rows hrows hcols
  have inv := elimination_inv hs hdet
  refine ⟨fun i k hk hi => inv.lower i k (lt_trans hk hi) hk hi, inv.diag, ?_⟩
  intro j r c hj hr
  have invj := stateBefore_inv hs hdet j (le_of_lt hj)
  obtain ⟨hmi, _⟩ := pivotSearch_nonzero (stateBefore mx n j).1 n j (le_of_lt hj)
    (exists_trailing_nonzero hj invj)
  exact pivotStep_upper_rows invj.shape hj hmi r c hr

theorem elimination_upper_triangular_witness :
    (∀ i k, k < i → i < 4 →
      mget (elimination
        [[1, 9, 0, 0, 19], [8, 1, 0, 0, 10], [0, 0, 1, 4, 19], [0, 0, 2, 1, 10]] 4).1 i k = 0) ∧
      (∀ i, i < 4 →
        mget (elimination
          [[1, 9, 0, 0, 19], [8, 1, 0, 0, 10], [0, 0, 1, 4, 19], [0, 0, 2, 1, 10]] 4).1 i i ≠ 0) :=
  ⟨(elimination_upper_triangular 4
      [[1, 9, 0, 0, 19], [8, 1, 0, 0, 10], [0, 0, 1, 4, 19], [0, 0, 2, 1, 10]] rfl (by decide)
      witness_det_four).1,
    (elimination_upper_triangular 4
      [[1, 9, 0, 0, 19], [8, 1, 0, 0, 10], [0, 0, 1, 4, 19], [0, 0, 2, 1, 10]] rfl (by decide)
      witness_det_four).2.1⟩

theorem det_zero_iff_of_colSwap {n : Nat} {mx mx2 : List (List ℚ)} (a b : Nat)
    (ha : a < n) (hb : b < n)
    (h : ∀ r c, mget mx2 r c = mget mx r (Equiv.swap a b c)) :
    (blockMatrix n mx2).det = 0 ↔ (blockMatrix n mx).det = 0 := by
  have h2 : ∀ r c, mget mx r c = mget mx2 r (Equiv.swap a b c) := by
    intro r c
    rw [h, Equiv.swap_apply_self]
  constructor
  · intro h0
    by_contra hne
    exact det_ne_zero_of_colSwap a b ha hb h hne h0
  · intro h0
    by_contra hne
    exact det_ne_zero_of_colSwap a b ha hb h2 hne h0

theorem det_zero_iff_of_rowSwap {n : Nat} {mx mx2 : List (List ℚ)} (a b : Nat)
    (ha : a < n) (hb : b < n)
    (h : ∀ r c, mget mx2 r c = mget mx (Equiv.swap a b r) c) :
    (blockMatrix n mx2).det = 0 ↔ (blockMatrix n mx).det = 0 := by
  have h2 : ∀ r c, mget mx r c = mget mx2 (Equiv.swap a b r) c := by
    intro r c
    rw [h, Equiv.swap_apply_self]
  constructor
  · intro h0
    by_contra hne
    exact det_ne_zero_of_rowSwap a b ha hb h hne h0
  · intro h0
    by_contra hne
    exact det_ne_zero_of_rowSwap a b ha hb h2 hne h0

/-- A pivot step whose scan found a nonzero magnitude extends the
triangular part by one column, on any system. -/
theorem pivotStep_tri {n j : Nat} {A : List (List ℚ)} {s : List (List ℚ) × List Nat}
    (hj : j < n) (inv : TriInv n A j s) (hmax : (pivotSearch s.1 n j).2.2 ≠ 0) :
    TriInv n A (j + 1) (pivotStep n j s) := by
  obtain ⟨hmi1, hmi2, hmj1, hmj2, hpiv⟩ :
      j ≤ (pivotSearch s.1 n j).1 ∧ (pivotSearch s.1 n j).1 < n ∧
      j ≤ (pivotSearch s.1 n j).2.1 ∧ (pivotSearch s.1 n j).2.1 < n ∧
      mget s.1 (pivotSearch s.1 n j).1 (pivotSearch s.1 n j).2.1 ≠ 0 := by
    rcases (pivotSearch_spec s.1 n j (le_of_lt hj)).1 with h | ⟨h1, h2, h3, h4, h5, h6, _⟩
    · rw [h] at hmax
      exact absurd rfl hmax
    · refine ⟨h1, h2, h3, h4, ?_⟩
      rw [h5] at h6
      exact abs_pos.mp h6
  obtain ⟨hs1, hc1⟩ := swapColumns_spec inv.shape (pivotSearch s.1 n j).2.1 j
    (le_of_lt hmj2) (le_of_lt hj)
  obtain ⟨hs2, hc2⟩ := swapRows_spec hs1 (pivotSearch s.1 n j).1 j hmi2 hj
  obtain ⟨hs3, hc3⟩ := eliminate_spec hs2 j
  generalize hmi : (pivotSearch s.1 n j).1 = mi at *
  generalize hmj : (pivotSearch s.1 n j).2.1 = mj at *
  generalize hm1 : swapColumns s.1 n mj j = mx1 at *
  generalize hm2 : swapRows mx1 mi j = mx2 at *
  have hm3 : (pivotStep n j s).1 = eliminate mx2 n j := by
    rw [pivotStep_matrix, hmi, hmj, hm1, hm2]
  have e2 : ∀ r c, mget mx2 r c = mget s.1 (Equiv.swap mi j r) (Equiv.swap mj j c) := by
    intro r c; rw [hc2, hc1]
  have hpiv2 : mget mx2 j j ≠ 0 := by
    rw [e2, Equiv.swap_apply_right, Equiv.swap_apply_right]; exact hpiv
  have low2 : ∀ r k, k < j → k < r → r < n → mget mx2 r k = 0 := by
    intro r k hk hr hrn
    rw [e2, Equiv.swap_apply_of_ne_of_ne (a := mj) (b := j) (by omega) (by omega)]
    apply inv.lower _ _ hk _ (swap_lt hmi2 hj hrn)
    rw [Equiv.swap_apply_def]
    split_ifs <;> omega
  refine ⟨?_, ?_, ?_, ?_⟩
  · rw [hm3]; exact hs3
  · rw [hm3, det_eq_of_rowCombination j hj hc3, det_zero_iff_of_rowSwap mi j hmi2 hj hc2,
      det_zero_iff_of_colSwap mj j hmj2 hj hc1]
    exact inv.detIff
  · intro i k hk hki hin
    rw [hm3, hc3]
    by_cases hkj : k < j
    · have h1 : mget mx2 i k = 0 := low2 i k hkj hki hin
      have h2 : mget mx2 j k = 0 := low2 j k hkj hkj hj
      split_ifs <;> simp [h1, h2]
    · have hkj2 : k = j := by omega
      subst hkj2
      rw [if_pos ⟨hki, hin⟩, div_mul_cancel₀ _ hpiv2, sub_self]
  · intro k hk
    rw [hm3, hc3]
    by_cases hkj : k < j
    · rw [if_neg (by omega), e2,
        Equiv.swap_apply_of_ne_of_ne (a := mi) (b := j) (by omega) (by omega),
        Equiv.swap_apply_of_ne_of_ne (a := mj) (b := j) (by omega) (by omega)]
      exact inv.diag k hkj
    · have hkj2 : k = j := by omega
      subst hkj2
      rw [if_neg (by omega)]
      exact hpiv2

theorem det_ne_zero_of_triangular {n : Nat} {mx : List (List ℚ)}
    (lower : ∀ i k, k < i → i < n → mget mx i k = 0)
    (diag : ∀ k, k < n → mget mx k k ≠ 0) : (blockMatrix n mx).det ≠ 0 := by
  have htri : (blockMatrix n mx).BlockTriangular id := by
    intro i k hki
    exact lower i.val k.val hki i.isLt
  rw [Matrix.det_of_upperTriangular htri]
  exact Finset.prod_ne_zero_iff.mpr (fun i _ => diag i.val i.isLt)

/-- When no scan of the elimination loop finds magnitude `0`, the input
block is non-singular. -/
theorem det_ne_zero_of_pivots {n : Nat} {A : List (List ℚ)} (hs : Shape n A)
    (hp : ∀ j, j < n → (pivotSearch (stateBefore A n j).1 n j).2.2 ≠ 0) :
    (blockMatrix n A).det ≠ 0 := by
  have htri : ∀ j, j ≤ n → TriInv n A j (stateBefore A n j) := by
    intro j
    induction j with
    | zero =>
      intro _
      rw [stateBefore_zero]
      exact ⟨hs, Iff.rfl, fun i k hk => absurd hk (Nat.not_lt_zero k),
        fun k hk => absurd hk (Nat.not_lt_zero k)⟩
    | succ j ih =>
      intro hj
      rw [stateBefore_succ]
      exact pivotStep_tri hj (ih (le_of_lt hj)) (hp j hj)
  have hfin := htri n (le_refl n)
  intro h0
  exact det_ne_zero_of_triangular (fun i k hk hi => hfin.lower i k (lt_trans hk hi) hk hi)
    hfin.diag (hfin.detIff.mpr h0)

/-- The row `j` is not written by the elimination loop of pivot step `j`,
at any of its iterations. -/
theorem eliminate_prefix_row {n : Nat} {mx : List (List ℚ)} (hs : Shape n mx) (j i : Nat)
    (hji : j + 1 ≤ i) (hin : i ≤ n) (c : Nat) :
    mget (forLoop (j + 1) i (fun i acc =>
        let div := mget acc i j / mget acc j j
        forLoop 0 (n + 1) (fun k acc2 =>
          mset acc2 i k (mget acc2 i k - div * mget acc2 j k)) acc) mx) j c = mget mx j c := by
  have key := forLoop_inv
    (fun _ acc => Shape n acc ∧ ∀ c, mget acc j c = mget mx j c)
    (fun i acc =>
      let div := mget acc i j / mget acc j j
      forLoop 0 (n + 1) (fun k acc2 =>
        mset acc2 i k (mget acc2 i k - div * mget acc2 j k)) acc) mx hji
    ⟨hs, fun _ => rfl⟩
    (by
      rintro r acc hjr hr ⟨hsa, hacc⟩
      have hne : j ≠ r := by omega
      obtain ⟨hs2, hrow⟩ := eliminateRow_spec hsa r j (mget acc r j / mget acc j j)
        (lt_of_lt_of_le hr hin) hne
      refine ⟨hs2, fun c => ?_⟩
      show mget (forLoop 0 (n + 1) _ acc) j c = _
      rw [hrow j c, if_neg hne, hacc c])
  exact key.2 c

/-- C11: over exact arithmetic and for every matrix with `n` rows of `n + 1`
entries, some scan of the elimination loop of `solve` finds the maximum
magnitude `0` exactly when the leading block is singular; for a non-singular
block every divisor `mx[j][j]` read by the elimination loop (at each of its
iterations) and every divisor `mx[i][i]` of back-substitution is nonzero. -/
theorem zero_pivot_iff_singular (n : Nat) (mx : List (List ℚ)) (hrows : mx.length = n)
    (hcols : ∀ row ∈ mx, row.length = n + 1) :
    ((∃ j, j < n ∧ (pivotSearch (stateBefore mx n j).1 n j).2.2 = 0) ↔
        (blockMatrix n mx).det = 0) ∧
      ((blockMatrix n mx).det ≠ 0 →
        (∀ j i, j < n → j + 1 ≤ i → i ≤ n →
          mget (forLoop (j + 1) i (fun i acc =>
              let div := mget acc i j / mget acc j j
              forLoop 0 (n + 1) (fun k acc2 =>
                mset acc2 i k (mget acc2 i k - div * mget acc2 j k)) acc)
            (swapRows (swapColumns (stateBefore mx n j).1 n
              (pivotSearch (stateBefore mx n j).1 n j).2.1 j)
              (pivotSearch (stateBefore mx n j).1 n j).1 j)) j j ≠ 0) ∧
        ∀ i, i < n → mget (elimination mx n).1 i i ≠ 0) := by
  have hs := shape_of_rows hrows hcols
  have hnz : (blockMatrix n mx).det ≠ 0 → ∀ j, j < n →
      j ≤ (pivotSearch (stateBefore mx n j).1 n j).1 ∧
      (pivotSearch (stateBefore mx n j).1 n j).1 < n ∧
      j ≤ (pivotSearch (stateBefore mx n j).1 n j).2.1 ∧
      (pivotSearch (stateBefore mx n j).1 n j).2.1 < n ∧
      mget (stateBefore mx n j).1 (pivotSearch (stateBefore mx n j).1 n j).1
        (pivotSearch (stateBefore mx n j).1 n j).2.1 ≠ 0 := fun hdet j hj =>
    pivotSearch_nonzero (stateBefore mx n j).1 n j (le_of_lt hj)
      (exists_trailing_nonzero hj (stateBefore_inv hs hdet j (le_of_lt hj)))
  refine ⟨⟨?_, ?_⟩, fun hdet => ⟨?_, (elimination_inv hs hdet).diag⟩⟩
  · rintro ⟨j, hj, h0⟩
    by_contra hdet
    obtain ⟨h1, h2, h3, h4, h5⟩ := hnz hdet j hj
    have hle := (pivotSearch_spec (stateBefore mx n j).1 n j (le_of_lt hj)).2 _ _ h1 h2 h3 h4
    rw [h0] at hle
    exact h5 (abs_eq_zero.mp (le_antisymm hle (abs_nonneg _)))
  · intro h0
    by_contra hcon
    apply det_ne_zero_of_pivots hs _ h0
    intro j hj hz
    exact hcon ⟨j, hj, hz⟩
  · intro j i hj hji hin
    obtain ⟨h1, h2, h3, h4, h5⟩ := hnz hdet j hj
    have hsj := (stateBefore_shape mx hs j (le_of_lt hj)).1
    obtain ⟨hs1, hc1⟩ := swapColumns_spec hsj (pivotSearch (stateBefore mx n j).1 n j).2.1 j
      (le_of_lt h4) (le_of_lt hj)
    obtain ⟨hs2, hc2⟩ := swapRows_spec hs1 (pivotSearch (stateBefore mx n j).1 n j).1 j h2 hj
    rw [eliminate_prefix_row hs2 j i hji hin j, hc2, hc1, Equiv.swap_apply_right,
      Equiv.swap_apply_right]
    exact h5

theorem zero_pivot_iff_singular_witness :
    (∃ j, j < 2 ∧ (pivotSearch (stateBefore [[1, 1, 2], [1, 1, 2]] 2 j).1 2 j).2.2 = 0) ↔
      (blockMatrix 2 [[1, 1, 2], [1, 1, 2]]).det = 0 :=
  (zero_pivot_iff_singular 2 [[1, 1, 2], [1, 1, 2]] rfl (by decide)).1

/-! ## The result when the budget is used up, and the empty budget -/

theorem newtonLoop_no_convergence (ctx : Context) (fuel : Nat) (f : List ℚ → List ℚ)
    (n : Nat) (hf : n < fuel) :
    ∀ m done previous next, previous.length = n → next.length = n →
      (∀ k, k < m + 1 → ∀ a b, newtonIterate ctx fuel f previous k = some a →
        newtonIterate ctx fuel f previous (k + 1) = some b →
        ¬ residual a b < ctx.newton_precision) →
      ∃ x, newtonIterate ctx fuel f previous m = some x ∧
        newtonLoop ctx fuel f (m + 1) done previous next = some ⟨x, done + (m + 1)⟩ := by
  intro m
  induction m with
  | zero =>
    intro done previous next h1 h2 hno
    obtain ⟨x1, hx1, _⟩ := newtonStep_total ctx fuel f previous
      (List.replicate previous.length 0) (by simp) (by rw [h1]; exact hf)
    have hstep : newtonStep ctx fuel f previous next = some x1 := by
      rw [newtonStep_congr ctx fuel f previous next (List.replicate previous.length 0)
        (by rw [h2, h1]) (by simp)]
      exact hx1
    have hnc : ¬ residual previous x1 < ctx.newton_precision :=
      hno 0 (Nat.succ_pos 0) previous x1 rfl (by
        show (some previous).bind _ = _
        rw [Option.some_bind]; exact hx1)
    refine ⟨previous, rfl, ?_⟩
    rw [newtonLoop_succ ctx fuel f 0 done previous next x1 hstep, if_neg hnc]
    rfl
  | succ m ih =>
    intro done previous next h1 h2 hno
    obtain ⟨x1, hx1, hl1⟩ := newtonStep_total ctx fuel f previous
      (List.replicate previous.length 0) (by simp) (by rw [h1]; exact hf)
    have hstep : newtonStep ctx fuel f previous next = some x1 := by
      rw [newtonStep_congr ctx fuel f previous next (List.replicate previous.length 0)
        (by rw [h2, h1]) (by simp)]
      exact hx1
    have hshift : ∀ k, newtonIterate ctx fuel f previous (k + 1) =
        newtonIterate ctx fuel f x1 k := by
      intro k
      rw [newtonIterate_succ_left, hx1]
      rfl
    have hnc : ¬ residual previous x1 < ctx.newton_precision :=
      hno 0 (Nat.succ_pos _) previous x1 rfl (by rw [hshift]; rfl)
    obtain ⟨x, hx, hloop⟩ := ih (done + 1) x1 previous (by rw [hl1, h1]) h1
      (fun k hk a b ha hb => hno (k + 1) (by omega) a b
        (by rw [hshift]; exact ha) (by rw [hshift]; exact hb))
    refine ⟨x, by rw [hshift]; exact hx, ?_⟩
    rw [newtonLoop_succ ctx fuel f (m + 1) done previous next x1 hstep, if_neg hnc, hloop]
    congr 2
    omega

/-- C15: when the convergence test never succeeds within the budget
`N ≥ 1`, `solve_newton` returns the input `x_(N-1)` of the last Newton step,
not its output `x_N` (all `N` loop bodies having run); with `N = 1` it
returns the initial guess unchanged. -/
theorem exhausted_budget_returns_previous_iterate (ctx : Context) (fuel : Nat)
    (f : List ℚ → List ℚ) (x0 : List ℚ) (N : Nat) (hN : 1 ≤ N) (hfuel : x0.length < fuel)
    (hno : ∀ k, k < N → ∀ a b, newtonIterate ctx fuel f x0 k = some a →
      newtonIterate ctx fuel f x0 (k + 1) = some b →
      ¬ residual a b < ctx.newton_precision) :
    (∃ x, newtonIterate ctx fuel f x0 (N - 1) = some x ∧
        solve_newton ctx fuel f x0 N = some ⟨x, N⟩) ∧
      (N = 1 → solve_newton ctx fuel f x0 N = some ⟨x0, 1⟩) := by
  obtain ⟨m, rfl⟩ : ∃ m, N = m + 1 := ⟨N - 1, by omega⟩
  obtain ⟨x, hx, hloop⟩ := newtonLoop_no_convergence ctx fuel f x0.length hfuel m 0 x0
    (List.replicate x0.length 0) rfl (by simp) hno
  have hrun : solve_newton ctx fuel f x0 (m + 1) = some ⟨x, m + 1⟩ := by
    unfold solve_newton
    rw [hloop]
    congr 2
    omega
  refine ⟨⟨x, hx, hrun⟩, fun h1 => ?_⟩
  obtain rfl : m = 0 := by omega
  rw [hrun]
  have : x = x0 := (Option.some.inj hx).symm
  rw [this]

theorem exhausted_budget_returns_previous_iterate_witness :
    (∃ x, newtonIterate ⟨1 / 1000000, 1⟩ 2 squareExample [1] (2 - 1) = some x ∧
        solve_newton ⟨1 / 1000000, 1⟩ 2 squareExample [1] 2 = some ⟨x, 2⟩) ∧
      (2 = 1 → solve_newton ⟨1 / 1000000, 1⟩ 2 squareExample [1] 2 = some ⟨[1], 1⟩) :=
  exhausted_budget_returns_previous_iterate ⟨1 / 1000000, 1⟩ 2 squareExample [1] 2
    (by decide) (by decide)
    (by
      have h1 : newtonIterate ⟨1 / 1000000, 1⟩ 2 squareExample [1] 1 = some [3 / 2] := by
        with_unfolding_all decide
      have h2 : newtonIterate ⟨1 / 1000000, 1⟩ 2 squareExample [1] 2 = some [17 / 12] := by
        with_unfolding_all decide
      intro k hk a b ha hb
      have hk2 : k = 0 ∨ k = 1 := by omega
      rcases hk2 with rfl | rfl
      · rw [h1] at hb
        obtain rfl : [1] = a := Option.some.inj ha
        obtain rfl : [3 / 2] = b := Option.some.inj hb
        with_unfolding_all decide
      · rw [h1] at ha
        rw [h2] at hb
        obtain rfl : [3 / 2] = a := Option.some.inj ha
        obtain rfl : [17 / 12] = b := Option.some.inj hb
        with_unfolding_all decide)

/-- C18: with `max_iterations = 0` no loop body runs and `F` is never
evaluated (the log of its evaluations is empty and the result does not
depend on `F`); `solve_newton` returns the all-zero vector of length `n`,
which differs from every other initial guess; for every `max_iterations` the
returned vector has length `n`. -/
theorem empty_budget_returns_zero_vector (ctx : Context) (fuel : Nat) (f : List ℚ → List ℚ)
    (x0 : List ℚ) (N : Nat) (hfuel : x0.length < fuel) :
    solve_newton ctx fuel f x0 0 = some ⟨List.replicate x0.length 0, 0⟩ ∧
      solve_newton_calls ctx fuel f x0 0 = [] ∧
      (∀ g : List ℚ → List ℚ, solve_newton ctx fuel g x0 0 = solve_newton ctx fuel f x0 0) ∧
      (x0 ≠ List.replicate x0.length 0 →
        solve_newton ctx fuel f x0 0 ≠ some ⟨x0, 0⟩) ∧
      ∃ run, solve_newton ctx fuel f x0 N = some run ∧ run.output.length = x0.length := by
  refine ⟨rfl, rfl, fun _ => rfl, fun hne h => ?_, ?_⟩
  · have h2 : (some ⟨List.replicate x0.length 0, 0⟩ : Option Run) = some ⟨x0, 0⟩ := h
    have h3 := congrArg Run.output (Option.some.inj h2)
    exact hne h3.symm
  · exact newtonLoop_total ctx fuel f x0.length hfuel N 0 x0 (List.replicate x0.length 0)
      rfl (by simp)

theorem empty_budget_returns_zero_vector_witness :
    solve_newton ⟨1 / 1000, 1 / 100000⟩ 3 affineExample [5, 7] 0 =
      some ⟨List.replicate ([5, 7] : List ℚ).length 0, 0⟩ :=
  (empty_budget_returns_zero_vector ⟨1 / 1000, 1 / 100000⟩ 3 affineExample [5, 7] 4
    (by decide)).1

/-! ## Affine systems -/

theorem getD_map_range (n : Nat) (g : Nat → ℚ) (r : Nat) (hr : r < n) :
    ((List.range n).map g).getD r 0 = g r := by
  rw [getD_of_lt _ r 0 (by simp [hr])]
  simp

theorem list_eq_of_getD {a b : List ℚ} (hl : a.length = b.length)
    (h : ∀ k, k < a.length → a.getD k 0 = b.getD k 0) : a = b := by
  apply List.ext_get hl
  intro k h1 h2
  rw [← getD_of_lt a k 0 h1, ← getD_of_lt b k 0 h2]
  exact h k h1

theorem sum_zipWith_mul (row x : List ℚ) :
    (List.zipWith (fun p q => p * q) row x).sum =
      ∑ k ∈ Finset.range x.length, row.getD k 0 * x.getD k 0 := by
  induction x generalizing row with
  | nil => simp
  | cons a t ih =>
    cases row with
    | nil =>
      simp only [List.zipWith_nil_left, List.sum_nil]
      symm
      apply Finset.sum_eq_zero
      intro k _
      rw [getD_of_length_le [] k 0 (Nat.zero_le k), zero_mul]
    | cons p rest =>
      rw [List.zipWith_cons_cons, List.sum_cons, ih rest, List.length_cons,
        Finset.sum_range_succ']
      rw [add_comm]
      rfl

theorem getD_multiply (m : List (List ℚ)) (x : List ℚ) (r : Nat) (hr : r < m.length) :
    (multiply m x).getD r 0 = ∑ k ∈ Finset.range x.length, mget m r k * x.getD k 0 := by
  unfold multiply
  rw [getD_of_lt _ r 0 (by simp [hr])]
  simp only [List.get_eq_getElem, List.getElem_map]
  rw [sum_zipWith_mul]
  unfold mget
  rw [getD_of_lt m r [] hr]
  rfl

theorem affineSystem_length (n : Nat) (A : Nat → Nat → ℚ) (b : Nat → ℚ) (x : List ℚ) :
    (affineSystem n A b x).length = n := by
  simp [affineSystem]

theorem affineSystem_getD (n : Nat) (A : Nat → Nat → ℚ) (b : Nat → ℚ) (x : List ℚ) (r : Nat)
    (hr : r < n) :
    (affineSystem n A b x).getD r 0 = (∑ k ∈ Finset.range n, A r k * x.getD k 0) - b r :=
  getD_map_range n _ r hr

/-- The finite-difference Jacobian of an affine system is its matrix. -/
theorem derive_affine (ctx : Context) (n : Nat) (A : Nat → Nat → ℚ) (b : Nat → ℚ)
    (x : List ℚ) (hh : ctx.newton_derive_step ≠ 0) (hx : x.length = n) (r c : Nat)
    (hr : r < n) (hc : c < n) :
    mget (derive ctx (create n (n + 1)) (affineSystem n A b) x) r c = A r c := by
  rw [(derive_spec ctx (shape_create n) (affineSystem n A b) x).2 r c, if_pos ⟨hr, hc⟩]
  unfold deriveColumn
  simp only []
  rw [getD_divide, getD_subtract _ _ _ (by rw [affineSystem_length, affineSystem_length]),
    affineSystem_getD n A b _ r hr, affineSystem_getD n A b _ r hr]
  have hsum : (∑ k ∈ Finset.range n,
        A r k * (x.set c (x.getD c 0 + ctx.newton_derive_step)).getD k 0) -
      ∑ k ∈ Finset.range n,
        A r k * (x.set c (x.getD c 0 - ctx.newton_derive_step)).getD k 0 =
      A r c * (2 * ctx.newton_derive_step) := by
    rw [← Finset.sum_sub_distrib]
    have hterm : ∀ k ∈ Finset.range n,
        A r k * (x.set c (x.getD c 0 + ctx.newton_derive_step)).getD k 0 -
          A r k * (x.set c (x.getD c 0 - ctx.newton_derive_step)).getD k 0 =
        if c = k then A r c * (2 * ctx.newton_derive_step) else 0 := by
      intro k _
      rw [getD_set, getD_set]
      by_cases hck : c = k
      · subst hck
        rw [if_pos ⟨rfl, by rw [hx]; exact hc⟩, if_pos ⟨rfl, by rw [hx]; exact hc⟩, if_pos rfl]
        ring
      · rw [if_neg (fun hh2 => hck hh2.1), if_neg (fun hh2 => hck hh2.1), if_neg hck, sub_self]
    rw [Finset.sum_congr rfl hterm, Finset.sum_ite_eq (Finset.range n) c, 
      if_pos (Finset.mem_range.mpr hc)]
  have e : ∀ p q s t : ℚ, p - s - (q - t) = p - q - (s - t) := fun p q s t => by ring
  rw [e, hsum, sub_self, sub_zero]
  field_simp

/-- The augmented matrix built by a Newton step on an affine system is
`[A | b]`, at every point. -/
theorem newtonMatrix_affine (ctx : Context) (n : Nat) (A : Nat → Nat → ℚ) (b : Nat → ℚ)
    (x : List ℚ) (hh : ctx.newton_derive_step ≠ 0) (hx : x.length = n) :
    (∀ r c, r < n → c < n →
      mget (plug_vector (derive ctx (create n (n + 1)) (affineSystem n A b) x)
        (subtract (multiply (derive ctx (create n (n + 1)) (affineSystem n A b) x) x)
          (affineSystem n A b x))) r c = A r c) ∧
      ∀ r, r < n →
        mget (plug_vector (derive ctx (create n (n + 1)) (affineSystem n A b) x)
          (subtract (multiply (derive ctx (create n (n + 1)) (affineSystem n A b) x) x)
            (affineSystem n A b x))) r n = b r := by
  obtain ⟨hs1, _⟩ := derive_spec ctx (shape_create n) (affineSystem n A b) x
  have hp := (plug_vector_spec hs1 (subtract (multiply
    (derive ctx (create n (n + 1)) (affineSystem n A b) x) x) (affineSystem n A b x))).2
  constructor
  · intro r c hr hc
    rw [hp r c, if_neg (fun h2 => absurd h2.2 (Nat.ne_of_lt hc))]
    exact derive_affine ctx n A b x hh hx r c hr hc
  · intro r hr
    rw [hp r n, if_pos ⟨hr, rfl⟩, getD_subtract _ _ _ (by
      rw [affineSystem_length]; unfold multiply; rw [List.length_map, hs1.1]),
      getD_multiply _ _ _ (by rw [hs1.1]; exact hr), affineSystem_getD n A b x r hr, hx]
    have : ∑ k ∈ Finset.range n,
        mget (derive ctx (create n (n + 1)) (affineSystem n A b) x) r k * x.getD k 0 =
        ∑ k ∈ Finset.range n, A r k * x.getD k 0 := by
      apply Finset.sum_congr rfl
      intro k hk
      rw [derive_affine ctx n A b x hh hx r k hr (Finset.mem_range.mp hk)]
    rw [this]
    ring

theorem exists_root_of_det_ne_zero (n : Nat) (A : Nat → Nat → ℚ) (b : Nat → ℚ)
    (hdet : (Matrix.of (fun (i k : Fin n) => A i.val k.val)).det ≠ 0) :
    ∃ x : Nat → ℚ, ∀ i, i < n → ∑ k ∈ Finset.range n, A i k * x k = b i := by
  let M : Matrix (Fin n) (Fin n) ℚ := Matrix.of (fun (i k : Fin n) => A i.val k.val)
  let v : Fin n → ℚ := fun i => b i.val
  have hy : M.mulVec (M⁻¹.mulVec v) = v := by
    rw [Matrix.mulVec_mulVec, Matrix.mul_nonsing_inv M (isUnit_iff_ne_zero.mpr hdet),
      Matrix.one_mulVec]
  refine ⟨fun k => if hk : k < n then (M⁻¹.mulVec v) ⟨k, hk⟩ else 0, fun i hi => ?_⟩
  have := congrFun hy ⟨i, hi⟩
  simp only [Matrix.mulVec, Matrix.dotProduct] at this
  rw [Finset.sum_range]
  simp only [Fin.is_lt, dite_true]
  exact this

/-- One Newton step on a non-singular affine system lands on the root, from
every point. -/
theorem newtonStep_affine (ctx : Context) (fuel n : Nat) (A : Nat → Nat → ℚ) (b : Nat → ℚ)
    (hn : 1 ≤ n) (hh : ctx.newton_derive_step ≠ 0)
    (hdet : (Matrix.of (fun (i k : Fin n) => A i.val k.val)).det ≠ 0) (hfuel : n < fuel)
    (root : Nat → ℚ) (hroot : ∀ i, i < n → ∑ k ∈ Finset.range n, A i k * root k = b i)
    (x buf : List ℚ) (hx : x.length = n) (hbuf : buf.length = n) :
    newtonStep ctx fuel (affineSystem n A b) x buf = some ((List.range n).map root) := by
  obtain ⟨hA, hb⟩ := newtonMatrix_affine ctx n A b x hh hx
  have hs := newtonMatrix_shape ctx (affineSystem n A b) x
  rw [hx] at hs
  have hblock : blockMatrix n (plug_vector (derive ctx (create n (n + 1)) (affineSystem n A b) x)
      (subtract (multiply (derive ctx (create n (n + 1)) (affineSystem n A b) x) x)
        (affineSystem n A b x))) = Matrix.of (fun (i k : Fin n) => A i.val k.val) := by
    ext i k
    simp only [blockMatrix, Matrix.of_apply]
    exact hA i.val k.val i.isLt k.isLt
  obtain ⟨out, h1, h2, h3⟩ := solve_agrees_with_solution n _ buf fuel hn hs hbuf
    (by rw [hblock]; exact hdet) hfuel
  have hsol : ∀ i, i < n → ∑ k ∈ Finset.range n,
      mget (plug_vector (derive ctx (create n (n + 1)) (affineSystem n A b) x)
        (subtract (multiply (derive ctx (create n (n + 1)) (affineSystem n A b) x) x)
          (affineSystem n A b x))) i k * root k =
      mget (plug_vector (derive ctx (create n (n + 1)) (affineSystem n A b) x)
        (subtract (multiply (derive ctx (create n (n + 1)) (affineSystem n A b) x) x)
          (affineSystem n A b x))) i n := by
    intro i hi
    rw [hb i hi, ← hroot i hi]
    apply Finset.sum_congr rfl
    intro k hk
    rw [hA i k hi (Finset.mem_range.mp hk)]
  have hout : out = (List.range n).map root := by
    apply list_eq_of_getD (by simp [h2])
    intro k hk
    rw [h2] at hk
    rw [h3 root hsol k hk, getD_map_range n root k hk]
  unfold newtonStep
  simp only []
  rw [hx, h1, hout]

theorem residual_self (a : List ℚ) : residual a a = 0 := by
  rw [residual_eq_sum]
  apply Finset.sum_eq_zero
  intro i _
  rw [sub_self, mul_zero]

/-- C16: for an affine system `F(x) = A·x - b` with non-singular `A`
(`n ≥ 1`), every initial guess, nonzero derivative step, positive tolerance and
`max_iterations ≥ 2`, over exact arithmetic `solve_newton` returns the root
of `A·x = b`: the finite-difference Jacobian is `A`, every Newton step lands
on the root, and the step from the root reproduces it at squared distance 0. -/
theorem affine_system_returns_root (ctx : Context) (fuel n : Nat) (A : Nat → Nat → ℚ)
    (b : Nat → ℚ) (x0 : List ℚ) (N : Nat) (hn : 1 ≤ n)
    (hh : ctx.newton_derive_step ≠ 0) (hp : 0 < ctx.newton_precision)
    (hdet : (Matrix.of (fun (i k : Fin n) => A i.val k.val)).det ≠ 0)
    (hx0 : x0.length = n) (hN : 2 ≤ N) (hfuel : n < fuel) :
    ∃ root : List ℚ, root.length = n ∧
      (∀ i, i < n → ∑ k ∈ Finset.range n, A i k * root.getD k 0 = b i) ∧
      (∀ x r c, x.length = n → r < n → c < n →
        mget (derive ctx (create n (n + 1)) (affineSystem n A b) x) r c = A r c) ∧
      (∀ x buf, x.length = n → buf.length = n →
        newtonStep ctx fuel (affineSystem n A b) x buf = some root) ∧
      residual root root = 0 ∧
      ∃ it, it ≤ 2 ∧ solve_newton ctx fuel (affineSystem n A b) x0 N = some ⟨root, it⟩ := by
  obtain ⟨rt, hrt⟩ := exists_root_of_det_ne_zero n A b hdet
  have hstep := newtonStep_affine ctx fuel n A b hn hh hdet hfuel rt hrt
  have hlen : ((List.range n).map rt).length = n := by simp
  refine ⟨(List.range n).map rt, hlen, fun i hi => ?_,
    fun x r c hx hr hc => derive_affine ctx n A b x hh hx r c hr hc, hstep,
    residual_self _, ?_⟩
  · rw [← hrt i hi]
    apply Finset.sum_congr rfl
    intro k hk
    rw [getD_map_range n rt k (Finset.mem_range.mp hk)]
  · obtain ⟨N2, rfl⟩ : ∃ N2, N = N2 + 2 := ⟨N - 2, by omega⟩
    unfold solve_newton
    rw [newtonLoop_succ ctx fuel _ (N2 + 1) 0 x0 _ _
      (hstep x0 (List.replicate x0.length 0) hx0 (by simp [hx0]))]
    by_cases hc : residual x0 ((List.range n).map rt) < ctx.newton_precision
    · rw [if_pos hc]
      exact ⟨1, by decide, rfl⟩
    · rw [if_neg hc, newtonLoop_succ ctx fuel _ N2 (0 + 1) _ x0 _ (hstep _ x0 hlen hx0),
        if_pos (by rw [residual_self]; exact hp)]
      exact ⟨2, le_refl 2, rfl⟩

theorem affineExampleMatrix_det :
    (Matrix.of (fun (i k : Fin 2) => affineExampleMatrix i.val k.val)).det ≠ 0 := by
  rw [Matrix.det_fin_two]
  simp [affineExampleMatrix]
  norm_num

theorem affine_system_returns_root_witness :
    ∃ root : List ℚ, root.length = 2 ∧
      ∃ it, it ≤ 2 ∧
        solve_newton ⟨1 / 1000, 1 / 100000⟩ 3
          (affineSystem 2 affineExampleMatrix affineExampleRhs) [0, 0] 2 = some ⟨root, it⟩ :=
  let ⟨root, h1, _, _, _, _, h2⟩ :=
    affine_system_returns_root ⟨1 / 1000, 1 / 100000⟩ 3 2 affineExampleMatrix affineExampleRhs
      [0, 0] 2 (by decide) (by norm_num) (by norm_num) affineExampleMatrix_det rfl (by decide)
      (by decide)
  ⟨root, h1, h2⟩

/-! ## Counting the executions of the restore loop -/

theorem restoreWhileLog_marked (n i fuel next : Nat) (s : (List ℚ × List Nat) × List Nat)
    (h : s.1.2.getD next 0 = n) : restoreWhileLog n i (fuel + 1) next s = some s := by
  show (if s.1.2.getD next 0 ≠ n then _ else some s) = some s
  rw [if_neg (not_not.mpr h)]

theorem restoreWhileLog_unmarked (n i fuel next : Nat) (s : (List ℚ × List Nat) × List Nat)
    (h : s.1.2.getD next 0 ≠ n) :
    restoreWhileLog n i (fuel + 1) next s =
      restoreWhileLog n i fuel (s.1.2.getD next 0)
        ((swapRes s.1.1 i (s.1.2.getD next 0), s.1.2.set next n), s.2 ++ [next]) := by
  show (if s.1.2.getD next 0 ≠ n then _ else some s) = _
  rw [if_pos h]

theorem logInv_step {n : Nat} {x_order log : List Nat} {next : Nat} (h : LogInv n x_order log)
    (hn : next < n) (hl : x_order.length = n) (hu : x_order.getD next 0 ≠ n) :
    LogInv n (x_order.set next n) (log ++ [next]) := by
  obtain ⟨hnd, hmem⟩ := h
  have hnot : next ∉ log := fun hin => hu ((hmem next).mp hin).2
  refine ⟨List.Nodup.append hnd (List.nodup_singleton next) ?_, fun k => ?_⟩
  · intro a ha hb
    rw [List.mem_singleton] at hb
    exact hnot (hb ▸ ha)
  · rw [List.mem_append, List.mem_singleton, hmem k, getD_set]
    by_cases hk : next = k
    · subst hk
      rw [if_pos ⟨rfl, by rw [hl]; exact hn⟩]
      exact ⟨fun _ => ⟨hn, rfl⟩, fun _ => Or.inr rfl⟩
    · rw [if_neg (fun hh => hk hh.1)]
      exact ⟨fun h2 => h2.resolve_right (fun hh => hk hh.symm), fun h2 => Or.inl h2⟩

theorem restoreWhileLog_open {n : Nat} {p : List Nat} {r : List ℚ} {i : Nat}
    (hp : ValidOrder n p) :
    ∀ fuel next s log, RestoreOpen n p r i next s → LogInv n s.2 log →
      unmarkedCount n s.2 < fuel →
      ∃ s2 log2, restoreWhileLog n i fuel next (s, log) = some (s2, log2) ∧
        restoreWhile n i fuel next s = some s2 ∧ LogInv n s2.2 log2 := by
  intro fuel
  induction fuel with
  | zero => intro next s log _ _ hc; exact absurd hc (Nat.not_lt_zero _)
  | succ f ih =>
    intro next s log h hlog hc
    obtain ⟨_, hcount, _, hcase⟩ := restoreOpen_step hp h
    have hlog2 := logInv_step hlog h.hnext h.lenOrd h.unmarked
    rw [restoreWhileLog_unmarked n i f next (s, log) h.unmarked,
      restoreWhile_unmarked n i f next s h.unmarked]
    rcases hcase with ⟨hcl, _, _⟩ | hopen
    · obtain ⟨f2, rfl⟩ : ∃ f2, f = f2 + 1 := ⟨f - 1, by omega⟩
      rw [restoreWhile_marked n i f2 _ _ hcl]
      exact ⟨_, _, restoreWhileLog_marked n i f2 _ _ hcl, rfl, hlog2⟩
    · exact ih _ _ _ hopen hlog2 (by
        show unmarkedCount n (s.2.set next n) < f
        omega)

/-- The logged restore pass ends with the same state as the restore pass,
and its log lists every slot exactly once. -/
theorem restoreLog_spec {n : Nat} {p : List Nat} {r : List ℚ} {fuel : Nat}
    (hp : ValidOrder n p) (hr : r.length = n) (hf : n < fuel) :
    ∃ s2 log, restoreLog n fuel r p = some (s2, log) ∧ restore n fuel r p = some s2 ∧
      RestoreOuter n p r s2 ∧ (∀ k, k < n → s2.2.getD k 0 = n) ∧ LogInv n s2.2 log := by
  have key := forLoop_inv
    (fun i (acc : Option ((List ℚ × List Nat) × List Nat)) =>
      ∃ s log, acc = some (s, log) ∧
        forLoop 0 i (fun i acc => acc.bind (restoreWhile n i fuel i)) (some (r, p)) = some s ∧
        RestoreOuter n p r s ∧ (∀ k, k < i → s.2.getD k 0 = n) ∧ LogInv n s.2 log)
    (fun i acc => acc.bind (restoreWhileLog n i fuel i)) (some ((r, p), [])) (Nat.zero_le n)
    ⟨(r, p), [], rfl, forLoop_of_le (le_refl 0) _ _, restoreOuter_init hp hr,
      fun k hk => absurd hk (Nat.not_lt_zero k),
      List.nodup_nil, fun k => by
        constructor
        · intro h; exact absurd h (List.not_mem_nil k)
        · rintro ⟨hk, hm⟩
          exact absurd hm (Nat.ne_of_lt (hp.2.1 k hk))⟩
    (by
      rintro i acc - hi ⟨s, log, rfl, hplain, hout, hlow, hlog⟩
      rw [forLoop_succ_right (Nat.zero_le i), hplain]
      show ∃ s2 log2, restoreWhileLog n i fuel i (s, log) = some (s2, log2) ∧
        restoreWhile n i fuel i s = some s2 ∧ _
      by_cases hm : s.2.getD i 0 = n
      · obtain ⟨f2, rfl⟩ : ∃ f2, fuel = f2 + 1 := ⟨fuel - 1, by omega⟩
        rw [restoreWhile_marked n i f2 i s hm]
        refine ⟨s, log, restoreWhileLog_marked n i f2 i (s, log) hm, rfl, hout,
          fun k hk => ?_, hlog⟩
        by_cases hki : k = i
        · rw [hki]; exact hm
        · exact hlow k (by omega)
      · have hopen := restoreOpen_of_outer hout hi hm
        have hcnt := lt_of_le_of_lt (unmarkedCount_le n s.2) hf
        obtain ⟨s2, log2, h1, h2, h3⟩ := restoreWhileLog_open hp fuel i s log hopen hlog hcnt
        obtain ⟨s3, h4, h5, h6, h7⟩ := restoreWhile_open hp fuel i s hopen hcnt
        rw [h2] at h4
        obtain rfl : s2 = s3 := Option.some.inj h4
        refine ⟨s2, log2, h1, h2, h5, fun k hk => ?_, h3⟩
        by_cases hki : k = i
        · rw [hki]; exact h6
        · exact h7 k (hlow k (by omega)))
  obtain ⟨s2, log, h1, h2, h3, h4, h5⟩ := key
  exact ⟨s2, log, h1, h2, h3, h4, h5⟩

/-- C14: the restore pass terminates and visits every slot exactly once: for
every permutation of `0..n-1` held in `x_order` (and fuel above `n`), the body
of the inner `while` loop runs exactly `n` times over the whole pass, the
slots it marks are pairwise distinct and are all of `0..n-1`, and at the end
every entry of `x_order` is the sentinel `n`. -/
theorem restore_marks_each_slot_once (n : Nat) (p : List Nat) (r : List ℚ) (fuel : Nat)
    (hp : p.Perm (List.range n)) (hr : r.length = n) (hfuel : n < fuel) :
    ∃ res x_order log, restoreLog n fuel r p = some ((res, x_order), log) ∧
      restore n fuel r p = some (res, x_order) ∧
      log.length = n ∧ log.Nodup ∧ log.Perm (List.range n) ∧
      x_order = List.replicate n n := by
  obtain ⟨s2, log, h1, h2, h3, h4, h5⟩ := restoreLog_spec (validOrder_of_perm hp) hr hfuel
  have hperm : log.Perm (List.range n) := by
    rw [List.perm_ext_iff_of_nodup h5.1 (List.nodup_range n)]
    intro k
    rw [h5.2 k, List.mem_range]
    exact ⟨fun h => h.1, fun h => ⟨h, h4 k h⟩⟩
  refine ⟨s2.1, s2.2, log, h1, h2, ?_, h5.1, hperm, ?_⟩
  · rw [hperm.length_eq, List.length_range]
  · apply List.ext_get (by rw [h3.lenOrd, List.length_replicate])
    intro k hk1 hk2
    rw [← getD_of_lt s2.2 k 0 hk1, h4 k (by rw [← h3.lenOrd]; exact hk1)]
    simp

theorem restore_marks_each_slot_once_witness :
    ∃ res x_order log, restoreLog 5 6 [10, 20, 30, 40, 50] [1, 2, 0, 4, 3] =
        some ((res, x_order), log) ∧
      restore 5 6 [10, 20, 30, 40, 50] [1, 2, 0, 4, 3] = some (res, x_order) ∧
      log.length = 5 ∧ log.Nodup ∧ log.Perm (List.range 5) ∧
      x_order = List.replicate 5 5 :=
  restore_marks_each_slot_once 5 [1, 2, 0, 4, 3] [10, 20, 30, 40, 50] 6 (by decide) rfl
    (by decide)

/-! ## Checked accesses -/

theorem readVec_ok {α : Type} (v : List α) (i : Nat) (d : α) (h : i < v.length) :
    readVec v i d = Except.ok (v.getD i d) := by
  unfold readVec
  rw [if_pos h]

theorem writeVec_ok {α : Type} (v : List α) (i : Nat) (a : α) (h : i < v.length) :
    writeVec v i a = Except.ok (v.set i a) := by
  unfold writeVec
  rw [if_pos h]

theorem readMx_ok {n : Nat} {mx : List (List ℚ)} (hs : Shape n mx) (i k : Nat) (hi : i < n)
    (hk : k ≤ n) : readMx mx i k = Except.ok (mget mx i k) := by
  unfold readMx
  rw [if_pos ⟨by rw [hs.1]; exact hi, by rw [hs.2 i hi]; omega⟩]

theorem writeMx_ok {n : Nat} {mx : List (List ℚ)} (hs : Shape n mx) (i k : Nat) (v : ℚ)
    (hi : i < n) (hk : k ≤ n) : writeMx mx i k v = Except.ok (mset mx i k v) := by
  unfold writeMx
  rw [if_pos ⟨by rw [hs.1]; exact hi, by rw [hs.2 i hi]; omega⟩]

theorem bind_ok {α β : Type} (a : α) (f : α → Checked β) :
    (Except.ok a : Checked α).bind f = f a := rfl

/-- Simulation rule: a checked loop whose body never faults under an
invariant computes what the unchecked loop computes. -/
theorem forLoopC_eq {σ : Type} {lo hi : Nat} (P : Nat → σ → Prop)
    (bodyC : Nat → σ → Checked σ) (body : Nat → σ → σ) (s : σ) (hle : lo ≤ hi) (h0 : P lo s)
    (hstep : ∀ i t, lo ≤ i → i < hi → P i t →
      bodyC i t = Except.ok (body i t) ∧ P (i + 1) (body i t)) :
    forLoopC lo hi bodyC s = Except.ok (forLoop lo hi body s) ∧
      P hi (forLoop lo hi body s) := by
  induction hi, hle using Nat.le_induction with
  | base =>
    unfold forLoopC
    rw [forLoop_of_le (le_refl _), forLoop_of_le (le_refl _)]
    exact ⟨rfl, h0⟩
  | succ m hm ih =>
    obtain ⟨h1, h2⟩ := ih (fun i t a b c => hstep i t a (Nat.lt_succ_of_lt b) c)
    obtain ⟨h3, h4⟩ := hstep m _ hm (Nat.lt_succ_self m) h2
    unfold forLoopC at h1 ⊢
    rw [forLoop_succ_right hm, forLoop_succ_right hm, h1, bind_ok, h3]
    exact ⟨rfl, h4⟩

theorem forLoopDownC_eq {σ : Type} (P : Nat → σ → Prop)
    (bodyC : Nat → σ → Checked σ) (body : Nat → σ → σ) (hi : Nat) (s : σ) (h0 : P hi s)
    (hstep : ∀ i t, i < hi → P (i + 1) t →
      bodyC i t = Except.ok (body i t) ∧ P i (body i t)) :
    forLoopDownC hi bodyC s = Except.ok (forLoopDown hi body s) ∧
      P 0 (forLoopDown hi body s) := by
  induction hi generalizing s with
  | zero =>
    unfold forLoopDownC
    rw [forLoopDown_zero, forLoopDown_zero]
    exact ⟨rfl, h0⟩
  | succ m ih =>
    obtain ⟨h3, h4⟩ := hstep m s (Nat.lt_succ_self m) h0
    obtain ⟨h1, h2⟩ := ih (body m s) h4 (fun i t a b => hstep i t (Nat.lt_succ_of_lt a) b)
    unfold forLoopDownC at h1 ⊢
    rw [forLoopDown_succ, forLoopDown_succ, bind_ok, h3]
    exact ⟨h1, h2⟩

theorem pivotSearchC_eq {n : Nat} {mx : List (List ℚ)} (hs : Shape n mx) (j : Nat)
    (hj : j ≤ n) : pivotSearchC mx n j = Except.ok (pivotSearch mx n j) := by
  unfold pivotSearchC pivotSearch
  refine (forLoopC_eq (fun _ _ => True) _ _ _ hj trivial ?_).1
  intro z s _ hz _
  refine ⟨?_, trivial⟩
  refine (forLoopC_eq (fun _ _ => True) _ _ _ hj trivial ?_).1
  intro t s2 _ ht _
  refine ⟨?_, trivial⟩
  show (readMx mx z t).bind _ = _
  rw [readMx_ok hs z t hz (le_of_lt ht), bind_ok]
  by_cases hc : |mget mx z t| > s2.2.2
  · rw [if_pos hc, if_pos hc, bind_ok]
  · rw [if_neg hc, if_neg hc]

theorem swapColumnsC_eq {n : Nat} {mx : List (List ℚ)} (hs : Shape n mx) (a b : Nat)
    (ha : a ≤ n) (hb : b ≤ n) :
    swapColumnsC mx n a b = Except.ok (swapColumns mx n a b) := by
  unfold swapColumnsC swapColumns
  refine (forLoopC_eq (fun _ acc => Shape n acc) _ _ _ (Nat.zero_le n) hs ?_).1
  intro i acc _ hi hsa
  refine ⟨?_, shape_mset (shape_mset hsa _ _ _) _ _ _⟩
  show (readMx acc i a).bind _ = _
  rw [readMx_ok hsa i a hi ha, bind_ok, readMx_ok hsa i b hi hb, bind_ok,
    writeMx_ok hsa i a _ hi ha, bind_ok, writeMx_ok (shape_mset hsa _ _ _) i b _ hi hb]

theorem swapRowsC_eq (mx : List (List ℚ)) (a b : Nat) (ha : a < mx.length)
    (hb : b < mx.length) : swapRowsC mx a b = Except.ok (swapRows mx a b) := by
  unfold swapRowsC swapRows
  rw [readVec_ok mx a [] ha, bind_ok, readVec_ok mx b [] hb, bind_ok,
    writeVec_ok mx a _ ha, bind_ok, writeVec_ok _ b _ (by rw [List.length_set]; exact hb)]

theorem swapOrderC_eq (x_order : List Nat) (a b : Nat) (ha : a < x_order.length)
    (hb : b < x_order.length) : swapOrderC x_order a b = Except.ok (swapOrder x_order a b) := by
  unfold swapOrderC swapOrder
  rw [readVec_ok x_order a 0 ha, bind_ok, readVec_ok x_order b 0 hb, bind_ok,
    writeVec_ok x_order a _ ha, bind_ok, writeVec_ok _ b _ (by rw [List.length_set]; exact hb)]

theorem swapResC_eq (res : List ℚ) (a b : Nat) (ha : a < res.length) (hb : b < res.length) :
    swapResC res a b = Except.ok (swapRes res a b) := by
  unfold swapResC swapRes
  rw [readVec_ok res a 0 ha, bind_ok, readVec_ok res b 0 hb, bind_ok,
    writeVec_ok res a _ ha, bind_ok, writeVec_ok _ b _ (by rw [List.length_set]; exact hb)]

theorem eliminateC_eq {n : Nat} {mx : List (List ℚ)} (hs : Shape n mx) (j : Nat) (hj : j < n) :
    eliminateC mx n j = Except.ok (eliminate mx n j) := by
  unfold eliminateC eliminate
  refine (forLoopC_eq (fun _ acc => Shape n acc) _ _ _ (Nat.succ_le_of_lt hj) hs ?_).1
  intro i acc hji hi hsa
  have hne : j ≠ i := by omega
  refine ⟨?_, (eliminateRow_spec hsa i j (mget acc i j / mget acc j j) hi hne).1⟩
  show (readMx acc i j).bind _ = _
  rw [readMx_ok hsa i j hi (le_of_lt hj), bind_ok, readMx_ok hsa j j hj (le_of_lt hj), bind_ok]
  refine (forLoopC_eq (fun _ acc2 => Shape n acc2) _ _ _ (Nat.zero_le (n + 1)) hsa ?_).1
  intro k acc2 _ hk hs2
  have hk2 : k ≤ n := Nat.lt_succ_iff.mp hk
  refine ⟨?_, shape_mset hs2 _ _ _⟩
  show (readMx acc2 i k).bind _ = _
  rw [readMx_ok hs2 i k hi hk2, bind_ok, readMx_ok hs2 j k hj hk2, bind_ok,
    writeMx_ok hs2 i k _ hi hk2]

theorem pivotStepC_eq {n j : Nat} {s : List (List ℚ) × List Nat} (hs : Shape n s.1)
    (ho : s.2.length = n) (hj : j < n) : pivotStepC n j s = Except.ok (pivotStep n j s) := by
  obtain ⟨hmi, hmj⟩ := pivotSearch_lt s.1 n j hj
  obtain ⟨hs1, _⟩ := swapColumns_spec hs (pivotSearch s.1 n j).2.1 j (le_of_lt hmj)
    (le_of_lt hj)
  obtain ⟨hs2, _⟩ := swapRows_spec hs1 (pivotSearch s.1 n j).1 j hmi hj
  unfold pivotStepC
  rw [pivotSearchC_eq hs j (le_of_lt hj), bind_ok,
    swapColumnsC_eq hs _ j (le_of_lt hmj) (le_of_lt hj), bind_ok,
    swapRowsC_eq _ _ j (by rw [hs1.1]; exact hmi) (by rw [hs1.1]; exact hj), bind_ok,
    swapOrderC_eq s.2 j _ (by rw [ho]; exact hj) (by rw [ho]; exact hmj), bind_ok,
    eliminateC_eq hs2 j hj, bind_ok]
  rfl

theorem eliminationC_eq {n : Nat} {mx : List (List ℚ)} (hs : Shape n mx) :
    eliminationC mx n = Except.ok (elimination mx n) := by
  unfold eliminationC elimination
  refine (forLoopC_eq (fun _ s => Shape n s.1 ∧ ValidOrder n s.2) _ _ _ (Nat.zero_le n)
    ⟨hs, validOrder_range n⟩ ?_).1
  intro j s _ hj h
  exact ⟨pivotStepC_eq h.1 h.2.1 hj, pivotStep_shape hj h.1, pivotStep_validOrder hj h.2⟩

theorem backSubstituteC_eq {n : Nat} {mx : List (List ℚ)} (hs : Shape n mx) (res : List ℚ)
    (hn : 1 ≤ n) (hres : res.length = n) :
    backSubstituteC mx n res = Except.ok (backSubstitute mx n res) := by
  unfold backSubstituteC backSubstitute
  have h1 : n - 1 < n := by omega
  rw [readMx_ok hs (n - 1) n h1 (le_refl n), bind_ok,
    readMx_ok hs (n - 1) (n - 1) h1 (le_of_lt h1), bind_ok,
    writeVec_ok res (n - 1) _ (by rw [hres]; exact h1), bind_ok]
  refine (forLoopDownC_eq (fun _ (acc : List ℚ) => acc.length = n) _ _ (n - 1) _
    (by simp only [List.length_set]; exact hres) ?_).1
  intro i acc hi hl
  have hin : i < n := by omega
  refine ⟨?_, by simp only [List.length_set]; exact hl⟩
  have hsum := (forLoopC_eq (fun _ (_ : ℚ) => True)
    (fun j sm => (readMx mx i j).bind (fun a =>
      (readVec acc j 0).bind (fun y => Except.ok (sm + a * y))))
    (fun j sm => sm + mget mx i j * acc.getD j 0) 0 (show i + 1 ≤ n by omega) trivial
    (by
      intro k sm _ hk _
      refine ⟨?_, trivial⟩
      show (readMx mx i k).bind _ = _
      rw [readMx_ok hs i k hin (le_of_lt hk), bind_ok,
        readVec_ok acc k 0 (by rw [hl]; exact hk), bind_ok])).1
  show (forLoopC (i + 1) n _ 0).bind _ = _
  rw [hsum, bind_ok, readMx_ok hs i n hin (le_refl n), bind_ok,
    readMx_ok hs i i hin (le_of_lt hin), bind_ok,
    writeVec_ok acc i _ (by rw [hl]; exact hin)]

theorem restoreWhileC_succ (n i fuel next : Nat) (s : List ℚ × List Nat) :
    restoreWhileC n i (fuel + 1) next s =
      (readVec s.2 next 0).bind (fun q =>
        if q ≠ n then
          (swapResC s.1 i q).bind (fun res =>
            (writeVec s.2 next n).bind (fun x_order =>
              restoreWhileC n i fuel q (res, x_order)))
        else Except.ok s) := rfl

theorem restoreWhileC_eq {n i : Nat} (hi : i < n) :
    ∀ fuel next s, next < n → RestoreBounds n s → unmarkedCount n s.2 < fuel →
      ∃ s2, restoreWhileC n i fuel next s = Except.ok s2 ∧
        restoreWhile n i fuel next s = some s2 ∧ RestoreBounds n s2 := by
  intro fuel
  induction fuel with
  | zero => intro next s _ _ hc; exact absurd hc (Nat.not_lt_zero _)
  | succ f ih =>
    intro next s hnext hb hc
    obtain ⟨hl1, hl2, hent⟩ := hb
    rw [restoreWhileC_succ, readVec_ok s.2 next 0 (by rw [hl2]; exact hnext), bind_ok]
    by_cases hq : s.2.getD next 0 ≠ n
    · have hqn : s.2.getD next 0 < n := lt_of_le_of_ne (hent next hnext) hq
      rw [if_pos hq, swapResC_eq s.1 i _ (by rw [hl1]; exact hi) (by rw [hl1]; exact hqn),
        bind_ok, writeVec_ok s.2 next n (by rw [hl2]; exact hnext), bind_ok,
        restoreWhile_unmarked n i f next s hq]
      have hcount := unmarkedCount_set s.2 next hnext hl2 hq
      apply ih _ _ hqn
      · refine ⟨by rw [swapRes_length]; exact hl1, by rw [List.length_set]; exact hl2, ?_⟩
        intro k hk
        show (s.2.set next n).getD k 0 ≤ n
        rw [getD_set]
        split_ifs
        · exact le_refl n
        · exact hent k hk
      · show unmarkedCount n (s.2.set next n) < f
        omega
    · rw [if_neg hq, restoreWhile_marked n i f next s (not_not.mp hq)]
      exact ⟨s, rfl, rfl, hl1, hl2, hent⟩

theorem restoreC_eq {n fuel : Nat} {res : List ℚ} {x_order : List Nat}
    (hb : RestoreBounds n (res, x_order)) (hf : n < fuel) :
    ∃ s2, restoreC n fuel res x_order = Except.ok s2 ∧
      restore n fuel res x_order = some s2 := by
  have key := forLoop_inv
    (fun i (acc : Checked (List ℚ × List Nat)) =>
      ∃ s, acc = Except.ok s ∧
        forLoop 0 i (fun i acc => acc.bind (restoreWhile n i fuel i)) (some (res, x_order)) =
          some s ∧ RestoreBounds n s)
    (fun i acc => acc.bind (fun s => restoreWhileC n i fuel i s)) (Except.ok (res, x_order))
    (Nat.zero_le n)
    ⟨(res, x_order), rfl, forLoop_of_le (le_refl 0) _ _, hb⟩
    (by
      rintro i acc - hi ⟨s, rfl, hplain, hbs⟩
      rw [forLoop_succ_right (Nat.zero_le i), hplain]
      show ∃ s2, restoreWhileC n i fuel i s = Except.ok s2 ∧
        restoreWhile n i fuel i s = some s2 ∧ _
      obtain ⟨s2, h1, h2, h3⟩ := restoreWhileC_eq hi fuel i s hi hbs
        (lt_of_le_of_lt (unmarkedCount_le n s.2) hf)
      exact ⟨s2, h1, h2, h3⟩)
  obtain ⟨s2, h1, h2, _⟩ := key
  exact ⟨s2, h1, h2⟩

/-- On a well-shaped input no access of the checked solver is out of
bounds, and the checked solver returns what `solve` returns. -/
theorem solveC_eq {n : Nat} {mx : List (List ℚ)} (hs : Shape n mx) (res : List ℚ) (fuel : Nat)
    (hn : 1 ≤ n) (hres : res.length = n) (hf : n < fuel) :
    ∃ out, solveC fuel mx res = Except.ok out ∧ solve fuel mx res = some out := by
  obtain ⟨_, ho⟩ := elimination_general mx hs
  have hb : RestoreBounds n (backSubstitute (elimination mx n).1 n res, (elimination mx n).2) :=
    ⟨by rw [backSubstitute_length, hres], ho.1, fun k hk => le_of_lt (ho.2.1 k hk)⟩
  obtain ⟨s2, h1, h2⟩ := restoreC_eq hb hf
  refine ⟨s2.1, ?_, ?_⟩
  · unfold solveC
    rw [hs.1, eliminationC_eq hs, bind_ok,
      backSubstituteC_eq (elimination_general mx hs).1 res hn hres, bind_ok, h1, bind_ok]
  · unfold solve
    rw [hs.1]
    show Option.map Prod.fst (restore n fuel _ _) = _
    rw [h2]
    rfl

/-- C19: for every `n ≥ 1`, every matrix with `n` rows of `n + 1` entries
and every `res` of length `n`, whatever the matrix values, the run of `solve`
with every subscript checked (rows of `mx` below `n`, columns at most `n`,
`x_order` and `res` below `n`, in the restore loop `next` and
`x_order[next]` when it is not the sentinel) meets no out-of-bounds access and
returns the result of `solve`. -/
theorem solve_indices_in_bounds (n : Nat) (mx : List (List ℚ)) (res : List ℚ) (fuel : Nat)
    (hn : 1 ≤ n) (hrows : mx.length = n) (hcols : ∀ row ∈ mx, row.length = n + 1)
    (hres : res.length = n) (hfuel : n < fuel) :
    solveC fuel mx res ≠ Except.error Fault.outOfBounds ∧
      ∃ out, solveC fuel mx res = Except.ok out ∧ solve fuel mx res = some out := by
  obtain ⟨out, h1, h2⟩ := solveC_eq (shape_of_rows hrows hcols) res fuel hn hres hfuel
  refine ⟨?_, out, h1, h2⟩
  rw [h1]
  intro h
  cases h

theorem solve_indices_in_bounds_witness :
    solveC 3 [[1, 1, 2], [1, 1, 2]] [0, 0] ≠ Except.error Fault.outOfBounds ∧
      ∃ out, solveC 3 [[1, 1, 2], [1, 1, 2]] [0, 0] = Except.ok out ∧
        solve 3 [[1, 1, 2], [1, 1, 2]] [0, 0] = some out :=
  solve_indices_in_bounds 2 [[1, 1, 2], [1, 1, 2]] [0, 0] 3 (by decide) rfl (by decide) rfl
    (by decide)

/-- The checks are effective: on an empty system `res[n - 1]` is out of
bounds, and so is a read past the end of a short row. -/
theorem solveC_faults_on_bad_shape :
    solveC 3 [] [] = Except.error Fault.outOfBounds ∧
      solveC 3 [[1, 2], [3]] [0, 0] = Except.error Fault.outOfBounds := by
  constructor <;> with_unfolding_all rfl

end NewtonSolver
